import Mathlib

/-!
# BrainfuckDecompiler: reducer, optimizer and emitter

A shallow embedding of `main.cpp`.

* A C++ `char` is a Lean `Char`; a byte embeds as the character with the same
  code.  The input buffer is a `List Char`; the byte read at the end of the list
  is the terminator that `main` stores at `input[inputSize]`.
* A `const char* p` walking the buffer is the list of characters from `p` on.
* A C++ `int` is an `Int` in the range of a 32-bit `int`.  The counters of the
  reducer and the `value` fields are updated with `++`, `--`, `+=` and unary `-`;
  each result is reduced by `wrapInt` to that range, modulo `2^32` (two's
  complement: what the compiled program computes where C++ leaves the overflow
  undefined).  The depth counter of the emitter is not reduced: it moves by one
  at a loop delimiter, and a text in which it has come to `2^31` holds more than
  `2^60` tabs.
* `list<SyntaxElem*>` is a `List SyntaxElem`; an iterator `a` is the element it
  points at together with the elements after it.
-/

namespace BrainfuckDecompiler

/-! ## Instruction model -/

/-- The classes deriving from `SyntaxElem`, with their `value` field. -/
inductive SyntaxElem where
  | AssignValue (value : Int)
  | ChangeValue (value : Int)
  | MovePointer (value : Int)
  | PrintValue
  | ReadValue
  | LoopStart
  | LoopEnd
  deriving DecidableEq, Repr

/-- The instruction sequence `list<SyntaxElem*>`. -/
abbrev Program := List SyntaxElem

/-- The enumeration `CharType`. -/
inductive CharType where
  | Nop
  | MovePointerForward
  | MovePointerBackward
  | IncrementValue
  | DecrementValue
  | PrintValue
  | ReadValue
  | LoopStart
  | LoopEnd
  deriving DecidableEq, Repr

/-! ## Machine integers -/

/-- The value a 32-bit `int` holds for the integer `x`: the representative of `x`
modulo `2^32` between `-2^31` and `2^31 - 1` (two's complement). -/
def wrapInt (x : Int) : Int := (x + 2147483648) % 4294967296 - 2147483648

/-- An integer in the range of a 32-bit `int`. -/
def fitsInt (x : Int) : Prop := -2147483648 ≤ x ∧ x ≤ 2147483647

instance (x : Int) : Decidable (fitsInt x) := by
  unfold fitsInt
  infer_instance

/-! ## Reducer (`Decompiler::Decompile`) -/

/-- The string terminator. -/
def NUL : Char := Char.ofNat 0

/-- The character `*p`: the head of what is left, the terminator at the end. -/
def cur (p : List Char) : Char := p.headD NUL

/-- `Decompiler::ReadElemType`. -/
def ReadElemType (element : Char) : CharType :=
  if element = '>' then CharType.MovePointerForward
  else if element = '<' then CharType.MovePointerBackward
  else if element = '+' then CharType.IncrementValue
  else if element = '-' then CharType.DecrementValue
  else if element = '.' then CharType.PrintValue
  else if element = ',' then CharType.ReadValue
  else if element = '[' then CharType.LoopStart
  else if element = ']' then CharType.LoopEnd
  else CharType.Nop

/-- `Decompiler::SkipNils`: `while (*p && ReadElemType(*p) == Nop) ++p;`. -/
def SkipNils : List Char → List Char
  | [] => []
  | c :: cs =>
    if c ≠ NUL ∧ ReadElemType c = CharType.Nop then SkipNils cs else c :: cs

/-- The first inner loop of `Decompile` (lines 259-269): it runs over `Nop`,
`>` and `<`, counting the moves into the `int value` with `++value` and
`--value`; returns `value` and `p`. -/
def scanMoves (value : Int) : List Char → Int × List Char
  | [] => (value, [])
  | c :: cs =>
    if c ≠ NUL ∧ (ReadElemType c = CharType.Nop
        ∨ ReadElemType c = CharType.MovePointerForward
        ∨ ReadElemType c = CharType.MovePointerBackward) then
      let value1 :=
        if ReadElemType c = CharType.MovePointerForward then wrapInt (value + 1) else value
      let value2 :=
        if ReadElemType c = CharType.MovePointerBackward then wrapInt (value1 - 1) else value1
      scanMoves value2 cs
    else (value, c :: cs)

/-- The second inner loop of `Decompile` (lines 277-287): it runs over `Nop`,
`+` and `-`, counting the changes into the `int value` with `++value` and
`--value`; returns `value` and `p`. -/
def scanChanges (value : Int) : List Char → Int × List Char
  | [] => (value, [])
  | c :: cs =>
    if c ≠ NUL ∧ (ReadElemType c = CharType.Nop
        ∨ ReadElemType c = CharType.IncrementValue
        ∨ ReadElemType c = CharType.DecrementValue) then
      let value1 :=
        if ReadElemType c = CharType.IncrementValue then wrapInt (value + 1) else value
      let value2 :=
        if ReadElemType c = CharType.DecrementValue then wrapInt (value1 - 1) else value1
      scanChanges value2 cs
    else (value, c :: cs)

/-- One of the four tests at lines 295-317:
`if (*p && ReadElemType(*p) == t) { output.push_back(e); p++; }`. -/
def takeElem (t : CharType) (e : SyntaxElem) (s : List Char × Program) : List Char × Program :=
  match s.1 with
  | [] => s
  | c :: cs => if c ≠ NUL ∧ ReadElemType c = t then (cs, s.2 ++ [e]) else s

/-- The body of the outer `while (*p)` loop of `Decompile`, lines 255-317, on the
pointer `p` and the list `output`. -/
def DecompileBody (p : List Char) (output : Program) : List Char × Program :=
  let p1 := SkipNils p
  let m := scanMoves 0 p1
  let output1 := if m.1 ≠ 0 then output ++ [SyntaxElem.MovePointer m.1] else output
  let p2 := SkipNils m.2
  let c := scanChanges 0 p2
  let output2 := if c.1 ≠ 0 then output1 ++ [SyntaxElem.ChangeValue c.1] else output1
  let p3 := SkipNils c.2
  takeElem CharType.LoopEnd SyntaxElem.LoopEnd
    (takeElem CharType.LoopStart SyntaxElem.LoopStart
      (takeElem CharType.ReadValue SyntaxElem.ReadValue
        (takeElem CharType.PrintValue SyntaxElem.PrintValue (p3, output2))))

/-! ## Optimizer -/

/-- `Optimizer::FindZeroes`.  The iterator `a` is at the head of the list; on a match
the three elements become `AssignValue(0)` and `++a` steps past it. -/
def FindZeroes : Program → Program × Bool
  | [] => ([], false)
  | SyntaxElem.LoopStart :: SyntaxElem.ChangeValue v :: SyntaxElem.LoopEnd :: rest =>
    if v = -1 then (SyntaxElem.AssignValue 0 :: (FindZeroes rest).1, true)
    else (SyntaxElem.LoopStart
            :: (FindZeroes (SyntaxElem.ChangeValue v :: SyntaxElem.LoopEnd :: rest)).1,
          (FindZeroes (SyntaxElem.ChangeValue v :: SyntaxElem.LoopEnd :: rest)).2)
  | a :: rest => (a :: (FindZeroes rest).1, (FindZeroes rest).2)

/-- The loop of `Optimizer::ConnectValueMoves` with the iterator at `a`, followed by
the given elements.  A merge (`elema->value += elemb->value`, on `int` fields)
keeps the iterator on the merged element; a merge to zero erases it and moves the
iterator to the next element. -/
def ConnectValueMovesAt (a : SyntaxElem) : Program → Program × Bool
  | [] => ([a], false)
  | b :: rest =>
    match a, b with
    | SyntaxElem.ChangeValue x, SyntaxElem.ChangeValue y =>
      if wrapInt (x + y) = 0 then
        match rest with
        | [] => ([], true)
        | c :: rest2 => ((ConnectValueMovesAt c rest2).1, true)
      else ((ConnectValueMovesAt (SyntaxElem.ChangeValue (wrapInt (x + y))) rest).1, true)
    | _, _ => (a :: (ConnectValueMovesAt b rest).1, (ConnectValueMovesAt b rest).2)

/-- `Optimizer::ConnectValueMoves`. -/
def ConnectValueMoves : Program → Program × Bool
  | [] => ([], false)
  | a :: rest => ConnectValueMovesAt a rest

/-- The loop of `Optimizer::ConnectPointerMoves` with the iterator at `a`; the
merge is `elema->value += elemb->value`, on `int` fields. -/
def ConnectPointerMovesAt (a : SyntaxElem) : Program → Program × Bool
  | [] => ([a], false)
  | b :: rest =>
    match a, b with
    | SyntaxElem.MovePointer x, SyntaxElem.MovePointer y =>
      if wrapInt (x + y) = 0 then
        match rest with
        | [] => ([], true)
        | c :: rest2 => ((ConnectPointerMovesAt c rest2).1, true)
      else ((ConnectPointerMovesAt (SyntaxElem.MovePointer (wrapInt (x + y))) rest).1, true)
    | _, _ => (a :: (ConnectPointerMovesAt b rest).1, (ConnectPointerMovesAt b rest).2)

/-- `Optimizer::ConnectPointerMoves`. -/
def ConnectPointerMoves : Program → Program × Bool
  | [] => ([], false)
  | a :: rest => ConnectPointerMovesAt a rest

/-- The loop of `Optimizer::ConnectAssigment` with the iterator at `a`: a
`ChangeValue` after an `AssignValue` is added to it (`elema->value += elemb->value`,
on `int` fields) and erased, and the iterator stays. -/
def ConnectAssigmentAt (a : SyntaxElem) : Program → Program × Bool
  | [] => ([a], false)
  | b :: rest =>
    match a, b with
    | SyntaxElem.AssignValue x, SyntaxElem.ChangeValue y =>
      ((ConnectAssigmentAt (SyntaxElem.AssignValue (wrapInt (x + y))) rest).1, true)
    | _, _ => (a :: (ConnectAssigmentAt b rest).1, (ConnectAssigmentAt b rest).2)

/-- `Optimizer::ConnectAssigment`. -/
def ConnectAssigment : Program → Program × Bool
  | [] => ([], false)
  | a :: rest => ConnectAssigmentAt a rest

/-- One round of the loop of `Optimizer::Optimize` (lines 369-373): the four rules
in order, each on the result of the one before, and the `changed` flag. -/
def OptimizeRound (out : Program) : Program × Bool :=
  let r1 := ConnectPointerMoves out
  let r2 := ConnectValueMoves r1.1
  let r3 := ConnectAssigment r2.1
  let r4 := FindZeroes r3.1
  (r4.1, r1.2 || r2.2 || r3.2 || r4.2)

/-! ## Emitter -/

/-- `SyntaxElem::PrintBegin`: a line feed and `deep` tabs.  With a negative `deep`
the loop `while (t--)` goes on until `t` has left the range of `int`, after more
than `2^31` tabs; no result is given for that. -/
def PrintBegin (result : String) (deep : Int) : Option String :=
  if 0 ≤ deep then some ((result ++ "\n").pushn '\t' deep.toNat) else none

/-- The virtual method `Print(string& result, int& deep)` of the seven classes.  A
negative `value` is written as `-value`, the negation of an `int`. -/
def SyntaxElem.Print (e : SyntaxElem) (result : String) (deep : Int) : Option (String × Int) :=
  match e with
  | SyntaxElem.AssignValue value =>
    (PrintBegin result deep).map fun r => (r ++ ("*p = " ++ toString value ++ ";"), deep)
  | SyntaxElem.ChangeValue value =>
    if value = 0 then some (result, deep)
    else (PrintBegin result deep).map fun r =>
      if value > 0 then (r ++ ("*p += " ++ toString value ++ ";"), deep)
      else (r ++ ("*p -= " ++ toString (wrapInt (-value)) ++ ";"), deep)
  | SyntaxElem.MovePointer value =>
    if value = 0 then some (result, deep)
    else (PrintBegin result deep).map fun r =>
      if value > 0 then (r ++ ("p += " ++ toString value ++ ";"), deep)
      else (r ++ ("p -= " ++ toString (wrapInt (-value)) ++ ";"), deep)
  | SyntaxElem.PrintValue =>
    (PrintBegin result deep).map fun r => (r ++ "putchar(*p);", deep)
  | SyntaxElem.ReadValue =>
    (PrintBegin result deep).map fun r => (r ++ "*p = getchar();", deep)
  | SyntaxElem.LoopStart =>
    (PrintBegin result deep).map fun r => (r ++ "while(*p) \x7b", deep + 1)
  | SyntaxElem.LoopEnd =>
    (PrintBegin result (deep - 1)).map fun r => (r ++ "\x7d", deep - 1)

/-- The loop `for (auto v : output) v->Print(o, deep);` of `Decompiler::Print`. -/
def PrintLoop : Program → String → Int → Option (String × Int)
  | [], o, deep => some (o, deep)
  | v :: rest, o, deep =>
    match v.Print o deep with
    | none => none
    | some r => PrintLoop rest r.1 r.2

/-- `Decompiler::Print`: the text of the program, from an empty string and depth 1. -/
def Print (output : Program) : Option String := (PrintLoop output "" 1).map Prod.fst

/-! ## Reference semantics of the instruction set

The semantics the instructions stand for: a tape of byte cells with arithmetic
modulo 256, an integer tape pointer, an input stream and an output stream.  The
loop delimiters are paired into nested loops, and a loop runs its body while the
current cell is not zero. -/

/-- The state of the abstract machine. -/
structure Machine where
  tape : Int → ZMod 256
  ptr : Int
  input : List (ZMod 256)
  output : List (ZMod 256)

/-- The cell under the pointer. -/
def Machine.cell (m : Machine) : ZMod 256 := m.tape m.ptr

/-- Writing the cell under the pointer. -/
def Machine.store (m : Machine) (v : ZMod 256) : Machine :=
  { m with tape := Function.update m.tape m.ptr v }

/-- The effect of an instruction other than a loop delimiter.  `ReadValue` on an
empty input stores `-1`, as `*p = getchar()` does at the end of the input. -/
def stepOp : SyntaxElem → Machine → Machine
  | SyntaxElem.MovePointer d, m => { m with ptr := m.ptr + d }
  | SyntaxElem.ChangeValue d, m => m.store (m.cell + (d : ZMod 256))
  | SyntaxElem.AssignValue v, m => m.store (v : ZMod 256)
  | SyntaxElem.PrintValue, m => { m with output := m.output ++ [m.cell] }
  | SyntaxElem.ReadValue, m =>
    match m.input with
    | [] => m.store (-1)
    | c :: cs => { m.store c with input := cs }
  | SyntaxElem.LoopStart, m => m
  | SyntaxElem.LoopEnd, m => m

/-- A program with its loop delimiters paired: an instruction, or a loop with
its body. -/
inductive Stmt where
  | op (e : SyntaxElem)
  | loop (body : List Stmt)

/-- A sequence of statements. -/
abbrev Block := List Stmt

/-- Pairing the delimiters, one instruction.  The state is the block being read
and, innermost first, the blocks around it that wait for their `LoopEnd`.  A
`LoopEnd` with no loop open fails. -/
def pairStep (s : Block × List Block) (e : SyntaxElem) : Option (Block × List Block) :=
  match e with
  | SyntaxElem.LoopStart => some ([], s.1 :: s.2)
  | SyntaxElem.LoopEnd =>
    match s.2 with
    | [] => none
    | outer :: stack => some (outer ++ [Stmt.loop s.1], stack)
  | _ => some (s.1 ++ [Stmt.op e], s.2)

/-- Pairing the delimiters of a program, from a state. -/
def pairLoops : Program → Block × List Block → Option (Block × List Block)
  | [], s => some s
  | e :: rest, s =>
    match pairStep s e with
    | none => none
    | some t => pairLoops rest t

/-- The nested form of a program; `none` when its delimiters do not match. -/
def nesting (P : Program) : Option Block :=
  match pairLoops P ([], []) with
  | some (top, []) => some top
  | _ => none

/-- The interpreter of blocks; `fuel` bounds the depth of the evaluation and
`none` is returned when it runs out. -/
def exec : Nat → Block → Machine → Option Machine
  | 0, _, _ => none
  | _ + 1, [], m => some m
  | fuel + 1, Stmt.op e :: rest, m => exec fuel rest (stepOp e m)
  | fuel + 1, Stmt.loop body :: rest, m =>
    if m.cell = 0 then exec fuel rest m
    else
      match exec fuel body m with
      | none => none
      | some m1 => exec fuel (Stmt.loop body :: rest) m1

/-- The program `P` started in the state `m` terminates, in the state `m'`. -/
def Executes (P : Program) (m m' : Machine) : Prop :=
  ∃ T, nesting P = some T ∧ ∃ fuel, exec fuel T m = some m'

/-- The nesting depth after the program, from depth `d`; `none` when a `LoopEnd`
comes at depth zero. -/
def depthAfter : Program → Nat → Option Nat
  | [], d => some d
  | SyntaxElem.LoopStart :: rest, d => depthAfter rest (d + 1)
  | SyntaxElem.LoopEnd :: _, 0 => none
  | SyntaxElem.LoopEnd :: rest, d + 1 => depthAfter rest d
  | _ :: rest, d => depthAfter rest d

/-- Balanced loop delimiters: no `LoopEnd` without a `LoopStart` before it, and
no loop left open. -/
def BalancedLoops (P : Program) : Prop := depthAfter P 0 = some 0

instance (P : Program) : Decidable (BalancedLoops P) := by
  unfold BalancedLoops
  infer_instance

/-- The terminating runs of a block, as a relation (the interpreter `exec` with
the fuel left out). -/
inductive Run : Block → Machine → Machine → Prop where
  | nil (m : Machine) : Run [] m m
  | op (e : SyntaxElem) (rest : Block) (m m' : Machine) :
      Run rest (stepOp e m) m' → Run (Stmt.op e :: rest) m m'
  | loopExit (body rest : Block) (m m' : Machine) :
      m.cell = 0 → Run rest m m' → Run (Stmt.loop body :: rest) m m'
  | loopIter (body rest : Block) (m m1 m' : Machine) :
      m.cell ≠ 0 → Run body m m1 → Run (Stmt.loop body :: rest) m1 m' →
      Run (Stmt.loop body :: rest) m m'

/-- Two blocks with the same runs. -/
def BlockEquiv (X Y : Block) : Prop := ∀ m m', Run X m m' ↔ Run Y m m'

/-- Two states of the pairing that hold blocks with the same runs. -/
def StateEquiv (s t : Block × List Block) : Prop :=
  BlockEquiv s.1 t.1 ∧ List.Forall₂ BlockEquiv s.2 t.2

/-- Two results of the pairing: both a failure, or equivalent states. -/
def OptionEquiv : Option (Block × List Block) → Option (Block × List Block) → Prop
  | none, none => True
  | some s, some t => StateEquiv s t
  | _, _ => False

/-- Two programs that the pairing takes from equivalent states to equivalent
states, failing together. -/
def SameMeaning (P Q : Program) : Prop :=
  ∀ s t, StateEquiv s t → OptionEquiv (pairLoops P s) (pairLoops Q t)

/-- An instruction other than a loop delimiter. -/
def isOp : SyntaxElem → Bool
  | SyntaxElem.LoopStart => false
  | SyntaxElem.LoopEnd => false
  | _ => true

/-! ## The tokenizer of the specification -/

/-- The characters of the C string in a buffer: those before the first terminator. -/
def cString (buf : List Char) : List Char := buf.takeWhile (fun c => decide (c ≠ NUL))

/-- The eight instruction characters. -/
def isInstruction (c : Char) : Bool :=
  decide (c ∈ ['>', '<', '+', '-', '.', ',', '[', ']'])

/-- A pointer-move character. -/
def isMove (c : Char) : Bool := decide (c = '>' ∨ c = '<')

/-- A value-change character. -/
def isChange (c : Char) : Bool := decide (c = '+' ∨ c = '-')

/-- Two neighbours of one run: both pointer moves, or both value changes. -/
def sameRun (a b : Char) : Bool := (isMove a && isMove b) || (isChange a && isChange b)

/-- The net count of a run: occurrences of `up` less those of `down`. -/
def netCount (up down : Char) (run : List Char) : Int :=
  (run.count up : Int) - (run.count down : Int)

/-- The instructions a run stands for: `MovePointer` or `ChangeValue` with the net
count of the run, left out when the net count is zero, and `Print`, `Read`,
`LoopStart`, `LoopEnd` for the four single characters. -/
def tokenOfRun (run : List Char) : Program :=
  match run with
  | [] => []
  | c :: _ =>
    if isMove c then
      (if netCount '>' '<' run = 0 then [] else [SyntaxElem.MovePointer (netCount '>' '<' run)])
    else if isChange c then
      (if netCount '+' '-' run = 0 then [] else [SyntaxElem.ChangeValue (netCount '+' '-' run)])
    else if c = '.' then [SyntaxElem.PrintValue]
    else if c = ',' then [SyntaxElem.ReadValue]
    else if c = '[' then [SyntaxElem.LoopStart]
    else if c = ']' then [SyntaxElem.LoopEnd]
    else []

/-- The instructions of a list of instruction characters: its maximal runs of
pointer moves, its maximal runs of value changes and its other characters one
by one, each mapped by `tokenOfRun`, in order. -/
def foldRuns (l : List Char) : Program := (l.splitBy sameRun).flatMap tokenOfRun

/-- The run-folding tokenizer of the specification: delete the characters that
are not instructions, then fold the runs. -/
def referenceTokenizer (s : List Char) : Program := foldRuns (s.filter isInstruction)

/-- The instruction characters of the C string in a buffer. -/
def instructionChars (p : List Char) : List Char := (cString p).filter isInstruction

/-! ## The instructions of the reducer, run by run -/

/-- The instructions the reducer pushes for a run: those of `tokenOfRun`, with the
net count of the run as the `int` counter of the reducer holds it. -/
def tokenOfRunInt (run : List Char) : Program :=
  match run with
  | [] => []
  | c :: _ =>
    if isMove c then
      (if wrapInt (netCount '>' '<' run) = 0 then []
       else [SyntaxElem.MovePointer (wrapInt (netCount '>' '<' run))])
    else if isChange c then
      (if wrapInt (netCount '+' '-' run) = 0 then []
       else [SyntaxElem.ChangeValue (wrapInt (netCount '+' '-' run))])
    else if c = '.' then [SyntaxElem.PrintValue]
    else if c = ',' then [SyntaxElem.ReadValue]
    else if c = '[' then [SyntaxElem.LoopStart]
    else if c = ']' then [SyntaxElem.LoopEnd]
    else []

/-- The runs of a list of instruction characters, each mapped by `tokenOfRunInt`. -/
def foldRunsInt (l : List Char) : Program := (l.splitBy sameRun).flatMap tokenOfRunInt

/-- What is still to come out of the reducer in a state of its outer loop: the
instructions pushed so far and the instructions of the rest of the buffer. -/
def pending (s : List Char × Program) : Program := s.2 ++ foldRunsInt (instructionChars s.1)

/-- Every maximal run of the instruction characters of `s` has a net count in the
range of `int`. -/
def RunsFit (s : List Char) : Prop :=
  ∀ run ∈ (s.filter isInstruction).splitBy sameRun,
    fitsInt (netCount '>' '<' run) ∧ fitsInt (netCount '+' '-' run)

/-! ## Bounded loops -/

/-- The outer loop of `Decompile` with a bound on the number of its iterations:
`none` when the loop is still running after `fuel` iterations. -/
def DecompileWithin : Nat → List Char → Program → Option Program
  | fuel, p, output =>
    if cur p = NUL then some output
    else
      match fuel with
      | 0 => none
      | fuel + 1 => DecompileWithin fuel (DecompileBody p output).1 (DecompileBody p output).2

/-- The loop of `Optimize` with a bound on the number of its rounds: `none` when
the loop is still running after `fuel` rounds. -/
def OptimizeWithin : Nat → Program → Option Program
  | 0, _ => none
  | fuel + 1, out =>
    if (OptimizeRound out).2 = true then OptimizeWithin fuel (OptimizeRound out).1
    else some (OptimizeRound out).1

/-! ## Loop delimiters -/

/-- The loop delimiters of a program, in order. -/
def delimiters (P : Program) : Program := P.filter (fun e => !isOp e)

/-! ## Instructions with a zero delta -/

/-- A program without `MovePointer 0` and without `ChangeValue 0`. -/
def NoZeroDelta (P : Program) : Prop :=
  SyntaxElem.MovePointer 0 ∉ P ∧ SyntaxElem.ChangeValue 0 ∉ P

/-! ## Rendered text -/

/-- A string of `n` tabs. -/
def tabs (n : Nat) : String := String.mk (List.replicate n '\t')

/-! ## Running sum of a run of moves -/

/-- The running sum of a run of deltas, from left to right: the sum so far, or
`none` when it has just come to zero (or nothing has been read). -/
def runningSum : Option Int → List Int → Option Int
  | acc, [] => acc
  | none, d :: ds => runningSum (some d) ds
  | some s, d :: ds => if s + d = 0 then runningSum none ds else runningSum (some (s + d)) ds

/-! ## Text of a nested program -/

/-- The statement an instruction other than a loop delimiter is rendered as, without
its indentation; `none` when nothing is rendered.  The number after `-=` is the
negation of the delta as an `int`. -/
def statementText : SyntaxElem → Option String
  | SyntaxElem.AssignValue v => some ("*p = " ++ toString v ++ ";")
  | SyntaxElem.ChangeValue v =>
    if v = 0 then none
    else if v > 0 then some ("*p += " ++ toString v ++ ";")
    else some ("*p -= " ++ toString (wrapInt (-v)) ++ ";")
  | SyntaxElem.MovePointer v =>
    if v = 0 then none
    else if v > 0 then some ("p += " ++ toString v ++ ";")
    else some ("p -= " ++ toString (wrapInt (-v)) ++ ";")
  | SyntaxElem.PrintValue => some "putchar(*p);"
  | SyntaxElem.ReadValue => some "*p = getchar();"
  | SyntaxElem.LoopStart => none
  | SyntaxElem.LoopEnd => none

/-- A line: a line feed, `n` tabs and the statement. -/
def line (n : Nat) (text : String) : String := "\n" ++ tabs n ++ text

/-- The text of a block inside `j` loops: every line has `1 + j` tabs, the body of
a loop is inside one loop more, and the closing line of a loop has the indentation
of its opening line. -/
def renderBlock : Nat → Block → String
  | _, [] => ""
  | j, Stmt.op e :: rest =>
    (match statementText e with
     | none => ""
     | some text => line (1 + j) text) ++ renderBlock j rest
  | j, Stmt.loop body :: rest =>
    line (1 + j) "while(*p) \x7b" ++ renderBlock (j + 1) body ++ line (1 + j) "\x7d"
      ++ renderBlock j rest

/-- The text of the loops that are open, innermost first: each block read so far
and the opening line of the loop that follows it. -/
def renderFrames : List Block → String
  | [] => ""
  | b :: stack =>
    renderFrames stack ++ renderBlock stack.length b ++ line (1 + stack.length) "while(*p) \x7b"

/-- The text of a state of the pairing: the open loops and the block being read. -/
def renderState (s : Block × List Block) : String :=
  renderFrames s.2 ++ renderBlock s.2.length s.1

/-! ## Size of the pointer moves -/

/-- The size of the move of an instruction: the absolute value of the delta of a
`MovePointer`, zero for any other instruction. -/
def moveSize : SyntaxElem → Nat
  | SyntaxElem.MovePointer d => d.natAbs
  | _ => 0

/-- The sizes of the pointer moves of a program, added up. -/
def moveWeight (P : Program) : Nat := (P.map moveSize).sum

/-! ## The two loops

The outer loop of the reducer and the loop of the optimizer end because every
iteration that goes on makes the rest of the buffer, or the program, shorter. -/

/-! ### An iteration of the reducer consumes a character -/

theorem SkipNils_length_le (p : List Char) : (SkipNils p).length ≤ p.length := by
  induction p with
  | nil => simp [SkipNils]
  | cons c cs ih =>
    unfold SkipNils
    split
    · exact Nat.le_succ_of_le ih
    · exact Nat.le_refl _

theorem scanMoves_length_le (p : List Char) (v : Int) :
    (scanMoves v p).2.length ≤ p.length := by
  induction p generalizing v with
  | nil => simp [scanMoves]
  | cons c cs ih =>
    unfold scanMoves
    split
    · exact Nat.le_succ_of_le (ih _)
    · exact Nat.le_refl _

theorem scanChanges_length_le (p : List Char) (v : Int) :
    (scanChanges v p).2.length ≤ p.length := by
  induction p generalizing v with
  | nil => simp [scanChanges]
  | cons c cs ih =>
    unfold scanChanges
    split
    · exact Nat.le_succ_of_le (ih _)
    · exact Nat.le_refl _

theorem takeElem_length_le (t : CharType) (e : SyntaxElem) (s : List Char × Program) :
    (takeElem t e s).1.length ≤ s.1.length := by
  obtain ⟨p, out⟩ := s
  cases p with
  | nil => simp [takeElem]
  | cons c cs =>
    simp only [takeElem]
    split
    · exact Nat.le_succ _
    · exact Nat.le_refl _

/-- The pointer after the body of the outer loop is a suffix no longer than `p`. -/
theorem DecompileBody_length_le (p : List Char) (output : Program) :
    (DecompileBody p output).1.length ≤ p.length := by
  unfold DecompileBody
  refine le_trans (takeElem_length_le _ _ _) (le_trans (takeElem_length_le _ _ _)
    (le_trans (takeElem_length_le _ _ _) (le_trans (takeElem_length_le _ _ _) ?_)))
  exact le_trans (SkipNils_length_le _) (le_trans (scanChanges_length_le _ _)
    (le_trans (SkipNils_length_le _) (le_trans (scanMoves_length_le _ _) (SkipNils_length_le _))))

/-- Forward progress: an iteration of the outer loop that starts on a character
other than the terminator consumes at least one character. -/
theorem DecompileBody_length_lt (p : List Char) (output : Program) (h : cur p ≠ NUL) :
    (DecompileBody p output).1.length < p.length := by
  cases p with
  | nil => exact absurd rfl h
  | cons c cs =>
    have hc : c ≠ NUL := h
    have e1 := SkipNils_length_le cs
    simp only [DecompileBody]
    by_cases h0 : ReadElemType c = CharType.Nop
    · -- the first `SkipNils` consumes `c`
      refine lt_of_le_of_lt (takeElem_length_le _ _ _) (lt_of_le_of_lt (takeElem_length_le _ _ _)
        (lt_of_le_of_lt (takeElem_length_le _ _ _) (lt_of_le_of_lt (takeElem_length_le _ _ _) ?_)))
      refine lt_of_le_of_lt (SkipNils_length_le _) (lt_of_le_of_lt (scanChanges_length_le _ _)
        (lt_of_le_of_lt (SkipNils_length_le _) (lt_of_le_of_lt (scanMoves_length_le _ _) ?_)))
      simp only [SkipNils, hc, h0, ne_eq, not_false_eq_true, and_self, if_true, List.length_cons]
      omega
    have s1 : SkipNils (c :: cs) = c :: cs := by simp [SkipNils, h0]
    rw [s1]
    by_cases h1 : ReadElemType c = CharType.MovePointerForward
        ∨ ReadElemType c = CharType.MovePointerBackward
    · -- the first inner loop consumes `c`
      refine lt_of_le_of_lt (takeElem_length_le _ _ _) (lt_of_le_of_lt (takeElem_length_le _ _ _)
        (lt_of_le_of_lt (takeElem_length_le _ _ _) (lt_of_le_of_lt (takeElem_length_le _ _ _) ?_)))
      refine lt_of_le_of_lt (SkipNils_length_le _) (lt_of_le_of_lt (scanChanges_length_le _ _)
        (lt_of_le_of_lt (SkipNils_length_le _) ?_))
      have e2 := scanMoves_length_le cs
      rw [scanMoves, if_pos ⟨hc, Or.inr h1⟩]
      exact Nat.lt_succ_of_le (e2 _)
    have s2 : scanMoves 0 (c :: cs) = (0, c :: cs) := by
      rw [scanMoves, if_neg]
      rintro ⟨-, h2 | h2⟩
      · exact h0 h2
      · exact h1 h2
    rw [s2]
    simp only [s1]
    by_cases h2 : ReadElemType c = CharType.IncrementValue
        ∨ ReadElemType c = CharType.DecrementValue
    · -- the second inner loop consumes `c`
      refine lt_of_le_of_lt (takeElem_length_le _ _ _) (lt_of_le_of_lt (takeElem_length_le _ _ _)
        (lt_of_le_of_lt (takeElem_length_le _ _ _) (lt_of_le_of_lt (takeElem_length_le _ _ _) ?_)))
      refine lt_of_le_of_lt (SkipNils_length_le _) ?_
      have e3 := scanChanges_length_le cs
      rw [scanChanges, if_pos ⟨hc, Or.inr h2⟩]
      exact Nat.lt_succ_of_le (e3 _)
    have s3 : scanChanges 0 (c :: cs) = (0, c :: cs) := by
      rw [scanChanges, if_neg]
      rintro ⟨-, h3 | h3⟩
      · exact h0 h3
      · exact h2 h3
    rw [s3]
    simp only [s1]
    -- one of the four tests consumes `c`
    have e4 := takeElem_length_le
    by_cases h3 : ReadElemType c = CharType.PrintValue
    · refine lt_of_le_of_lt (e4 _ _ _) (lt_of_le_of_lt (e4 _ _ _) (lt_of_le_of_lt (e4 _ _ _) ?_))
      simp [takeElem, hc, h3]
    by_cases h4 : ReadElemType c = CharType.ReadValue
    · refine lt_of_le_of_lt (e4 _ _ _) (lt_of_le_of_lt (e4 _ _ _) ?_)
      simp [takeElem, hc, h3, h4]
    by_cases h5 : ReadElemType c = CharType.LoopStart
    · refine lt_of_le_of_lt (e4 _ _ _) ?_
      simp [takeElem, hc, h3, h4, h5]
    have h6 : ReadElemType c = CharType.LoopEnd := by
      cases h7 : ReadElemType c <;> simp_all
    simp [takeElem, hc, h3, h4, h5, h6]

/-- The outer loop `while (*p) { ... }` of `Decompile`. -/
def DecompileLoop (p : List Char) (output : Program) : Program :=
  if _ : cur p = NUL then output
  else DecompileLoop (DecompileBody p output).1 (DecompileBody p output).2
termination_by p.length
decreasing_by exact DecompileBody_length_lt p output (by assumption)

/-- `Decompiler::Decompile` on the buffer `input`; the result is `output`. -/
def Decompile (input : List Char) : Program := DecompileLoop input []

/-- The outer loop of `Decompile` cut off after `fuel` iterations. -/
def DecompileFuel : Nat → List Char → Program → Program
  | 0, _, output => output
  | fuel + 1, p, output =>
    if cur p = NUL then output
    else DecompileFuel fuel (DecompileBody p output).1 (DecompileBody p output).2

/-! ### The rules shorten the program exactly when they report a change -/

theorem ConnectPointerMovesAt_zero_nil (x y : Int) (h : wrapInt (x + y) = 0) :
    ConnectPointerMovesAt (SyntaxElem.MovePointer x) [SyntaxElem.MovePointer y] = ([], true) := by
  simp [ConnectPointerMovesAt, h]

theorem ConnectPointerMovesAt_zero_cons (x y : Int) (h : wrapInt (x + y) = 0) (c : SyntaxElem) (rest : Program) :
    ConnectPointerMovesAt (SyntaxElem.MovePointer x) (SyntaxElem.MovePointer y :: c :: rest)
      = ((ConnectPointerMovesAt c rest).1, true) := by
  simp [ConnectPointerMovesAt, h]

theorem ConnectPointerMovesAt_merge (x y : Int) (h : ¬ wrapInt (x + y) = 0) (rest : Program) :
    ConnectPointerMovesAt (SyntaxElem.MovePointer x) (SyntaxElem.MovePointer y :: rest)
      = ((ConnectPointerMovesAt (SyntaxElem.MovePointer (wrapInt (x + y))) rest).1, true) := by
  cases rest <;> simp [ConnectPointerMovesAt, h]

theorem ConnectPointerMovesAt_skip (a b : SyntaxElem) (rest : Program)
    (h : ∀ x y : Int, a = SyntaxElem.MovePointer x → b = SyntaxElem.MovePointer y → False) :
    ConnectPointerMovesAt a (b :: rest)
      = (a :: (ConnectPointerMovesAt b rest).1, (ConnectPointerMovesAt b rest).2) :=
  ConnectPointerMovesAt.eq_4 a b rest h

theorem ConnectPointerMovesAt_unchanged (a : SyntaxElem) (rest : Program) :
    (ConnectPointerMovesAt a rest).2 = false → (ConnectPointerMovesAt a rest).1 = a :: rest := by
  induction a, rest using ConnectPointerMovesAt.induct with
  | case1 a => intro _; rfl
  | case2 x y h => simp [ConnectPointerMovesAt_zero_nil, h]
  | case3 x y h c rest2 _ => simp [ConnectPointerMovesAt_zero_cons, h]
  | case4 rest x y h _ => simp [ConnectPointerMovesAt_merge, h]
  | case5 a b rest h ih =>
    rw [ConnectPointerMovesAt_skip a b rest h]
    intro h2
    rw [ih h2]

theorem ConnectPointerMovesAt_length_le (a : SyntaxElem) (rest : Program) :
    (ConnectPointerMovesAt a rest).1.length ≤ rest.length + 1 := by
  induction a, rest using ConnectPointerMovesAt.induct with
  | case1 a => simp [ConnectPointerMovesAt]
  | case2 x y h => simp [ConnectPointerMovesAt_zero_nil, h]
  | case3 x y h c rest2 ih =>
    rw [ConnectPointerMovesAt_zero_cons x y h]
    simp only [List.length_cons]
    omega
  | case4 rest x y h ih =>
    rw [ConnectPointerMovesAt_merge x y h]
    simp only [List.length_cons]
    omega
  | case5 a b rest h ih =>
    rw [ConnectPointerMovesAt_skip a b rest h]
    simp only [List.length_cons]
    omega

theorem ConnectPointerMovesAt_length_lt (a : SyntaxElem) (rest : Program) :
    (ConnectPointerMovesAt a rest).2 = true →
      (ConnectPointerMovesAt a rest).1.length < rest.length + 1 := by
  induction a, rest using ConnectPointerMovesAt.induct with
  | case1 a => simp [ConnectPointerMovesAt]
  | case2 x y h => simp [ConnectPointerMovesAt_zero_nil, h]
  | case3 x y h c rest2 ih =>
    have := ConnectPointerMovesAt_length_le c rest2
    rw [ConnectPointerMovesAt_zero_cons x y h]
    simp only [List.length_cons]
    omega
  | case4 rest x y h ih =>
    have := ConnectPointerMovesAt_length_le (SyntaxElem.MovePointer (wrapInt (x + y))) rest
    rw [ConnectPointerMovesAt_merge x y h]
    simp only [List.length_cons]
    omega
  | case5 a b rest h ih =>
    rw [ConnectPointerMovesAt_skip a b rest h]
    intro h2
    have := ih h2
    simp only [List.length_cons]
    omega

theorem ConnectValueMovesAt_zero_nil (x y : Int) (h : wrapInt (x + y) = 0) :
    ConnectValueMovesAt (SyntaxElem.ChangeValue x) [SyntaxElem.ChangeValue y] = ([], true) := by
  simp [ConnectValueMovesAt, h]

theorem ConnectValueMovesAt_zero_cons (x y : Int) (h : wrapInt (x + y) = 0) (c : SyntaxElem) (rest : Program) :
    ConnectValueMovesAt (SyntaxElem.ChangeValue x) (SyntaxElem.ChangeValue y :: c :: rest)
      = ((ConnectValueMovesAt c rest).1, true) := by
  simp [ConnectValueMovesAt, h]

theorem ConnectValueMovesAt_merge (x y : Int) (h : ¬ wrapInt (x + y) = 0) (rest : Program) :
    ConnectValueMovesAt (SyntaxElem.ChangeValue x) (SyntaxElem.ChangeValue y :: rest)
      = ((ConnectValueMovesAt (SyntaxElem.ChangeValue (wrapInt (x + y))) rest).1, true) := by
  cases rest <;> simp [ConnectValueMovesAt, h]

theorem ConnectValueMovesAt_skip (a b : SyntaxElem) (rest : Program)
    (h : ∀ x y : Int, a = SyntaxElem.ChangeValue x → b = SyntaxElem.ChangeValue y → False) :
    ConnectValueMovesAt a (b :: rest)
      = (a :: (ConnectValueMovesAt b rest).1, (ConnectValueMovesAt b rest).2) :=
  ConnectValueMovesAt.eq_4 a b rest h

theorem ConnectValueMovesAt_unchanged (a : SyntaxElem) (rest : Program) :
    (ConnectValueMovesAt a rest).2 = false → (ConnectValueMovesAt a rest).1 = a :: rest := by
  induction a, rest using ConnectValueMovesAt.induct with
  | case1 a => intro _; rfl
  | case2 x y h => simp [ConnectValueMovesAt_zero_nil, h]
  | case3 x y h c rest2 _ => simp [ConnectValueMovesAt_zero_cons, h]
  | case4 rest x y h _ => simp [ConnectValueMovesAt_merge, h]
  | case5 a b rest h ih =>
    rw [ConnectValueMovesAt_skip a b rest h]
    intro h2
    rw [ih h2]

theorem ConnectValueMovesAt_length_le (a : SyntaxElem) (rest : Program) :
    (ConnectValueMovesAt a rest).1.length ≤ rest.length + 1 := by
  induction a, rest using ConnectValueMovesAt.induct with
  | case1 a => simp [ConnectValueMovesAt]
  | case2 x y h => simp [ConnectValueMovesAt_zero_nil, h]
  | case3 x y h c rest2 ih =>
    rw [ConnectValueMovesAt_zero_cons x y h]
    simp only [List.length_cons]
    omega
  | case4 rest x y h ih =>
    rw [ConnectValueMovesAt_merge x y h]
    simp only [List.length_cons]
    omega
  | case5 a b rest h ih =>
    rw [ConnectValueMovesAt_skip a b rest h]
    simp only [List.length_cons]
    omega

theorem ConnectValueMovesAt_length_lt (a : SyntaxElem) (rest : Program) :
    (ConnectValueMovesAt a rest).2 = true →
      (ConnectValueMovesAt a rest).1.length < rest.length + 1 := by
  induction a, rest using ConnectValueMovesAt.induct with
  | case1 a => simp [ConnectValueMovesAt]
  | case2 x y h => simp [ConnectValueMovesAt_zero_nil, h]
  | case3 x y h c rest2 ih =>
    have := ConnectValueMovesAt_length_le c rest2
    rw [ConnectValueMovesAt_zero_cons x y h]
    simp only [List.length_cons]
    omega
  | case4 rest x y h ih =>
    have := ConnectValueMovesAt_length_le (SyntaxElem.ChangeValue (wrapInt (x + y))) rest
    rw [ConnectValueMovesAt_merge x y h]
    simp only [List.length_cons]
    omega
  | case5 a b rest h ih =>
    rw [ConnectValueMovesAt_skip a b rest h]
    intro h2
    have := ih h2
    simp only [List.length_cons]
    omega

theorem ConnectAssigmentAt_fold (x y : Int) (rest : Program) :
    ConnectAssigmentAt (SyntaxElem.AssignValue x) (SyntaxElem.ChangeValue y :: rest)
      = ((ConnectAssigmentAt (SyntaxElem.AssignValue (wrapInt (x + y))) rest).1, true) := by
  simp [ConnectAssigmentAt]

theorem ConnectAssigmentAt_skip (a b : SyntaxElem) (rest : Program)
    (h : ∀ x y : Int, a = SyntaxElem.AssignValue x → b = SyntaxElem.ChangeValue y → False) :
    ConnectAssigmentAt a (b :: rest)
      = (a :: (ConnectAssigmentAt b rest).1, (ConnectAssigmentAt b rest).2) :=
  ConnectAssigmentAt.eq_3 a b rest h

theorem ConnectAssigmentAt_unchanged (a : SyntaxElem) (rest : Program) :
    (ConnectAssigmentAt a rest).2 = false → (ConnectAssigmentAt a rest).1 = a :: rest := by
  induction a, rest using ConnectAssigmentAt.induct with
  | case1 a => intro _; rfl
  | case2 rest x y _ => simp [ConnectAssigmentAt_fold]
  | case3 a b rest h ih =>
    rw [ConnectAssigmentAt_skip a b rest h]
    intro h2
    rw [ih h2]

theorem ConnectAssigmentAt_length_le (a : SyntaxElem) (rest : Program) :
    (ConnectAssigmentAt a rest).1.length ≤ rest.length + 1 := by
  induction a, rest using ConnectAssigmentAt.induct with
  | case1 a => simp [ConnectAssigmentAt]
  | case2 rest x y ih =>
    rw [ConnectAssigmentAt_fold x y]
    simp only [List.length_cons]
    omega
  | case3 a b rest h ih =>
    rw [ConnectAssigmentAt_skip a b rest h]
    simp only [List.length_cons]
    omega

theorem ConnectAssigmentAt_length_lt (a : SyntaxElem) (rest : Program) :
    (ConnectAssigmentAt a rest).2 = true →
      (ConnectAssigmentAt a rest).1.length < rest.length + 1 := by
  induction a, rest using ConnectAssigmentAt.induct with
  | case1 a => simp [ConnectAssigmentAt]
  | case2 rest x y ih =>
    have := ConnectAssigmentAt_length_le (SyntaxElem.AssignValue (wrapInt (x + y))) rest
    rw [ConnectAssigmentAt_fold x y]
    simp only [List.length_cons]
    omega
  | case3 a b rest h ih =>
    rw [ConnectAssigmentAt_skip a b rest h]
    intro h2
    have := ih h2
    simp only [List.length_cons]
    omega

theorem FindZeroes_match (rest : Program) :
    FindZeroes (SyntaxElem.LoopStart :: SyntaxElem.ChangeValue (-1) :: SyntaxElem.LoopEnd :: rest)
      = (SyntaxElem.AssignValue 0 :: (FindZeroes rest).1, true) := by
  simp [FindZeroes]

theorem FindZeroes_skip (a : SyntaxElem) (rest : Program)
    (h : ∀ rest2, a :: rest
      ≠ SyntaxElem.LoopStart :: SyntaxElem.ChangeValue (-1) :: SyntaxElem.LoopEnd :: rest2) :
    FindZeroes (a :: rest) = (a :: (FindZeroes rest).1, (FindZeroes rest).2) := by
  by_cases hm : ∃ v rest2, a = SyntaxElem.LoopStart
      ∧ rest = SyntaxElem.ChangeValue v :: SyntaxElem.LoopEnd :: rest2
  · obtain ⟨v, rest2, ha, hr⟩ := hm
    subst ha hr
    have hv : ¬ v = -1 := fun hv => h rest2 (by rw [hv])
    simp [FindZeroes, hv]
  · exact FindZeroes.eq_3 a rest (fun v rest2 ha hr => hm ⟨v, rest2, ha, hr⟩)

theorem FindZeroes_unchanged (out : Program) :
    (FindZeroes out).2 = false → (FindZeroes out).1 = out := by
  induction out using FindZeroes.induct with
  | case1 => intro _; rfl
  | case2 rest _ => simp [FindZeroes_match]
  | case3 v rest hv ih =>
    rw [FindZeroes_skip _ _ (by simpa using fun h => absurd h hv)]
    intro h2
    rw [ih h2]
  | case4 a rest h ih =>
    rw [FindZeroes_skip _ _ (by
      intro rest2 he
      injection he with h1 h2
      exact h _ _ h1 h2)]
    intro h2
    rw [ih h2]

theorem FindZeroes_length_le (out : Program) : (FindZeroes out).1.length ≤ out.length := by
  induction out using FindZeroes.induct with
  | case1 => simp [FindZeroes]
  | case2 rest ih =>
    rw [FindZeroes_match]
    simp only [List.length_cons]
    omega
  | case3 v rest hv ih =>
    rw [FindZeroes_skip _ _ (by simpa using fun h => absurd h hv)]
    simp only [List.length_cons] at ih ⊢
    omega
  | case4 a rest h ih =>
    rw [FindZeroes_skip _ _ (by
      intro rest2 he
      injection he with h1 h2
      exact h _ _ h1 h2)]
    simp only [List.length_cons]
    omega

theorem FindZeroes_length_lt (out : Program) :
    (FindZeroes out).2 = true → (FindZeroes out).1.length < out.length := by
  induction out using FindZeroes.induct with
  | case1 => simp [FindZeroes]
  | case2 rest ih =>
    have := FindZeroes_length_le rest
    rw [FindZeroes_match]
    simp only [List.length_cons]
    omega
  | case3 v rest hv ih =>
    rw [FindZeroes_skip _ _ (by simpa using fun h => absurd h hv)]
    intro h2
    have := ih h2
    simp only [List.length_cons] at this ⊢
    omega
  | case4 a rest h ih =>
    rw [FindZeroes_skip _ _ (by
      intro rest2 he
      injection he with h1 h2
      exact h _ _ h1 h2)]
    intro h2
    have := ih h2
    simp only [List.length_cons]
    omega

theorem ConnectPointerMoves_unchanged (out : Program) (h : (ConnectPointerMoves out).2 = false) :
    (ConnectPointerMoves out).1 = out := by
  cases out with
  | nil => rfl
  | cons a rest => exact ConnectPointerMovesAt_unchanged a rest h

theorem ConnectPointerMoves_length_le (out : Program) :
    (ConnectPointerMoves out).1.length ≤ out.length := by
  cases out with
  | nil => exact Nat.le_refl _
  | cons a rest => exact ConnectPointerMovesAt_length_le a rest

theorem ConnectPointerMoves_length_lt (out : Program) (h : (ConnectPointerMoves out).2 = true) :
    (ConnectPointerMoves out).1.length < out.length := by
  cases out with
  | nil => exact absurd h (by simp [ConnectPointerMoves])
  | cons a rest => exact ConnectPointerMovesAt_length_lt a rest h

theorem ConnectValueMoves_unchanged (out : Program) (h : (ConnectValueMoves out).2 = false) :
    (ConnectValueMoves out).1 = out := by
  cases out with
  | nil => rfl
  | cons a rest => exact ConnectValueMovesAt_unchanged a rest h

theorem ConnectValueMoves_length_le (out : Program) :
    (ConnectValueMoves out).1.length ≤ out.length := by
  cases out with
  | nil => exact Nat.le_refl _
  | cons a rest => exact ConnectValueMovesAt_length_le a rest

theorem ConnectValueMoves_length_lt (out : Program) (h : (ConnectValueMoves out).2 = true) :
    (ConnectValueMoves out).1.length < out.length := by
  cases out with
  | nil => exact absurd h (by simp [ConnectValueMoves])
  | cons a rest => exact ConnectValueMovesAt_length_lt a rest h

theorem ConnectAssigment_unchanged (out : Program) (h : (ConnectAssigment out).2 = false) :
    (ConnectAssigment out).1 = out := by
  cases out with
  | nil => rfl
  | cons a rest => exact ConnectAssigmentAt_unchanged a rest h

theorem ConnectAssigment_length_le (out : Program) :
    (ConnectAssigment out).1.length ≤ out.length := by
  cases out with
  | nil => exact Nat.le_refl _
  | cons a rest => exact ConnectAssigmentAt_length_le a rest

theorem ConnectAssigment_length_lt (out : Program) (h : (ConnectAssigment out).2 = true) :
    (ConnectAssigment out).1.length < out.length := by
  cases out with
  | nil => exact absurd h (by simp [ConnectAssigment])
  | cons a rest => exact ConnectAssigmentAt_length_lt a rest h

theorem OptimizeRound_length_le (out : Program) :
    (OptimizeRound out).1.length ≤ out.length := by
  simp only [OptimizeRound]
  exact le_trans (FindZeroes_length_le _) (le_trans (ConnectAssigment_length_le _)
    (le_trans (ConnectValueMoves_length_le _) (ConnectPointerMoves_length_le _)))

/-- A round that reports a change leaves a strictly shorter program. -/
theorem OptimizeRound_length_lt (out : Program) (h : (OptimizeRound out).2 = true) :
    (OptimizeRound out).1.length < out.length := by
  simp only [OptimizeRound, Bool.or_eq_true] at h ⊢
  have a1 := ConnectPointerMoves_length_le out
  have a2 := ConnectValueMoves_length_le (ConnectPointerMoves out).1
  have a3 := ConnectAssigment_length_le (ConnectValueMoves (ConnectPointerMoves out).1).1
  have a4 := FindZeroes_length_le
    (ConnectAssigment (ConnectValueMoves (ConnectPointerMoves out).1).1).1
  rcases h with ((h | h) | h) | h
  · have := ConnectPointerMoves_length_lt _ h
    omega
  · have := ConnectValueMoves_length_lt _ h
    omega
  · have := ConnectAssigment_length_lt _ h
    omega
  · have := FindZeroes_length_lt _ h
    omega

/-- A round that reports no change leaves the program as it was. -/
theorem OptimizeRound_unchanged (out : Program) (h : (OptimizeRound out).2 = false) :
    (OptimizeRound out).1 = out := by
  simp only [OptimizeRound, Bool.or_eq_false_iff] at h ⊢
  obtain ⟨⟨⟨h1, h2⟩, h3⟩, h4⟩ := h
  have e1 := ConnectPointerMoves_unchanged out h1
  rw [e1] at h2 h3 h4 ⊢
  have e2 := ConnectValueMoves_unchanged out h2
  rw [e2] at h3 h4 ⊢
  have e3 := ConnectAssigment_unchanged out h3
  rw [e3] at h4 ⊢
  exact FindZeroes_unchanged out h4

/-- `Optimizer::Optimize`: the loop `while (changed)` over the rounds. -/
def Optimize (out : Program) : Program :=
  if _ : (OptimizeRound out).2 = true then Optimize (OptimizeRound out).1
  else (OptimizeRound out).1
termination_by out.length
decreasing_by exact OptimizeRound_length_lt out (by assumption)

/-- The loop of `Optimize` cut off after `fuel` rounds. -/
def OptimizeFuel : Nat → Program → Program
  | 0, out => out
  | fuel + 1, out =>
    if (OptimizeRound out).2 = true then OptimizeFuel fuel (OptimizeRound out).1
    else (OptimizeRound out).1

/-! ## Unfolding the two loops -/

theorem DecompileLoop_done (p : List Char) (output : Program) (h : cur p = NUL) :
    DecompileLoop p output = output := by
  rw [DecompileLoop, dif_pos h]

theorem DecompileLoop_step (p : List Char) (output : Program) (h : cur p ≠ NUL) :
    DecompileLoop p output
      = DecompileLoop (DecompileBody p output).1 (DecompileBody p output).2 := by
  rw [DecompileLoop, dif_neg h]

/-- As many iterations as the buffer has characters are enough for the outer loop. -/
theorem DecompileLoop_eq_fuel (fuel : Nat) (p : List Char) (output : Program)
    (h : p.length ≤ fuel) : DecompileLoop p output = DecompileFuel fuel p output := by
  induction fuel generalizing p output with
  | zero =>
    have hp : p = [] := List.length_eq_zero.mp (Nat.le_zero.mp h)
    subst hp
    rw [DecompileLoop_done [] output rfl, DecompileFuel]
  | succ n ih =>
    rw [DecompileFuel]
    by_cases hc : cur p = NUL
    · rw [if_pos hc, DecompileLoop_done _ _ hc]
    · rw [if_neg hc, DecompileLoop_step _ _ hc]
      apply ih
      have := DecompileBody_length_lt p output hc
      omega

theorem Optimize_done (out : Program) (h : (OptimizeRound out).2 = false) :
    Optimize out = (OptimizeRound out).1 := by
  rw [Optimize, dif_neg (by simp [h])]

theorem Optimize_step (out : Program) (h : (OptimizeRound out).2 = true) :
    Optimize out = Optimize (OptimizeRound out).1 := by
  rw [Optimize, dif_pos h]

/-- One round more than the program has instructions is enough for the loop. -/
theorem Optimize_eq_fuel (fuel : Nat) (out : Program) (h : out.length < fuel) :
    Optimize out = OptimizeFuel fuel out := by
  induction fuel generalizing out with
  | zero => exact absurd h (Nat.not_lt_zero _)
  | succ n ih =>
    rw [OptimizeFuel]
    by_cases hc : (OptimizeRound out).2 = true
    · rw [if_pos hc, Optimize_step _ hc]
      apply ih
      have := OptimizeRound_length_lt out hc
      omega
    · rw [if_neg hc, Optimize_done _ (by simpa using hc)]

/-! ## Arithmetic of a 32-bit `int` -/

/-- An integer in the range of `int` is the value the `int` holds. -/
theorem wrapInt_of_fits (x : Int) (h : fitsInt x) : wrapInt x = x := by
  unfold fitsInt at h
  unfold wrapInt
  omega

theorem wrapInt_fits (x : Int) : fitsInt (wrapInt x) := by
  unfold fitsInt wrapInt
  omega

theorem wrapInt_wrapInt (x : Int) : wrapInt (wrapInt x) = wrapInt x := by
  unfold wrapInt
  omega

theorem wrapInt_add_left (a b : Int) : wrapInt (wrapInt a + b) = wrapInt (a + b) := by
  unfold wrapInt
  omega

theorem wrapInt_natAbs_le (x : Int) : (wrapInt x).natAbs ≤ x.natAbs := by
  unfold wrapInt
  omega

/-- Reducing modulo `2^32` does not change the byte an integer stands for. -/
theorem wrapInt_cast (x : Int) : ((wrapInt x : Int) : ZMod 256) = (x : ZMod 256) := by
  rw [ZMod.intCast_eq_intCast_iff_dvd_sub]
  unfold wrapInt
  omega

theorem fitsInt_of_natAbs (x : Int) (h : x.natAbs < 2147483648) : fitsInt x := by
  unfold fitsInt
  omega

/-! ## The optimizer preserves the meaning of a program -/

theorem Run_nil_iff (m m' : Machine) : Run [] m m' ↔ m' = m := by
  constructor
  · intro h
    cases h
    rfl
  · rintro rfl
    exact Run.nil _

theorem Run_op_iff (e : SyntaxElem) (rest : Block) (m m' : Machine) :
    Run (Stmt.op e :: rest) m m' ↔ Run rest (stepOp e m) m' := by
  constructor
  · intro h
    cases h
    assumption
  · exact Run.op e rest m m'

theorem Run_append_of (X Y : Block) (m m1 m' : Machine) (hX : Run X m m1) (hY : Run Y m1 m') :
    Run (X ++ Y) m m' := by
  induction hX with
  | nil m => exact hY
  | op e rest m m2 _ ih => exact Run.op e _ m m' (ih hY)
  | loopExit body rest m m2 hz _ ih => exact Run.loopExit body _ m m' hz (ih hY)
  | loopIter body rest m m2 m3 hz hb _ _ ih2 =>
    exact Run.loopIter body _ m m2 m' hz hb (ih2 hY)

theorem Run_append_split (Z : Block) (m m' : Machine) (h : Run Z m m') :
    ∀ X Y, Z = X ++ Y → ∃ m1, Run X m m1 ∧ Run Y m1 m' := by
  induction h with
  | nil m =>
    intro X Y hZ
    have := List.append_eq_nil.mp hZ.symm
    obtain ⟨rfl, rfl⟩ := this
    exact ⟨m, Run.nil m, Run.nil m⟩
  | op e rest m m' h ih =>
    intro X Y hZ
    cases X with
    | nil =>
      simp only [List.nil_append] at hZ
      subst hZ
      exact ⟨m, Run.nil m, Run.op e rest m m' h⟩
    | cons x X' =>
      simp only [List.cons_append, List.cons.injEq] at hZ
      obtain ⟨rfl, rfl⟩ := hZ
      obtain ⟨m1, h1, h2⟩ := ih X' Y rfl
      exact ⟨m1, Run.op e X' m m1 h1, h2⟩
  | loopExit body rest m m' hz h ih =>
    intro X Y hZ
    cases X with
    | nil =>
      simp only [List.nil_append] at hZ
      subst hZ
      exact ⟨m, Run.nil m, Run.loopExit body rest m m' hz h⟩
    | cons x X' =>
      simp only [List.cons_append, List.cons.injEq] at hZ
      obtain ⟨rfl, rfl⟩ := hZ
      obtain ⟨m1, h1, h2⟩ := ih X' Y rfl
      exact ⟨m1, Run.loopExit body X' m m1 hz h1, h2⟩
  | loopIter body rest m m2 m' hz hb h _ ih2 =>
    intro X Y hZ
    cases X with
    | nil =>
      simp only [List.nil_append] at hZ
      subst hZ
      exact ⟨m, Run.nil m, Run.loopIter body rest m m2 m' hz hb h⟩
    | cons x X' =>
      simp only [List.cons_append, List.cons.injEq] at hZ
      obtain ⟨rfl, rfl⟩ := hZ
      obtain ⟨m1, h1, h2⟩ := ih2 (Stmt.loop body :: X') Y rfl
      exact ⟨m1, Run.loopIter body X' m m2 m1 hz hb h1, h2⟩

theorem Run_append_iff (X Y : Block) (m m' : Machine) :
    Run (X ++ Y) m m' ↔ ∃ m1, Run X m m1 ∧ Run Y m1 m' :=
  ⟨fun h => Run_append_split _ m m' h X Y rfl,
   fun ⟨m1, h1, h2⟩ => Run_append_of X Y m m1 m' h1 h2⟩

theorem BlockEquiv_refl (X : Block) : BlockEquiv X X := fun _ _ => Iff.rfl

theorem BlockEquiv_symm {X Y : Block} (h : BlockEquiv X Y) : BlockEquiv Y X :=
  fun m m' => (h m m').symm

theorem BlockEquiv_trans {X Y Z : Block} (h1 : BlockEquiv X Y) (h2 : BlockEquiv Y Z) :
    BlockEquiv X Z := fun m m' => (h1 m m').trans (h2 m m')

theorem BlockEquiv_append {X X' Y Y' : Block} (h1 : BlockEquiv X X') (h2 : BlockEquiv Y Y') :
    BlockEquiv (X ++ Y) (X' ++ Y') := by
  intro m m'
  rw [Run_append_iff, Run_append_iff]
  constructor
  · rintro ⟨m1, a, b⟩
    exact ⟨m1, (h1 m m1).mp a, (h2 m1 m').mp b⟩
  · rintro ⟨m1, a, b⟩
    exact ⟨m1, (h1 m m1).mpr a, (h2 m1 m').mpr b⟩

theorem Run_loop_congr {X X' : Block} (hX : BlockEquiv X X') (Z : Block) (m m' : Machine)
    (h : Run Z m m') : ∀ rest, Z = Stmt.loop X :: rest → Run (Stmt.loop X' :: rest) m m' := by
  induction h with
  | nil m => intro rest hZ; cases hZ
  | op e rest m m' h ih => intro rest hZ; cases hZ
  | loopExit body rest m m' hz h ih =>
    intro rest2 hZ
    simp only [List.cons.injEq, Stmt.loop.injEq] at hZ
    obtain ⟨rfl, rfl⟩ := hZ
    exact Run.loopExit X' rest m m' hz h
  | loopIter body rest m m2 m' hz hb h _ ih2 =>
    intro rest2 hZ
    simp only [List.cons.injEq, Stmt.loop.injEq] at hZ
    obtain ⟨rfl, rfl⟩ := hZ
    exact Run.loopIter X' rest m m2 m' hz ((hX m m2).mp hb) (ih2 rest rfl)

theorem BlockEquiv_loop {X X' : Block} (h : BlockEquiv X X') :
    BlockEquiv [Stmt.loop X] [Stmt.loop X'] := fun m m' =>
  ⟨fun r => Run_loop_congr h _ m m' r [] rfl,
   fun r => Run_loop_congr (BlockEquiv_symm h) _ m m' r [] rfl⟩

theorem StateEquiv_trans {s t u : Block × List Block} (h1 : StateEquiv s t)
    (h2 : StateEquiv t u) : StateEquiv s u := by
  refine ⟨BlockEquiv_trans h1.1 h2.1, ?_⟩
  have := h1.2
  have h3 := h2.2
  clear h1 h2
  generalize s.2 = a at *
  generalize t.2 = b at *
  generalize u.2 = c at *
  induction this generalizing c with
  | nil => cases h3; exact List.Forall₂.nil
  | cons hab _ ih =>
    cases h3 with
    | cons hbc h4 => exact List.Forall₂.cons (BlockEquiv_trans hab hbc) (ih _ h4)

theorem OptionEquiv_trans {a b c : Option (Block × List Block)} (h1 : OptionEquiv a b)
    (h2 : OptionEquiv b c) : OptionEquiv a c := by
  cases a <;> cases b <;> cases c <;> simp only [OptionEquiv] at h1 h2 ⊢
  exact StateEquiv_trans h1 h2

theorem pairStep_congr (e : SyntaxElem) {s t : Block × List Block} (h : StateEquiv s t) :
    OptionEquiv (pairStep s e) (pairStep t e) := by
  obtain ⟨c, st⟩ := s
  obtain ⟨c', st'⟩ := t
  obtain ⟨h1, h2⟩ := h
  simp only at h1 h2
  cases e with
  | LoopStart => exact ⟨BlockEquiv_refl _, List.Forall₂.cons h1 h2⟩
  | LoopEnd =>
    cases h2 with
    | nil => trivial
    | cons hab h4 => exact ⟨BlockEquiv_append hab (BlockEquiv_loop h1), h4⟩
  | AssignValue v => exact ⟨BlockEquiv_append h1 (BlockEquiv_refl _), h2⟩
  | ChangeValue v => exact ⟨BlockEquiv_append h1 (BlockEquiv_refl _), h2⟩
  | MovePointer v => exact ⟨BlockEquiv_append h1 (BlockEquiv_refl _), h2⟩
  | PrintValue => exact ⟨BlockEquiv_append h1 (BlockEquiv_refl _), h2⟩
  | ReadValue => exact ⟨BlockEquiv_append h1 (BlockEquiv_refl _), h2⟩

theorem SameMeaning_refl (P : Program) : SameMeaning P P := by
  induction P with
  | nil => intro s t h; exact h
  | cons e rest ih =>
    intro s t h
    have h1 := pairStep_congr e h
    simp only [pairLoops]
    cases h2 : pairStep s e <;> cases h3 : pairStep t e <;> rw [h2, h3] at h1 <;>
      simp only [OptionEquiv] at h1 ⊢
    exact ih _ _ h1

theorem StateEquiv_refl (s : Block × List Block) : StateEquiv s s := by
  refine ⟨BlockEquiv_refl _, ?_⟩
  generalize s.2 = a
  induction a with
  | nil => exact List.Forall₂.nil
  | cons x xs ih => exact List.Forall₂.cons (BlockEquiv_refl _) ih

theorem SameMeaning_trans {P Q R : Program} (h1 : SameMeaning P Q) (h2 : SameMeaning Q R) :
    SameMeaning P R := fun s t h => OptionEquiv_trans (h1 s t h) (h2 t t (StateEquiv_refl t))

theorem SameMeaning_cons (e : SyntaxElem) {P Q : Program} (h : SameMeaning P Q) :
    SameMeaning (e :: P) (e :: Q) := by
  intro s t hst
  have h1 := pairStep_congr e hst
  simp only [pairLoops]
  cases h2 : pairStep s e <;> cases h3 : pairStep t e <;> rw [h2, h3] at h1 <;>
    simp only [OptionEquiv] at h1 ⊢
  exact h _ _ h1

theorem pairLoops_append (P Q : Program) (s : Block × List Block) :
    pairLoops (P ++ Q) s = (pairLoops P s).bind (pairLoops Q) := by
  induction P generalizing s with
  | nil => rfl
  | cons e rest ih =>
    simp only [List.cons_append, pairLoops]
    cases pairStep s e with
    | none => rfl
    | some t => exact ih t

theorem SameMeaning_append {P P' Q Q' : Program} (h1 : SameMeaning P P')
    (h2 : SameMeaning Q Q') : SameMeaning (P ++ Q) (P' ++ Q') := by
  intro s t hst
  rw [pairLoops_append, pairLoops_append]
  have h := h1 s t hst
  cases h3 : pairLoops P s <;> cases h4 : pairLoops P' t <;> rw [h3, h4] at h <;>
    simp only [OptionEquiv, Option.bind] at h ⊢
  exact h2 _ _ h

theorem Machine_store_store (m : Machine) (a b : ZMod 256) :
    (m.store a).store b = m.store b := by
  simp [Machine.store]

theorem Machine_store_cell (m : Machine) (a : ZMod 256) : (m.store a).cell = a := by
  simp [Machine.store, Machine.cell]

theorem Machine_store_self (m : Machine) : m.store m.cell = m := by
  cases m
  simp [Machine.store, Machine.cell]

theorem pairStep_op (e : SyntaxElem) (h : isOp e = true) (s : Block × List Block) :
    pairStep s e = some (s.1 ++ [Stmt.op e], s.2) := by
  cases e <;> first | rfl | exact absurd h (by decide)

/-- Two runs of instructions without loop delimiters that act alike on the machine. -/
theorem SameMeaning_of_ops (L L' : Program) (hL : ∀ e ∈ L, isOp e = true)
    (hL' : ∀ e ∈ L', isOp e = true)
    (h : ∀ m, L.foldl (fun m e => stepOp e m) m = L'.foldl (fun m e => stepOp e m) m) :
    SameMeaning L L' := by
  have key : ∀ (L : Program), (∀ e ∈ L, isOp e = true) → ∀ s : Block × List Block,
      pairLoops L s = some (s.1 ++ L.map Stmt.op, s.2) := by
    intro L
    induction L with
    | nil => intro _ s; simp [pairLoops]
    | cons e rest ih =>
      intro hL s
      simp only [pairLoops, pairStep_op e (hL e (List.mem_cons_self _ _))]
      rw [ih (fun e he => hL e (List.mem_cons_of_mem _ he))]
      simp
  have run : ∀ (L : Program) (m m' : Machine),
      Run (L.map Stmt.op) m m' ↔ m' = L.foldl (fun m e => stepOp e m) m := by
    intro L
    induction L with
    | nil => intro m m'; simpa using Run_nil_iff m m'
    | cons e rest ih =>
      intro m m'
      simp only [List.map_cons, Run_op_iff, ih, List.foldl_cons]
  intro s t hst
  rw [key L hL, key L' hL']
  refine ⟨BlockEquiv_append hst.1 ?_, hst.2⟩
  intro m m'
  rw [run, run, h]

theorem SameMeaning_movePointer (x y : Int) (h : fitsInt (x + y)) :
    SameMeaning [SyntaxElem.MovePointer x, SyntaxElem.MovePointer y]
      [SyntaxElem.MovePointer (wrapInt (x + y))] := by
  rw [wrapInt_of_fits _ h]
  apply SameMeaning_of_ops
  · simp [isOp]
  · simp [isOp]
  · intro m
    simp [stepOp, add_assoc]

theorem SameMeaning_movePointer_zero (x y : Int) (h : x + y = 0) :
    SameMeaning [SyntaxElem.MovePointer x, SyntaxElem.MovePointer y] [] := by
  apply SameMeaning_of_ops
  · simp [isOp]
  · simp
  · intro m
    cases m
    simp [stepOp, add_assoc, h]

theorem SameMeaning_changeValue (x y : Int) :
    SameMeaning [SyntaxElem.ChangeValue x, SyntaxElem.ChangeValue y]
      [SyntaxElem.ChangeValue (wrapInt (x + y))] := by
  apply SameMeaning_of_ops
  · simp [isOp]
  · simp [isOp]
  · intro m
    simp [stepOp, Machine_store_store, Machine_store_cell, add_assoc, wrapInt_cast]

theorem SameMeaning_changeValue_zero (x y : Int) (h : wrapInt (x + y) = 0) :
    SameMeaning [SyntaxElem.ChangeValue x, SyntaxElem.ChangeValue y] [] := by
  apply SameMeaning_of_ops
  · simp [isOp]
  · simp
  · intro m
    have h2 : (x : ZMod 256) + (y : ZMod 256) = 0 := by
      rw [← Int.cast_add, ← wrapInt_cast, h, Int.cast_zero]
    simp [stepOp, Machine_store_store, Machine_store_cell, add_assoc, h2, Machine_store_self]

theorem SameMeaning_assignValue (x y : Int) :
    SameMeaning [SyntaxElem.AssignValue x, SyntaxElem.ChangeValue y]
      [SyntaxElem.AssignValue (wrapInt (x + y))] := by
  apply SameMeaning_of_ops
  · simp [isOp]
  · simp [isOp]
  · intro m
    simp [stepOp, Machine_store_store, Machine_store_cell, wrapInt_cast]

theorem ZMod256_val_pred (c : ZMod 256) (h : c ≠ 0) : (c + ((-1 : Int) : ZMod 256)).val + 1 = c.val := by
  have h1 : (1 : ZMod 256).val = 1 := rfl
  have h2 : 0 < c.val := Nat.pos_of_ne_zero (fun h0 => h ((ZMod.val_eq_zero c).mp h0))
  have h3 : (c - 1).val = c.val - (1 : ZMod 256).val := ZMod.val_sub (by rw [h1]; exact h2)
  have h4 : c + ((-1 : Int) : ZMod 256) = c - 1 := by
    simp [sub_eq_add_neg]
  rw [h4, h3, h1]
  omega

/-- From every cell value the loop `[-]` ends with the cell at zero. -/
theorem Run_zeroLoop_of (n : Nat) : ∀ m : Machine, m.cell.val = n →
    Run [Stmt.loop [Stmt.op (SyntaxElem.ChangeValue (-1))]] m (m.store 0) := by
  induction n with
  | zero =>
    intro m hm
    have h0 : m.cell = 0 := (ZMod.val_eq_zero _).mp hm
    have h1 : m.store 0 = m := by rw [← h0]; exact Machine_store_self m
    rw [h1]
    exact Run.loopExit _ _ m m h0 (Run.nil m)
  | succ k ih =>
    intro m hm
    have h0 : m.cell ≠ 0 := by
      intro h
      rw [h] at hm
      exact absurd hm (by simp)
    have h1 := ZMod256_val_pred m.cell h0
    have h2 := ih (stepOp (SyntaxElem.ChangeValue (-1)) m) (by
      simp only [stepOp, Machine_store_cell]
      omega)
    have h3 : (stepOp (SyntaxElem.ChangeValue (-1)) m).store 0 = m.store 0 := by
      simp only [stepOp, Machine_store_store]
    rw [h3] at h2
    exact Run.loopIter _ _ m _ _ h0 (Run.op _ _ _ _ (Run.nil _)) h2

theorem Run_zeroLoop_only (Z : Block) (m m' : Machine) (h : Run Z m m') :
    Z = [Stmt.loop [Stmt.op (SyntaxElem.ChangeValue (-1))]] → m' = m.store 0 := by
  induction h with
  | nil m => intro hZ; cases hZ
  | op e rest m m' h ih => intro hZ; cases hZ
  | loopExit body rest m m' hz h ih =>
    intro hZ
    simp only [List.cons.injEq, Stmt.loop.injEq] at hZ
    obtain ⟨rfl, rfl⟩ := hZ
    cases h
    rw [← hz]
    exact (Machine_store_self m).symm
  | loopIter body rest m m2 m' hz hb h _ ih2 =>
    intro hZ
    have e := ih2 hZ
    simp only [List.cons.injEq, Stmt.loop.injEq] at hZ
    obtain ⟨rfl, rfl⟩ := hZ
    rw [Run_op_iff, Run_nil_iff] at hb
    rw [e, hb]
    simp only [stepOp, Machine_store_store]

theorem BlockEquiv_zeroLoop :
    BlockEquiv [Stmt.loop [Stmt.op (SyntaxElem.ChangeValue (-1))]]
      [Stmt.op (SyntaxElem.AssignValue 0)] := by
  intro m m'
  rw [Run_op_iff, Run_nil_iff]
  have h0 : stepOp (SyntaxElem.AssignValue 0) m = m.store 0 := by simp [stepOp]
  rw [h0]
  constructor
  · intro h
    exact Run_zeroLoop_only _ m m' h rfl
  · rintro rfl
    exact Run_zeroLoop_of _ m rfl

theorem SameMeaning_zeroLoop :
    SameMeaning [SyntaxElem.LoopStart, SyntaxElem.ChangeValue (-1), SyntaxElem.LoopEnd]
      [SyntaxElem.AssignValue 0] := by
  intro s t hst
  exact ⟨BlockEquiv_append hst.1 BlockEquiv_zeroLoop, hst.2⟩

theorem SameMeaning_head {L L' : Program} (h : SameMeaning L L') (rest : Program) :
    SameMeaning (L ++ rest) (L' ++ rest) := SameMeaning_append h (SameMeaning_refl rest)

theorem ConnectValueMovesAt_sameMeaning (a : SyntaxElem) (rest : Program) :
    SameMeaning (a :: rest) (ConnectValueMovesAt a rest).1 := by
  induction a, rest using ConnectValueMovesAt.induct with
  | case1 a => exact SameMeaning_refl _
  | case2 x y h =>
    rw [ConnectValueMovesAt_zero_nil x y h]
    exact SameMeaning_changeValue_zero x y h
  | case3 x y h c rest2 ih =>
    rw [ConnectValueMovesAt_zero_cons x y h]
    exact SameMeaning_trans (SameMeaning_head (SameMeaning_changeValue_zero x y h) (c :: rest2)) ih
  | case4 rest x y h ih =>
    rw [ConnectValueMovesAt_merge x y h]
    exact SameMeaning_trans (SameMeaning_head (SameMeaning_changeValue x y) rest) ih
  | case5 a b rest h ih =>
    rw [ConnectValueMovesAt_skip a b rest h]
    exact SameMeaning_cons a ih

theorem moveWeight_cons (a : SyntaxElem) (P : Program) :
    moveWeight (a :: P) = moveSize a + moveWeight P := by
  simp [moveWeight]

theorem moveWeight_nil : moveWeight [] = 0 := rfl

/-- Merging two pointer moves does not add to the size of the moves. -/
theorem moveSize_merge_le (x y : Int) :
    moveSize (SyntaxElem.MovePointer (wrapInt (x + y)))
      ≤ moveSize (SyntaxElem.MovePointer x) + moveSize (SyntaxElem.MovePointer y) := by
  have := wrapInt_natAbs_le (x + y)
  simp only [moveSize]
  omega

theorem ConnectPointerMovesAt_moveWeight_le (a : SyntaxElem) (rest : Program) :
    moveWeight (ConnectPointerMovesAt a rest).1 ≤ moveWeight (a :: rest) := by
  induction a, rest using ConnectPointerMovesAt.induct with
  | case1 a => exact Nat.le_refl _
  | case2 x y h =>
    rw [ConnectPointerMovesAt_zero_nil x y h]
    exact Nat.zero_le _
  | case3 x y h c rest2 ih =>
    rw [ConnectPointerMovesAt_zero_cons x y h]
    simp only [moveWeight_cons] at ih ⊢
    omega
  | case4 rest x y h ih =>
    rw [ConnectPointerMovesAt_merge x y h]
    have := moveSize_merge_le x y
    simp only [moveWeight_cons] at ih ⊢
    omega
  | case5 a b rest h ih =>
    rw [ConnectPointerMovesAt_skip a b rest h]
    simp only [moveWeight_cons] at ih ⊢
    omega

theorem ConnectValueMovesAt_moveWeight (a : SyntaxElem) (rest : Program) :
    moveWeight (ConnectValueMovesAt a rest).1 = moveWeight (a :: rest) := by
  induction a, rest using ConnectValueMovesAt.induct with
  | case1 a => rfl
  | case2 x y h =>
    rw [ConnectValueMovesAt_zero_nil x y h]
    rfl
  | case3 x y h c rest2 ih =>
    rw [ConnectValueMovesAt_zero_cons x y h]
    simp only [moveWeight_cons, moveSize] at ih ⊢
    omega
  | case4 rest x y h ih =>
    rw [ConnectValueMovesAt_merge x y h]
    simp only [moveWeight_cons, moveSize] at ih ⊢
    omega
  | case5 a b rest h ih =>
    rw [ConnectValueMovesAt_skip a b rest h]
    simp only [moveWeight_cons] at ih ⊢
    omega

theorem ConnectAssigmentAt_moveWeight (a : SyntaxElem) (rest : Program) :
    moveWeight (ConnectAssigmentAt a rest).1 = moveWeight (a :: rest) := by
  induction a, rest using ConnectAssigmentAt.induct with
  | case1 a => rfl
  | case2 rest x y ih =>
    rw [ConnectAssigmentAt_fold x y]
    simp only [moveWeight_cons, moveSize] at ih ⊢
    omega
  | case3 a b rest h ih =>
    rw [ConnectAssigmentAt_skip a b rest h]
    simp only [moveWeight_cons] at ih ⊢
    omega

theorem FindZeroes_moveWeight (out : Program) :
    moveWeight (FindZeroes out).1 = moveWeight out := by
  induction out using FindZeroes.induct with
  | case1 => rfl
  | case2 rest ih =>
    rw [FindZeroes_match]
    simp only [moveWeight_cons, moveSize] at ih ⊢
    omega
  | case3 v rest hv ih =>
    rw [FindZeroes_skip _ _ (by simpa using fun h => absurd h hv)]
    simp only [moveWeight_cons] at ih ⊢
    omega
  | case4 a rest h ih =>
    rw [FindZeroes_skip _ _ (by
      intro rest2 he
      injection he with h1 h2
      exact h _ _ h1 h2)]
    simp only [moveWeight_cons] at ih ⊢
    omega

/-- A round of the optimizer does not add to the size of the pointer moves. -/
theorem OptimizeRound_moveWeight_le (out : Program) :
    moveWeight (OptimizeRound out).1 ≤ moveWeight out := by
  have h1 : moveWeight (ConnectPointerMoves out).1 ≤ moveWeight out := by
    cases out with
    | nil => exact Nat.le_refl _
    | cons a rest => exact ConnectPointerMovesAt_moveWeight_le a rest
  have h2 : ∀ P : Program, moveWeight (ConnectValueMoves P).1 = moveWeight P := by
    intro P
    cases P with
    | nil => rfl
    | cons a rest => exact ConnectValueMovesAt_moveWeight a rest
  have h3 : ∀ P : Program, moveWeight (ConnectAssigment P).1 = moveWeight P := by
    intro P
    cases P with
    | nil => rfl
    | cons a rest => exact ConnectAssigmentAt_moveWeight a rest
  simp only [OptimizeRound]
  rw [FindZeroes_moveWeight, h3, h2]
  exact h1

/-- The merge of pointer moves keeps the meaning of a program whose pointer moves
are small enough for every sum of them to be in the range of `int`. -/
theorem ConnectPointerMovesAt_sameMeaning (a : SyntaxElem) (rest : Program) :
    moveWeight (a :: rest) < 2147483648 →
      SameMeaning (a :: rest) (ConnectPointerMovesAt a rest).1 := by
  induction a, rest using ConnectPointerMovesAt.induct with
  | case1 a => intro _; exact SameMeaning_refl _
  | case2 x y h =>
    intro hw
    simp only [moveWeight_cons, moveSize, moveWeight_nil] at hw
    have hf : fitsInt (x + y) := fitsInt_of_natAbs _ (by omega)
    rw [wrapInt_of_fits _ hf] at h
    rw [ConnectPointerMovesAt_zero_nil x y (by rw [wrapInt_of_fits _ hf]; exact h)]
    exact SameMeaning_movePointer_zero x y h
  | case3 x y h c rest2 ih =>
    intro hw
    have hw2 : moveWeight (c :: rest2) < 2147483648 := by
      simp only [moveWeight_cons] at hw ⊢
      omega
    simp only [moveWeight_cons, moveSize] at hw
    have hf : fitsInt (x + y) := fitsInt_of_natAbs _ (by omega)
    rw [ConnectPointerMovesAt_zero_cons x y h]
    rw [wrapInt_of_fits _ hf] at h
    exact SameMeaning_trans (SameMeaning_head (SameMeaning_movePointer_zero x y h) (c :: rest2))
      (ih hw2)
  | case4 rest x y h ih =>
    intro hw
    have hm := moveSize_merge_le x y
    have hw2 : moveWeight (SyntaxElem.MovePointer (wrapInt (x + y)) :: rest) < 2147483648 := by
      simp only [moveWeight_cons] at hw ⊢
      omega
    simp only [moveWeight_cons, moveSize] at hw
    have hf : fitsInt (x + y) := fitsInt_of_natAbs _ (by omega)
    rw [ConnectPointerMovesAt_merge x y h]
    exact SameMeaning_trans (SameMeaning_head (SameMeaning_movePointer x y hf) rest) (ih hw2)
  | case5 a b rest h ih =>
    intro hw
    have hw2 : moveWeight (b :: rest) < 2147483648 := by
      simp only [moveWeight_cons] at hw ⊢
      omega
    rw [ConnectPointerMovesAt_skip a b rest h]
    exact SameMeaning_cons a (ih hw2)

theorem ConnectAssigmentAt_sameMeaning (a : SyntaxElem) (rest : Program) :
    SameMeaning (a :: rest) (ConnectAssigmentAt a rest).1 := by
  induction a, rest using ConnectAssigmentAt.induct with
  | case1 a => exact SameMeaning_refl _
  | case2 rest x y ih =>
    rw [ConnectAssigmentAt_fold x y]
    exact SameMeaning_trans (SameMeaning_head (SameMeaning_assignValue x y) rest) ih
  | case3 a b rest h ih =>
    rw [ConnectAssigmentAt_skip a b rest h]
    exact SameMeaning_cons a ih

theorem FindZeroes_sameMeaning (out : Program) : SameMeaning out (FindZeroes out).1 := by
  induction out using FindZeroes.induct with
  | case1 => exact SameMeaning_refl _
  | case2 rest ih =>
    rw [FindZeroes_match]
    exact SameMeaning_trans (SameMeaning_head SameMeaning_zeroLoop rest) (SameMeaning_cons _ ih)
  | case3 v rest hv ih =>
    rw [FindZeroes_skip _ _ (by simpa using fun h => absurd h hv)]
    exact SameMeaning_cons _ ih
  | case4 a rest h ih =>
    rw [FindZeroes_skip _ _ (by
      intro rest2 he
      injection he with h1 h2
      exact h _ _ h1 h2)]
    exact SameMeaning_cons _ ih

theorem OptimizeRound_sameMeaning (out : Program) (hw : moveWeight out < 2147483648) :
    SameMeaning out (OptimizeRound out).1 := by
  have h1 : SameMeaning out (ConnectPointerMoves out).1 := by
    cases out with
    | nil => exact SameMeaning_refl _
    | cons a rest => exact ConnectPointerMovesAt_sameMeaning a rest hw
  have h2 : ∀ P : Program, SameMeaning P (ConnectValueMoves P).1 := by
    intro P
    cases P with
    | nil => exact SameMeaning_refl _
    | cons a rest => exact ConnectValueMovesAt_sameMeaning a rest
  have h3 : ∀ P : Program, SameMeaning P (ConnectAssigment P).1 := by
    intro P
    cases P with
    | nil => exact SameMeaning_refl _
    | cons a rest => exact ConnectAssigmentAt_sameMeaning a rest
  exact SameMeaning_trans (SameMeaning_trans (SameMeaning_trans h1 (h2 _)) (h3 _))
    (FindZeroes_sameMeaning _)

theorem Optimize_sameMeaning (out : Program) :
    moveWeight out < 2147483648 → SameMeaning out (Optimize out) := by
  induction out using Optimize.induct with
  | case1 out h ih =>
    intro hw
    rw [Optimize_step out h]
    exact SameMeaning_trans (OptimizeRound_sameMeaning out hw)
      (ih (lt_of_le_of_lt (OptimizeRound_moveWeight_le out) hw))
  | case2 out h =>
    intro hw
    rw [Optimize_done out (by simpa using h)]
    exact OptimizeRound_sameMeaning out hw

theorem exec_mono (n : Nat) : ∀ (k : Nat) (T : Block) (m m' : Machine), n ≤ k →
    exec n T m = some m' → exec k T m = some m' := by
  induction n with
  | zero => intro k T m m' _ h; simp [exec] at h
  | succ n ih =>
    intro k T m m' hk h
    obtain ⟨k, rfl⟩ : ∃ j, k = j + 1 := ⟨k - 1, by omega⟩
    have hk' : n ≤ k := by omega
    cases T with
    | nil => simpa [exec] using h
    | cons x rest =>
      cases x with
      | op e =>
        simp only [exec] at h ⊢
        exact ih k _ _ _ hk' h
      | loop body =>
        simp only [exec] at h ⊢
        by_cases hz : m.cell = 0
        · rw [if_pos hz] at h ⊢
          exact ih k _ _ _ hk' h
        · rw [if_neg hz] at h ⊢
          cases hb : exec n body m with
          | none => rw [hb] at h; cases h
          | some m1 =>
            rw [hb] at h
            rw [ih k _ _ _ hk' hb]
            exact ih k _ _ _ hk' h

theorem exec_of_Run (T : Block) (m m' : Machine) (h : Run T m m') :
    ∃ n, exec n T m = some m' := by
  induction h with
  | nil m => exact ⟨1, rfl⟩
  | op e rest m m' _ ih =>
    obtain ⟨n, hn⟩ := ih
    exact ⟨n + 1, by simpa [exec] using hn⟩
  | loopExit body rest m m' hz _ ih =>
    obtain ⟨n, hn⟩ := ih
    exact ⟨n + 1, by simpa [exec, hz] using hn⟩
  | loopIter body rest m m1 m' hz _ _ ih1 ih2 =>
    obtain ⟨n1, h1⟩ := ih1
    obtain ⟨n2, h2⟩ := ih2
    refine ⟨max n1 n2 + 1, ?_⟩
    simp only [exec, if_neg hz]
    rw [exec_mono n1 _ _ _ _ (le_max_left _ _) h1]
    exact exec_mono n2 _ _ _ _ (le_max_right _ _) h2

theorem Run_of_exec (n : Nat) : ∀ (T : Block) (m m' : Machine),
    exec n T m = some m' → Run T m m' := by
  induction n with
  | zero => intro T m m' h; simp [exec] at h
  | succ n ih =>
    intro T m m' h
    cases T with
    | nil =>
      simp only [exec, Option.some.injEq] at h
      subst h
      exact Run.nil m
    | cons x rest =>
      cases x with
      | op e =>
        simp only [exec] at h
        exact Run.op e rest m m' (ih _ _ _ h)
      | loop body =>
        simp only [exec] at h
        by_cases hz : m.cell = 0
        · rw [if_pos hz] at h
          exact Run.loopExit body rest m m' hz (ih _ _ _ h)
        · rw [if_neg hz] at h
          cases hb : exec n body m with
          | none => rw [hb] at h; cases h
          | some m1 =>
            rw [hb] at h
            exact Run.loopIter body rest m m1 m' hz (ih _ _ _ hb) (ih _ _ _ h)

theorem Run_iff_exec (T : Block) (m m' : Machine) :
    Run T m m' ↔ ∃ n, exec n T m = some m' :=
  ⟨exec_of_Run T m m', fun ⟨n, h⟩ => Run_of_exec n T m m' h⟩

theorem pairLoops_depth (P : Program) : ∀ s : Block × List Block,
    (pairLoops P s).map (fun t => t.2.length) = depthAfter P s.2.length := by
  induction P with
  | nil => intro s; rfl
  | cons e rest ih =>
    intro s
    obtain ⟨c, st⟩ := s
    cases e with
    | LoopStart => simpa [pairLoops, pairStep, depthAfter] using ih ([], c :: st)
    | LoopEnd =>
      cases st with
      | nil => simp [pairLoops, pairStep, depthAfter]
      | cons o st => simpa [pairLoops, pairStep, depthAfter] using ih (o ++ [Stmt.loop c], st)
    | AssignValue v => simpa [pairLoops, pairStep, depthAfter] using ih (c ++ [Stmt.op _], st)
    | ChangeValue v => simpa [pairLoops, pairStep, depthAfter] using ih (c ++ [Stmt.op _], st)
    | MovePointer v => simpa [pairLoops, pairStep, depthAfter] using ih (c ++ [Stmt.op _], st)
    | PrintValue => simpa [pairLoops, pairStep, depthAfter] using ih (c ++ [Stmt.op _], st)
    | ReadValue => simpa [pairLoops, pairStep, depthAfter] using ih (c ++ [Stmt.op _], st)

/-- The programs with balanced loop delimiters are those that have a nesting. -/
theorem BalancedLoops_iff_nesting (P : Program) : BalancedLoops P ↔ ∃ T, nesting P = some T := by
  have h := pairLoops_depth P ([], [])
  unfold BalancedLoops nesting
  simp only [List.length_nil] at h
  rw [← h]
  cases pairLoops P ([], []) with
  | none => simp
  | some t =>
    obtain ⟨top, stack⟩ := t
    cases stack <;> simp

theorem StateEquiv_symm {s t : Block × List Block} (h : StateEquiv s t) : StateEquiv t s := by
  refine ⟨BlockEquiv_symm h.1, ?_⟩
  have h2 := h.2
  clear h
  generalize s.2 = a at *
  generalize t.2 = b at *
  induction h2 with
  | nil => exact List.Forall₂.nil
  | cons hab _ ih => exact List.Forall₂.cons (BlockEquiv_symm hab) ih

theorem OptionEquiv_symm {a b : Option (Block × List Block)} (h : OptionEquiv a b) :
    OptionEquiv b a := by
  cases a <;> cases b <;> simp only [OptionEquiv] at h ⊢
  exact StateEquiv_symm h

theorem SameMeaning_symm {P Q : Program} (h : SameMeaning P Q) : SameMeaning Q P :=
  fun s t hst => OptionEquiv_symm (h t s (StateEquiv_symm hst))

/-- Programs with the same meaning have their delimiters matched together, and
their nested forms have the same runs. -/
theorem SameMeaning_nesting {P Q : Program} (h : SameMeaning P Q) (T : Block)
    (hT : nesting P = some T) : ∃ T', nesting Q = some T' ∧ BlockEquiv T T' := by
  have h1 := h ([], []) ([], []) (StateEquiv_refl _)
  unfold BrainfuckDecompiler.nesting at hT
  cases h2 : pairLoops P ([], []) with
  | none => rw [h2] at hT; cases hT
  | some s =>
    obtain ⟨top, stack⟩ := s
    rw [h2] at hT h1
    cases stack with
    | cons x xs => cases hT
    | nil =>
      simp only [Option.some.injEq] at hT
      subst hT
      cases h3 : pairLoops Q ([], []) with
      | none => rw [h3] at h1; exact h1.elim
      | some t =>
        obtain ⟨top', stack'⟩ := t
        rw [h3] at h1
        obtain ⟨e1, e2⟩ := h1
        simp only at e1 e2
        cases e2
        exact ⟨top', by simp [BrainfuckDecompiler.nesting, h3], e1⟩

theorem SameMeaning_executes {P Q : Program} (h : SameMeaning P Q) (m m' : Machine) :
    Executes P m m' → Executes Q m m' := by
  rintro ⟨T, hT, hr⟩
  obtain ⟨T', hT', e⟩ := SameMeaning_nesting h T hT
  exact ⟨T', hT', (Run_iff_exec _ _ _).mp ((e m m').mp ((Run_iff_exec _ _ _).mpr hr))⟩

theorem SameMeaning_balancedLoops {P Q : Program} (h : SameMeaning P Q) (hP : BalancedLoops P) :
    BalancedLoops Q := by
  obtain ⟨T, hT⟩ := (BalancedLoops_iff_nesting P).mp hP
  obtain ⟨T', hT', _⟩ := SameMeaning_nesting h T hT
  exact (BalancedLoops_iff_nesting Q).mpr ⟨T', hT'⟩

/-- A program started in a state terminates in at most one state. -/
theorem Executes_deterministic (P : Program) (m m1 m2 : Machine) (h1 : Executes P m m1)
    (h2 : Executes P m m2) : m1 = m2 := by
  obtain ⟨T, hT, n, hn⟩ := h1
  obtain ⟨T', hT', k, hk⟩ := h2
  rw [hT] at hT'
  cases hT'
  have a := exec_mono n (max n k) T m m1 (le_max_left _ _) hn
  have b := exec_mono k (max n k) T m m2 (le_max_right _ _) hk
  rw [a] at b
  exact Option.some.inj b

/-- A run of the interpreter: the program of `+[>++<-]>.`, started on a tape of
zeros with nothing to read, ends having written the byte 2. -/
theorem exec_example :
    (nesting (Decompile "+[>++<-]>.".toList)).bind
        (fun T => (exec 9 T ⟨fun _ => 0, 0, [], []⟩).map (fun m => m.output))
      = some [2] := by
  rw [Decompile, DecompileLoop_eq_fuel 10 _ _ (by decide)]
  decide

/-! ### The pointer moves of a reduced program -/

theorem moveWeight_append (P Q : Program) :
    moveWeight (P ++ Q) = moveWeight P + moveWeight Q := by
  simp [moveWeight]

/-- A character the first inner loop reads changes the count by at most one. -/
theorem scanMoves_cons_natAbs (v : Int) (c : Char) (cs : List Char)
    (h : c ≠ NUL ∧ (ReadElemType c = CharType.Nop
        ∨ ReadElemType c = CharType.MovePointerForward
        ∨ ReadElemType c = CharType.MovePointerBackward)) :
    ∃ w : Int, w.natAbs ≤ v.natAbs + 1 ∧ scanMoves v (c :: cs) = scanMoves w cs := by
  refine ⟨if ReadElemType c = CharType.MovePointerBackward then
      wrapInt ((if ReadElemType c = CharType.MovePointerForward then wrapInt (v + 1) else v) - 1)
    else (if ReadElemType c = CharType.MovePointerForward then wrapInt (v + 1) else v), ?_, ?_⟩
  · have a1 := wrapInt_natAbs_le (v + 1)
    have a2 := wrapInt_natAbs_le (v - 1)
    split_ifs with hb hf
    · rw [hb] at hf
      exact absurd hf (by decide)
    · omega
    · omega
    · omega
  · rw [scanMoves, if_pos h]

/-- The count of the first inner loop grows by at most one for each character read. -/
theorem scanMoves_natAbs_le (p : List Char) : ∀ v : Int,
    (scanMoves v p).1.natAbs + (scanMoves v p).2.length ≤ v.natAbs + p.length := by
  induction p with
  | nil => intro v; simp [scanMoves]
  | cons c cs ih =>
    intro v
    by_cases h : c ≠ NUL ∧ (ReadElemType c = CharType.Nop
        ∨ ReadElemType c = CharType.MovePointerForward
        ∨ ReadElemType c = CharType.MovePointerBackward)
    · obtain ⟨w, hw, e⟩ := scanMoves_cons_natAbs v c cs h
      rw [e]
      have := ih w
      simp only [List.length_cons]
      omega
    · rw [scanMoves, if_neg h]

theorem takeElem_moveWeight_le (t : CharType) (e : SyntaxElem) (he : moveSize e = 0)
    (s : List Char × Program) :
    moveWeight (takeElem t e s).2 + (takeElem t e s).1.length ≤ moveWeight s.2 + s.1.length := by
  obtain ⟨p, out⟩ := s
  cases p with
  | nil => simp [takeElem]
  | cons c cs =>
    simp only [takeElem]
    split
    · simp only [moveWeight_append, moveWeight_cons, moveWeight_nil, he, List.length_cons]
      omega
    · exact Nat.le_refl _

/-- An iteration of the reducer adds to the size of the pointer moves at most the
number of characters it reads. -/
theorem DecompileBody_moveWeight_le (p : List Char) (out : Program) :
    moveWeight (DecompileBody p out).2 + (DecompileBody p out).1.length
      ≤ moveWeight out + p.length := by
  simp only [DecompileBody]
  refine le_trans (takeElem_moveWeight_le CharType.LoopEnd SyntaxElem.LoopEnd rfl _)
    (le_trans (takeElem_moveWeight_le CharType.LoopStart SyntaxElem.LoopStart rfl _)
    (le_trans (takeElem_moveWeight_le CharType.ReadValue SyntaxElem.ReadValue rfl _)
    (le_trans (takeElem_moveWeight_le CharType.PrintValue SyntaxElem.PrintValue rfl _) ?_)))
  have a1 := SkipNils_length_le p
  have a2 := scanMoves_natAbs_le (SkipNils p) 0
  have a3 := SkipNils_length_le (scanMoves 0 (SkipNils p)).2
  have a4 := scanChanges_length_le (SkipNils (scanMoves 0 (SkipNils p)).2) 0
  have a5 := SkipNils_length_le (scanChanges 0 (SkipNils (scanMoves 0 (SkipNils p)).2)).2
  simp only [Int.natAbs_zero] at a2
  split_ifs <;>
    simp only [moveWeight_append, moveWeight_cons, moveWeight_nil, moveSize] <;>
    omega

theorem DecompileLoop_moveWeight_le (n : Nat) : ∀ (p : List Char) (out : Program),
    p.length ≤ n → moveWeight (DecompileLoop p out) ≤ moveWeight out + p.length := by
  induction n with
  | zero =>
    intro p out h
    have hp : p = [] := List.length_eq_zero.mp (Nat.le_zero.mp h)
    subst hp
    rw [DecompileLoop_done [] out rfl]
    exact Nat.le_add_right _ _
  | succ n ih =>
    intro p out h
    by_cases hc : cur p = NUL
    · rw [DecompileLoop_done p out hc]
      exact Nat.le_add_right _ _
    · rw [DecompileLoop_step p out hc]
      have h1 := DecompileBody_length_lt p out hc
      have h2 := DecompileBody_moveWeight_le p out
      have h3 := ih (DecompileBody p out).1 (DecompileBody p out).2 (by omega)
      omega

/-- The pointer moves of a reduced program are no larger, added up, than the
buffer is long. -/
theorem Decompile_moveWeight_le (buf : List Char) :
    moveWeight (Decompile buf) ≤ buf.length := by
  have := DecompileLoop_moveWeight_le buf.length buf [] (Nat.le_refl _)
  simpa [Decompile, moveWeight_nil] using this

theorem Optimize_overflow_program :
    Optimize [SyntaxElem.MovePointer 2147483647, SyntaxElem.MovePointer 1]
      = [SyntaxElem.MovePointer (-2147483648)] := by
  rw [Optimize_eq_fuel 3 _ (by decide)]
  decide

/-- C1, as stated, fails: the program `MovePointer 2147483647`, `MovePointer 1` has
balanced loop delimiters (it has none) and moves the pointer up by `2^31`; the
optimizer adds the two deltas in `int` and returns `MovePointer (-2147483648)`,
which moves the pointer down by `2^31`. -/
theorem Optimize_changes_meaning_on_overflow :
    BalancedLoops [SyntaxElem.MovePointer 2147483647, SyntaxElem.MovePointer 1]
      ∧ Optimize [SyntaxElem.MovePointer 2147483647, SyntaxElem.MovePointer 1]
          = [SyntaxElem.MovePointer (-2147483648)]
      ∧ ¬ ∀ m m' : Machine,
          Executes (Optimize [SyntaxElem.MovePointer 2147483647, SyntaxElem.MovePointer 1]) m m'
            ↔ Executes [SyntaxElem.MovePointer 2147483647, SyntaxElem.MovePointer 1] m m' := by
  refine ⟨by decide, Optimize_overflow_program, ?_⟩
  intro H
  have h1 : Executes [SyntaxElem.MovePointer 2147483647, SyntaxElem.MovePointer 1]
      ⟨fun _ => 0, 0, [], []⟩ ⟨fun _ => 0, 2147483648, [], []⟩ := ⟨_, rfl, 3, rfl⟩
  have h2 := (H _ _).mpr h1
  rw [Optimize_overflow_program] at h2
  have h3 : Executes [SyntaxElem.MovePointer (-2147483648)]
      ⟨fun _ => 0, 0, [], []⟩ ⟨fun _ => 0, -2147483648, [], []⟩ := ⟨_, rfl, 2, rfl⟩
  have h4 := congrArg Machine.ptr (Executes_deterministic _ _ _ _ h2 h3)
  exact absurd h4 (by decide)

/-- C1, amended. The optimizer preserves the meaning of a program whose pointer
moves are small enough for their sums to stay in the range of `int`: for every
program with balanced loop delimiters in which the absolute values of the
`MovePointer` deltas add up to less than `2^31`, the optimized program has
balanced delimiters too, and from every state of the machine it terminates
exactly when the program does, in the same state (tape, pointer, input left to
read, output written).  Every program reduced from a buffer of fewer than `2^31`
characters is such a program. -/
theorem Optimize_preserves_meaning :
    (∀ P : Program, BalancedLoops P → moveWeight P < 2147483648 →
        BalancedLoops (Optimize P) ∧
          ∀ m m' : Machine, Executes (Optimize P) m m' ↔ Executes P m m')
      ∧ (∀ buf : List Char, buf.length < 2147483648 → BalancedLoops (Decompile buf) →
          moveWeight (Decompile buf) < 2147483648
            ∧ BalancedLoops (Optimize (Decompile buf))
            ∧ ∀ m m' : Machine,
                Executes (Optimize (Decompile buf)) m m' ↔ Executes (Decompile buf) m m') := by
  have main : ∀ P : Program, BalancedLoops P → moveWeight P < 2147483648 →
      BalancedLoops (Optimize P) ∧
        ∀ m m' : Machine, Executes (Optimize P) m m' ↔ Executes P m m' :=
    fun P h hw => ⟨SameMeaning_balancedLoops (Optimize_sameMeaning P hw) h, fun m m' =>
      ⟨SameMeaning_executes (SameMeaning_symm (Optimize_sameMeaning P hw)) m m',
       SameMeaning_executes (Optimize_sameMeaning P hw) m m'⟩⟩
  refine ⟨main, fun buf hlen hb => ?_⟩
  have hw : moveWeight (Decompile buf) < 2147483648 :=
    lt_of_le_of_lt (Decompile_moveWeight_le buf) hlen
  exact ⟨hw, main _ hb hw⟩

theorem Optimize_preserves_meaning_witness :
    BalancedLoops [SyntaxElem.ChangeValue 3, SyntaxElem.LoopStart, SyntaxElem.MovePointer 1,
        SyntaxElem.LoopStart, SyntaxElem.ChangeValue (-1), SyntaxElem.LoopEnd,
        SyntaxElem.MovePointer (-1), SyntaxElem.ChangeValue (-1), SyntaxElem.LoopEnd]
      ∧ moveWeight [SyntaxElem.ChangeValue 3, SyntaxElem.LoopStart, SyntaxElem.MovePointer 1,
          SyntaxElem.LoopStart, SyntaxElem.ChangeValue (-1), SyntaxElem.LoopEnd,
          SyntaxElem.MovePointer (-1), SyntaxElem.ChangeValue (-1), SyntaxElem.LoopEnd]
        < 2147483648
      ∧ (BalancedLoops (Optimize [SyntaxElem.ChangeValue 3, SyntaxElem.LoopStart,
        SyntaxElem.MovePointer 1, SyntaxElem.LoopStart, SyntaxElem.ChangeValue (-1),
        SyntaxElem.LoopEnd, SyntaxElem.MovePointer (-1), SyntaxElem.ChangeValue (-1),
        SyntaxElem.LoopEnd]) ∧
      ∀ m m' : Machine,
        Executes (Optimize [SyntaxElem.ChangeValue 3, SyntaxElem.LoopStart,
          SyntaxElem.MovePointer 1, SyntaxElem.LoopStart, SyntaxElem.ChangeValue (-1),
          SyntaxElem.LoopEnd, SyntaxElem.MovePointer (-1), SyntaxElem.ChangeValue (-1),
          SyntaxElem.LoopEnd]) m m' ↔
        Executes [SyntaxElem.ChangeValue 3, SyntaxElem.LoopStart, SyntaxElem.MovePointer 1,
          SyntaxElem.LoopStart, SyntaxElem.ChangeValue (-1), SyntaxElem.LoopEnd,
          SyntaxElem.MovePointer (-1), SyntaxElem.ChangeValue (-1), SyntaxElem.LoopEnd]
          m m') :=
  ⟨by decide, by decide, Optimize_preserves_meaning.1 _ (by decide) (by decide)⟩

/-! ## Idempotence -/

/-- The optimizer stops on a program that no rule changes. -/
theorem OptimizeRound_Optimize (out : Program) :
    (OptimizeRound (Optimize out)).2 = false := by
  induction out using Optimize.induct with
  | case1 out h ih =>
    rw [Optimize_step out h]
    exact ih
  | case2 out h =>
    have h2 : (OptimizeRound out).2 = false := by simpa using h
    rw [Optimize_done out h2, OptimizeRound_unchanged out h2]
    exact h2

/-- C2. Optimization is idempotent: `Optimize (Optimize P) = Optimize P` for
every program `P`. -/
theorem Optimize_idempotent (P : Program) : Optimize (Optimize P) = Optimize P := by
  have h := OptimizeRound_Optimize P
  rw [Optimize_done _ h]
  exact OptimizeRound_unchanged _ h

/-! ## The reducer is the run-folding tokenizer -/

theorem splitBy_loop_acc {α : Type} (R : α → α → Bool) (l : List α) (a : α) (g : List α)
    (gs : List (List α)) :
    List.splitBy.loop R l a g gs = gs.reverse ++ List.splitBy.loop R l a g [] := by
  induction l generalizing a g gs with
  | nil => simp [List.splitBy.loop]
  | cons b l ih =>
    simp only [List.splitBy.loop]
    cases R a b
    · simp only
      rw [ih b [] ((a :: g).reverse :: gs), ih b [] [(a :: g).reverse]]
      simp
    · simp only
      exact ih b (a :: g) gs

theorem splitBy_loop_group {α : Type} (R : α → α → Bool) (l : List α) (a : α) (g : List α) :
    List.splitBy.loop R l a g []
      = match List.splitBy.loop R l a [] [] with
        | [] => []
        | h :: t => (g.reverse ++ h) :: t := by
  induction l generalizing a g with
  | nil => simp [List.splitBy.loop]
  | cons b l ih =>
    simp only [List.splitBy.loop]
    cases R a b
    · simp only
      rw [splitBy_loop_acc R l b [] [(a :: g).reverse], splitBy_loop_acc R l b [] [[a].reverse]]
      simp
    · simp only
      rw [ih b (a :: g), ih b [a]]
      cases List.splitBy.loop R l b [] [] <;> simp

/-- The first element joins the group of the second when the two are related, and
is a group of its own otherwise. -/
theorem splitBy_cons_cons {α : Type} (R : α → α → Bool) (a b : α) (l : List α) :
    List.splitBy R (a :: b :: l)
      = if R a b = true then
          (match List.splitBy R (b :: l) with
           | [] => []
           | h :: t => (a :: h) :: t)
        else [a] :: List.splitBy R (b :: l) := by
  simp only [List.splitBy, List.splitBy.loop]
  cases R a b
  · simp only
    rw [splitBy_loop_acc]
    simp
  · simp only
    rw [splitBy_loop_group R l b [a]]
    cases List.splitBy.loop R l b [] [] <;> simp

theorem splitBy_singleton {α : Type} (R : α → α → Bool) (a : α) :
    List.splitBy R [a] = [[a]] := by
  simp [List.splitBy, List.splitBy.loop]

/-- A group that ends where the relation fails is split off whole. -/
theorem splitBy_run {α : Type} (R : α → α → Bool) (P : α → Bool)
    (hR : ∀ a b, P a = true → R a b = P b) (M G : List α) (hne : M ≠ [])
    (hM : ∀ c ∈ M, P c = true) (hG : ∀ g ∈ G.head?, P g = false) :
    List.splitBy R (M ++ G) = M :: List.splitBy R G := by
  induction M with
  | nil => exact absurd rfl hne
  | cons a M ih =>
    have ha : P a = true := hM a (List.mem_cons_self _ _)
    cases M with
    | nil =>
      cases G with
      | nil => simp [splitBy_singleton]
      | cons g G =>
        have hg : P g = false := hG g (by simp)
        simp only [List.cons_append, List.nil_append]
        rw [splitBy_cons_cons, hR a g ha, hg]
        simp
    | cons b M =>
      have hb : P b = true := hM b (by simp)
      have h2 := ih (by simp) (fun c hc => hM c (List.mem_cons_of_mem _ hc))
      simp only [List.cons_append] at h2 ⊢
      rw [splitBy_cons_cons, hR a b ha, hb, h2]
      simp

theorem sameRun_of_isMove (a b : Char) (h : isMove a = true) : sameRun a b = isMove b := by
  have h2 : isChange a = false := by
    simp only [isMove, isChange, decide_eq_true_eq, decide_eq_false_iff_not] at h ⊢
    rcases h with rfl | rfl <;> decide
  simp [sameRun, h, h2]

theorem sameRun_of_isChange (a b : Char) (h : isChange a = true) : sameRun a b = isChange b := by
  have h2 : isMove a = false := by
    simp only [isMove, isChange, decide_eq_true_eq, decide_eq_false_iff_not] at h ⊢
    rcases h with rfl | rfl <;> decide
  simp [sameRun, h, h2]

theorem foldRuns_nil : foldRuns [] = [] := rfl

theorem foldRunsInt_nil : foldRunsInt [] = [] := rfl

/-- A run of pointer moves ahead of the rest is mapped on its own. -/
theorem flatMap_runs_moves (tok : List Char → Program) (M G : List Char) (hne : M ≠ [])
    (hM : ∀ c ∈ M, isMove c = true) (hG : ∀ g ∈ G.head?, isMove g = false) :
    ((M ++ G).splitBy sameRun).flatMap tok = tok M ++ (G.splitBy sameRun).flatMap tok := by
  rw [splitBy_run sameRun isMove sameRun_of_isMove M G hne hM hG]
  simp [List.flatMap]

/-- A run of value changes ahead of the rest is mapped on its own. -/
theorem flatMap_runs_changes (tok : List Char → Program) (M G : List Char) (hne : M ≠ [])
    (hM : ∀ c ∈ M, isChange c = true) (hG : ∀ g ∈ G.head?, isChange g = false) :
    ((M ++ G).splitBy sameRun).flatMap tok = tok M ++ (G.splitBy sameRun).flatMap tok := by
  rw [splitBy_run sameRun isChange sameRun_of_isChange M G hne hM hG]
  simp [List.flatMap]

/-- A character that is neither a pointer move nor a value change is a run. -/
theorem flatMap_runs_single (tok : List Char → Program) (c : Char) (G : List Char)
    (h1 : isMove c = false) (h2 : isChange c = false) :
    ((c :: G).splitBy sameRun).flatMap tok = tok [c] ++ (G.splitBy sameRun).flatMap tok := by
  cases G with
  | nil => simp [splitBy_singleton, List.flatMap]
  | cons g G =>
    rw [splitBy_cons_cons]
    simp [sameRun, h1, h2, List.flatMap]

theorem foldRuns_moves (M G : List Char) (hne : M ≠ []) (hM : ∀ c ∈ M, isMove c = true)
    (hG : ∀ g ∈ G.head?, isMove g = false) :
    foldRuns (M ++ G) = tokenOfRun M ++ foldRuns G :=
  flatMap_runs_moves tokenOfRun M G hne hM hG

theorem foldRuns_changes (M G : List Char) (hne : M ≠ []) (hM : ∀ c ∈ M, isChange c = true)
    (hG : ∀ g ∈ G.head?, isChange g = false) :
    foldRuns (M ++ G) = tokenOfRun M ++ foldRuns G :=
  flatMap_runs_changes tokenOfRun M G hne hM hG

theorem foldRunsInt_moves (M G : List Char) (hne : M ≠ []) (hM : ∀ c ∈ M, isMove c = true)
    (hG : ∀ g ∈ G.head?, isMove g = false) :
    foldRunsInt (M ++ G) = tokenOfRunInt M ++ foldRunsInt G :=
  flatMap_runs_moves tokenOfRunInt M G hne hM hG

theorem foldRunsInt_changes (M G : List Char) (hne : M ≠ [])
    (hM : ∀ c ∈ M, isChange c = true) (hG : ∀ g ∈ G.head?, isChange g = false) :
    foldRunsInt (M ++ G) = tokenOfRunInt M ++ foldRunsInt G :=
  flatMap_runs_changes tokenOfRunInt M G hne hM hG

theorem foldRunsInt_single (c : Char) (G : List Char) (h1 : isMove c = false)
    (h2 : isChange c = false) : foldRunsInt (c :: G) = tokenOfRunInt [c] ++ foldRunsInt G :=
  flatMap_runs_single tokenOfRunInt c G h1 h2

theorem ReadElemType_spec (c : Char) :
    (c = '>' ∧ ReadElemType c = CharType.MovePointerForward)
    ∨ (c = '<' ∧ ReadElemType c = CharType.MovePointerBackward)
    ∨ (c = '+' ∧ ReadElemType c = CharType.IncrementValue)
    ∨ (c = '-' ∧ ReadElemType c = CharType.DecrementValue)
    ∨ (c = '.' ∧ ReadElemType c = CharType.PrintValue)
    ∨ (c = ',' ∧ ReadElemType c = CharType.ReadValue)
    ∨ (c = '[' ∧ ReadElemType c = CharType.LoopStart)
    ∨ (c = ']' ∧ ReadElemType c = CharType.LoopEnd)
    ∨ (isInstruction c = false ∧ ReadElemType c = CharType.Nop) := by
  unfold ReadElemType
  split_ifs with h1 h2 h3 h4 h5 h6 h7 h8
  · exact Or.inl ⟨h1, rfl⟩
  · exact Or.inr (Or.inl ⟨h2, rfl⟩)
  · exact Or.inr (Or.inr (Or.inl ⟨h3, rfl⟩))
  · exact Or.inr (Or.inr (Or.inr (Or.inl ⟨h4, rfl⟩)))
  · exact Or.inr (Or.inr (Or.inr (Or.inr (Or.inl ⟨h5, rfl⟩))))
  · exact Or.inr (Or.inr (Or.inr (Or.inr (Or.inr (Or.inl ⟨h6, rfl⟩)))))
  · exact Or.inr (Or.inr (Or.inr (Or.inr (Or.inr (Or.inr (Or.inl ⟨h7, rfl⟩))))))
  · exact Or.inr (Or.inr (Or.inr (Or.inr (Or.inr (Or.inr (Or.inr (Or.inl ⟨h8, rfl⟩)))))))
  · refine Or.inr (Or.inr (Or.inr (Or.inr (Or.inr (Or.inr (Or.inr (Or.inr ⟨?_, rfl⟩)))))))
    simp [isInstruction, h1, h2, h3, h4, h5, h6, h7, h8]

theorem instructionChars_nil : instructionChars [] = [] := rfl

theorem instructionChars_NUL (cs : List Char) : instructionChars (NUL :: cs) = [] := by
  simp [instructionChars, cString]

theorem instructionChars_cons (c : Char) (cs : List Char) (h : c ≠ NUL) :
    instructionChars (c :: cs)
      = if isInstruction c = true then c :: instructionChars cs else instructionChars cs := by
  simp only [instructionChars, cString, List.takeWhile_cons, h, ne_eq, not_false_eq_true,
    decide_True, if_true, List.filter_cons]

theorem instructionChars_SkipNils (p : List Char) :
    instructionChars (SkipNils p) = instructionChars p := by
  induction p with
  | nil => rfl
  | cons c cs ih =>
    rw [SkipNils]
    split
    next h =>
      rw [ih, instructionChars_cons c cs h.1]
      rcases ReadElemType_spec c with h1 | h1 | h1 | h1 | h1 | h1 | h1 | h1 | h1 <;>
        first
        | (rw [h1.2] at h; exact absurd h.2 (by decide))
        | simp [h1.1]
    next h => rfl

theorem netCount_nil (up down : Char) : netCount up down [] = 0 := by
  simp [netCount]

/-- What the first inner loop consumes: a run `M` of pointer moves among the
instruction characters, counted into the `int value`, up to an instruction
character that is not a pointer move. -/
theorem scanMoves_spec (p : List Char) : ∀ v : Int, wrapInt v = v → ∃ M : List Char,
    (∀ c ∈ M, isMove c = true)
    ∧ instructionChars p = M ++ instructionChars (scanMoves v p).2
    ∧ (scanMoves v p).1 = wrapInt (v + netCount '>' '<' M)
    ∧ (∀ g ∈ (instructionChars (scanMoves v p).2).head?, isMove g = false) := by
  induction p with
  | nil =>
    intro v hv
    exact ⟨[], by simp, by simp [scanMoves], by simp [scanMoves, netCount, hv], by
      simp [scanMoves, instructionChars_nil]⟩
  | cons c cs ih =>
    intro v hv
    by_cases hc : c = NUL
    · subst hc
      refine ⟨[], by simp, ?_, ?_, ?_⟩ <;>
        simp [scanMoves, instructionChars_NUL, netCount, hv]
    · have hF := instructionChars_cons c cs hc
      rcases ReadElemType_spec c with h | h | h | h | h | h | h | h | h
      · -- `>`
        obtain ⟨M, h1, h2, h3, h4⟩ := ih (wrapInt (v + 1)) (wrapInt_wrapInt _)
        have e : scanMoves v (c :: cs) = scanMoves (wrapInt (v + 1)) cs := by
          simp [scanMoves, hc, h.2]
        rw [e]
        refine ⟨c :: M, ?_, ?_, ?_, h4⟩
        · intro x hx
          rcases List.mem_cons.mp hx with rfl | hx
          · rw [h.1]; decide
          · exact h1 x hx
        · rw [hF, h.1, if_pos (by decide), ← h.1, h2]
          rfl
        · rw [h3, h.1, wrapInt_add_left]
          congr 1
          simp only [netCount, List.count_cons]
          simp
          ring
      · -- `<`
        obtain ⟨M, h1, h2, h3, h4⟩ := ih (wrapInt (v - 1)) (wrapInt_wrapInt _)
        have e : scanMoves v (c :: cs) = scanMoves (wrapInt (v - 1)) cs := by
          simp [scanMoves, hc, h.2]
        rw [e]
        refine ⟨c :: M, ?_, ?_, ?_, h4⟩
        · intro x hx
          rcases List.mem_cons.mp hx with rfl | hx
          · rw [h.1]; decide
          · exact h1 x hx
        · rw [hF, h.1, if_pos (by decide), ← h.1, h2]
          rfl
        · rw [h3, h.1, wrapInt_add_left]
          congr 1
          simp only [netCount, List.count_cons]
          simp
          ring
      rotate_left 6
      · -- not an instruction
        obtain ⟨M, h1, h2, h3, h4⟩ := ih v hv
        have e : scanMoves v (c :: cs) = scanMoves v cs := by
          simp [scanMoves, hc, h.2]
        rw [e]
        refine ⟨M, h1, ?_, h3, h4⟩
        rw [hF, h.1, ← h2]
        simp
      -- an instruction character that is not a pointer move stops the loop
      all_goals
        obtain ⟨rfl, h2⟩ := h
        refine ⟨[], by simp, ?_, ?_, ?_⟩ <;>
          simp [scanMoves, h2, netCount, hF, isInstruction, isMove, hv]

/-- What the second inner loop consumes: a run `M` of value changes among the
instruction characters, counted into the `int value`, up to an instruction
character that is not a value change. -/
theorem scanChanges_spec (p : List Char) : ∀ v : Int, wrapInt v = v → ∃ M : List Char,
    (∀ c ∈ M, isChange c = true)
    ∧ instructionChars p = M ++ instructionChars (scanChanges v p).2
    ∧ (scanChanges v p).1 = wrapInt (v + netCount '+' '-' M)
    ∧ (∀ g ∈ (instructionChars (scanChanges v p).2).head?, isChange g = false) := by
  induction p with
  | nil =>
    intro v hv
    exact ⟨[], by simp, by simp [scanChanges], by simp [scanChanges, netCount, hv], by
      simp [scanChanges, instructionChars_nil]⟩
  | cons c cs ih =>
    intro v hv
    by_cases hc : c = NUL
    · subst hc
      refine ⟨[], by simp, ?_, ?_, ?_⟩ <;>
        simp [scanChanges, instructionChars_NUL, netCount, hv]
    · have hF := instructionChars_cons c cs hc
      rcases ReadElemType_spec c with h | h | h | h | h | h | h | h | h
      rotate_left 2
      · -- `+`
        obtain ⟨M, h1, h2, h3, h4⟩ := ih (wrapInt (v + 1)) (wrapInt_wrapInt _)
        have e : scanChanges v (c :: cs) = scanChanges (wrapInt (v + 1)) cs := by
          simp [scanChanges, hc, h.2]
        rw [e]
        refine ⟨c :: M, ?_, ?_, ?_, h4⟩
        · intro x hx
          rcases List.mem_cons.mp hx with rfl | hx
          · rw [h.1]; decide
          · exact h1 x hx
        · rw [hF, h.1, if_pos (by decide), ← h.1, h2]
          rfl
        · rw [h3, h.1, wrapInt_add_left]
          congr 1
          simp only [netCount, List.count_cons]
          simp
          ring
      · -- `-`
        obtain ⟨M, h1, h2, h3, h4⟩ := ih (wrapInt (v - 1)) (wrapInt_wrapInt _)
        have e : scanChanges v (c :: cs) = scanChanges (wrapInt (v - 1)) cs := by
          simp [scanChanges, hc, h.2]
        rw [e]
        refine ⟨c :: M, ?_, ?_, ?_, h4⟩
        · intro x hx
          rcases List.mem_cons.mp hx with rfl | hx
          · rw [h.1]; decide
          · exact h1 x hx
        · rw [hF, h.1, if_pos (by decide), ← h.1, h2]
          rfl
        · rw [h3, h.1, wrapInt_add_left]
          congr 1
          simp only [netCount, List.count_cons]
          simp
          ring
      rotate_left 4
      · -- not an instruction
        obtain ⟨M, h1, h2, h3, h4⟩ := ih v hv
        have e : scanChanges v (c :: cs) = scanChanges v cs := by
          simp [scanChanges, hc, h.2]
        rw [e]
        refine ⟨M, h1, ?_, h3, h4⟩
        rw [hF, h.1, ← h2]
        simp
      -- an instruction character that is not a value change stops the loop
      all_goals
        obtain ⟨rfl, h2⟩ := h
        refine ⟨[], by simp, ?_, ?_, ?_⟩ <;>
          simp [scanChanges, h2, netCount, hF, isInstruction, isChange, hv]

theorem tokenOfRun_moves (M : List Char) (hne : M ≠ []) (hM : ∀ c ∈ M, isMove c = true) :
    tokenOfRun M = if netCount '>' '<' M = 0 then []
      else [SyntaxElem.MovePointer (netCount '>' '<' M)] := by
  cases M with
  | nil => exact absurd rfl hne
  | cons c M => simp [tokenOfRun, hM c (List.mem_cons_self _ _)]

theorem isMove_of_isChange (c : Char) (h : isChange c = true) : isMove c = false := by
  simp only [isMove, isChange, decide_eq_true_eq, decide_eq_false_iff_not] at h ⊢
  rcases h with rfl | rfl <;> decide

theorem tokenOfRun_changes (M : List Char) (hne : M ≠ [])
    (hM : ∀ c ∈ M, isChange c = true) :
    tokenOfRun M = if netCount '+' '-' M = 0 then []
      else [SyntaxElem.ChangeValue (netCount '+' '-' M)] := by
  cases M with
  | nil => exact absurd rfl hne
  | cons c M =>
    have h1 : isChange c = true := hM c (List.mem_cons_self _ _)
    simp [tokenOfRun, h1, isMove_of_isChange c h1]

theorem tokenOfRunInt_moves (M : List Char) (hne : M ≠ [])
    (hM : ∀ c ∈ M, isMove c = true) :
    tokenOfRunInt M = if wrapInt (netCount '>' '<' M) = 0 then []
      else [SyntaxElem.MovePointer (wrapInt (netCount '>' '<' M))] := by
  cases M with
  | nil => exact absurd rfl hne
  | cons c M => simp [tokenOfRunInt, hM c (List.mem_cons_self _ _)]

theorem tokenOfRunInt_changes (M : List Char) (hne : M ≠ [])
    (hM : ∀ c ∈ M, isChange c = true) :
    tokenOfRunInt M = if wrapInt (netCount '+' '-' M) = 0 then []
      else [SyntaxElem.ChangeValue (wrapInt (netCount '+' '-' M))] := by
  cases M with
  | nil => exact absurd rfl hne
  | cons c M =>
    have h1 : isChange c = true := hM c (List.mem_cons_self _ _)
    simp [tokenOfRunInt, h1, isMove_of_isChange c h1]

theorem wrapInt_zero : wrapInt 0 = 0 := by decide

theorem pending_SkipNils (p : List Char) (out : Program) :
    pending (SkipNils p, out) = pending (p, out) := by
  simp only [pending, instructionChars_SkipNils]

theorem pending_scanMoves (p : List Char) (out : Program) :
    pending ((scanMoves 0 p).2,
        if (scanMoves 0 p).1 ≠ 0 then out ++ [SyntaxElem.MovePointer (scanMoves 0 p).1] else out)
      = pending (p, out) := by
  obtain ⟨M, h1, h2, h3, h4⟩ := scanMoves_spec p 0 wrapInt_zero
  simp only [pending]
  rw [h2]
  by_cases hM : M = []
  · subst hM
    simp [h3, netCount, wrapInt_zero]
  · rw [foldRunsInt_moves M _ hM h1 h4, tokenOfRunInt_moves M hM h1, h3, zero_add]
    by_cases hz : wrapInt (netCount '>' '<' M) = 0 <;> simp [hz]

theorem pending_scanChanges (p : List Char) (out : Program) :
    pending ((scanChanges 0 p).2,
        if (scanChanges 0 p).1 ≠ 0 then out ++ [SyntaxElem.ChangeValue (scanChanges 0 p).1]
        else out)
      = pending (p, out) := by
  obtain ⟨M, h1, h2, h3, h4⟩ := scanChanges_spec p 0 wrapInt_zero
  simp only [pending]
  rw [h2]
  by_cases hM : M = []
  · subst hM
    simp [h3, netCount, wrapInt_zero]
  · rw [foldRunsInt_changes M _ hM h1 h4, tokenOfRunInt_changes M hM h1, h3, zero_add]
    by_cases hz : wrapInt (netCount '+' '-' M) = 0 <;> simp [hz]

theorem pending_takeElem (t : CharType) (e : SyntaxElem) (s : List Char × Program)
    (h : ∀ c : Char, ReadElemType c = t →
      isMove c = false ∧ isChange c = false ∧ isInstruction c = true ∧ tokenOfRunInt [c] = [e]) :
    pending (takeElem t e s) = pending s := by
  obtain ⟨p, out⟩ := s
  cases p with
  | nil => rfl
  | cons c cs =>
    simp only [takeElem]
    split
    next hc =>
      obtain ⟨h1, h2, h3, h4⟩ := h c hc.2
      simp only [pending, instructionChars_cons c cs hc.1, h3, if_true]
      rw [foldRunsInt_single c _ h1 h2, h4]
      simp
    next hc => rfl

theorem pending_DecompileBody (p : List Char) (out : Program) :
    pending (DecompileBody p out) = pending (p, out) := by
  have key : ∀ (t : CharType) (ch : Char) (e : SyntaxElem),
      (∀ c : Char, ReadElemType c = t → c = ch) → isMove ch = false → isChange ch = false →
      isInstruction ch = true → tokenOfRunInt [ch] = [e] →
      ∀ c : Char, ReadElemType c = t →
        isMove c = false ∧ isChange c = false ∧ isInstruction c = true ∧ tokenOfRunInt [c] = [e] := by
    intro t ch e h0 h1 h2 h3 h4 c hc
    rw [h0 c hc]
    exact ⟨h1, h2, h3, h4⟩
  have inv : ∀ (t : CharType) (ch : Char), (ReadElemType ch = t) → (t ≠ CharType.Nop) →
      ∀ c : Char, ReadElemType c = t → c = ch := by
    intro t ch h1 h2 c hc
    have e : ReadElemType c = ReadElemType ch := hc.trans h1.symm
    rcases ReadElemType_spec c with h | h | h | h | h | h | h | h | h <;>
      rcases ReadElemType_spec ch with k | k | k | k | k | k | k | k | k <;>
      first
      | (exfalso; rw [h.2, k.2] at e; exact absurd e (by decide))
      | (exfalso; rw [h.2] at hc; exact h2 hc.symm)
      | (rw [h.1, k.1])
  simp only [DecompileBody]
  rw [pending_takeElem _ _ _ (key _ ']' _ (inv _ ']' (by decide) (by decide)) (by decide)
        (by decide) (by decide) (by decide)),
    pending_takeElem _ _ _ (key _ '[' _ (inv _ '[' (by decide) (by decide)) (by decide)
        (by decide) (by decide) (by decide)),
    pending_takeElem _ _ _ (key _ ',' _ (inv _ ',' (by decide) (by decide)) (by decide)
        (by decide) (by decide) (by decide)),
    pending_takeElem _ _ _ (key _ '.' _ (inv _ '.' (by decide) (by decide)) (by decide)
        (by decide) (by decide) (by decide)),
    pending_SkipNils, pending_scanChanges, pending_SkipNils, pending_scanMoves, pending_SkipNils]

theorem DecompileLoop_eq_pending (n : Nat) : ∀ (p : List Char) (out : Program),
    p.length ≤ n → DecompileLoop p out = pending (p, out) := by
  induction n with
  | zero =>
    intro p out h
    have hp : p = [] := List.length_eq_zero.mp (Nat.le_zero.mp h)
    subst hp
    rw [DecompileLoop_done [] out rfl]
    simp [pending, instructionChars_nil, foldRunsInt_nil]
  | succ n ih =>
    intro p out h
    by_cases hc : cur p = NUL
    · rw [DecompileLoop_done p out hc]
      cases p with
      | nil => simp [pending, instructionChars_nil, foldRunsInt_nil]
      | cons c cs =>
        have : c = NUL := hc
        subst this
        simp [pending, instructionChars_NUL, foldRunsInt_nil]
    · rw [DecompileLoop_step p out hc, ih _ _ (by
        have := DecompileBody_length_lt p out hc
        omega)]
      exact pending_DecompileBody p out

/-- The output of the reducer is that of the run-folding tokenizer with the net
count of each run held in an `int`. -/
theorem Decompile_eq_foldRuns (buf : List Char) :
    Decompile buf = foldRunsInt (instructionChars buf) := by
  rw [Decompile, DecompileLoop_eq_pending buf.length buf [] (Nat.le_refl _)]
  simp [pending]

/-- A buffer without a terminator inside is its own C string. -/
theorem cString_eq_self (s : List Char) (h : ∀ c ∈ s, c ≠ NUL) : cString s = s := by
  unfold cString
  rw [List.takeWhile_eq_self_iff]
  intro c hc
  simpa using h c hc

theorem instructionChars_filter (s : List Char) (h : ∀ c ∈ s, c ≠ NUL) :
    instructionChars s = s.filter isInstruction := by
  induction s with
  | nil => rfl
  | cons c cs ih =>
    rw [instructionChars_cons c cs (h c (List.mem_cons_self _ _)),
      ih (fun x hx => h x (List.mem_cons_of_mem _ hx)), List.filter_cons]

theorem instructionChars_of_instructions (s : List Char)
    (h : ∀ c ∈ s, isInstruction c = true) : instructionChars s = s := by
  rw [instructionChars_filter s (fun c hc hn => by
    have := h c hc
    rw [hn] at this
    exact absurd this (by decide))]
  exact List.filter_eq_self.mpr h

/-- On a run whose net counts are in the range of `int` the reducer pushes what the
tokenizer of the specification gives. -/
theorem tokenOfRunInt_of_fits (run : List Char)
    (h : fitsInt (netCount '>' '<' run) ∧ fitsInt (netCount '+' '-' run)) :
    tokenOfRunInt run = tokenOfRun run := by
  unfold tokenOfRunInt tokenOfRun
  rw [wrapInt_of_fits _ h.1, wrapInt_of_fits _ h.2]

theorem foldRunsInt_of_fits (s : List Char) (h : RunsFit s) :
    foldRunsInt (s.filter isInstruction) = foldRuns (s.filter isInstruction) :=
  List.flatMap_congr (fun run hr => tokenOfRunInt_of_fits run (h run hr))

/-- A net count is no larger than the run is long. -/
theorem netCount_fits (up down : Char) (run : List Char) (h : run.length < 2147483648) :
    fitsInt (netCount up down run) := by
  have h1 := List.count_le_length up run
  have h2 := List.count_le_length down run
  unfold fitsInt netCount
  omega

/-- In a string of fewer than `2^31` characters every run has its net count in the
range of `int`. -/
theorem RunsFit_of_length (s : List Char) (h : s.length < 2147483648) : RunsFit s := by
  intro run hr
  have h1 : run.length ≤ (s.filter isInstruction).length := by
    have := (List.sublist_flatten_of_mem hr).length_le
    rwa [List.flatten_splitBy] at this
  have h2 := List.length_filter_le isInstruction s
  exact ⟨netCount_fits _ _ run (by omega), netCount_fits _ _ run (by omega)⟩

/-- The reducer on a buffer of the value-change characters only: one `ChangeValue`
with the net count as the `int` counter holds it. -/
theorem Decompile_changes_int (s : List Char) (h : ∀ c ∈ s, c = '+' ∨ c = '-') :
    Decompile s = if wrapInt (netCount '+' '-' s) = 0 then []
      else [SyntaxElem.ChangeValue (wrapInt (netCount '+' '-' s))] := by
  have h1 : ∀ c ∈ s, isInstruction c = true := by
    intro c hc
    rcases h c hc with rfl | rfl <;> decide
  have h2 : ∀ c ∈ s, isChange c = true := by
    intro c hc
    rcases h c hc with rfl | rfl <;> decide
  rw [Decompile_eq_foldRuns, instructionChars_of_instructions s h1]
  by_cases hs : s = []
  · subst hs
    simp [foldRunsInt_nil, netCount, wrapInt_zero]
  · have h3 := foldRunsInt_changes s [] hs h2 (by simp)
    rw [List.append_nil] at h3
    rw [h3, tokenOfRunInt_changes s hs h2, foldRunsInt_nil, List.append_nil]

/-- The reducer on a buffer of the pointer-move characters only: one `MovePointer`
with the net count as the `int` counter holds it. -/
theorem Decompile_moves_int (s : List Char) (h : ∀ c ∈ s, c = '>' ∨ c = '<') :
    Decompile s = if wrapInt (netCount '>' '<' s) = 0 then []
      else [SyntaxElem.MovePointer (wrapInt (netCount '>' '<' s))] := by
  have h1 : ∀ c ∈ s, isInstruction c = true := by
    intro c hc
    rcases h c hc with rfl | rfl <;> decide
  have h2 : ∀ c ∈ s, isMove c = true := by
    intro c hc
    rcases h c hc with rfl | rfl <;> decide
  rw [Decompile_eq_foldRuns, instructionChars_of_instructions s h1]
  by_cases hs : s = []
  · subst hs
    simp [foldRunsInt_nil, netCount, wrapInt_zero]
  · have h3 := foldRunsInt_moves s [] hs h2 (by simp)
    rw [List.append_nil] at h3
    rw [h3, tokenOfRunInt_moves s hs h2, foldRunsInt_nil, List.append_nil]

/-- The tokenizer of the specification on a string of the value-change characters
only. -/
theorem referenceTokenizer_changes (s : List Char) (h : ∀ c ∈ s, c = '+' ∨ c = '-') :
    referenceTokenizer s = if netCount '+' '-' s = 0 then []
      else [SyntaxElem.ChangeValue (netCount '+' '-' s)] := by
  have h1 : ∀ c ∈ s, isInstruction c = true := by
    intro c hc
    rcases h c hc with rfl | rfl <;> decide
  have h2 : ∀ c ∈ s, isChange c = true := by
    intro c hc
    rcases h c hc with rfl | rfl <;> decide
  unfold referenceTokenizer
  rw [List.filter_eq_self.mpr h1]
  by_cases hs : s = []
  · subst hs
    simp [foldRuns_nil, netCount]
  · have h3 := foldRuns_changes s [] hs h2 (by simp)
    rw [List.append_nil] at h3
    rw [h3, tokenOfRun_changes s hs h2, foldRuns_nil, List.append_nil]

theorem netCount_replicate_plus (n : Nat) :
    netCount '+' '-' (List.replicate n '+') = (n : Int) := by
  unfold netCount
  rw [List.count_replicate_self, List.count_replicate]
  simp

theorem netCount_replicate_forward (n : Nat) :
    netCount '>' '<' (List.replicate n '>') = (n : Int) := by
  unfold netCount
  rw [List.count_replicate_self, List.count_replicate]
  simp

/-- A buffer of `2^31` characters `+`: the `int` counter of the reducer ends at
`-2^31`. -/
theorem Decompile_replicate_plus :
    Decompile (List.replicate 2147483648 '+') = [SyntaxElem.ChangeValue (-2147483648)] := by
  rw [Decompile_changes_int _ (fun c hc => Or.inl (List.eq_of_mem_replicate hc)),
    netCount_replicate_plus]
  decide

/-- A buffer of `2^31` characters `>`: the `int` counter of the reducer ends at
`-2^31`. -/
theorem Decompile_replicate_forward :
    Decompile (List.replicate 2147483648 '>') = [SyntaxElem.MovePointer (-2147483648)] := by
  rw [Decompile_moves_int _ (fun c hc => Or.inl (List.eq_of_mem_replicate hc)),
    netCount_replicate_forward]
  decide

theorem cString_replicate (n : Nat) (c : Char) (hc : c ≠ NUL) :
    cString (List.replicate n c) = List.replicate n c :=
  cString_eq_self _ (fun x hx => by rw [List.eq_of_mem_replicate hx]; exact hc)

/-- C3, as stated, fails: on a buffer of `2^31` characters `+` the tokenizer of the
specification gives `ChangeValue 2147483648`, and the reducer, which counts the
run in an `int`, gives `ChangeValue (-2147483648)`. -/
theorem Decompile_ne_referenceTokenizer_on_long_run :
    Decompile (List.replicate 2147483648 '+') = [SyntaxElem.ChangeValue (-2147483648)]
      ∧ referenceTokenizer (cString (List.replicate 2147483648 '+'))
          = [SyntaxElem.ChangeValue 2147483648]
      ∧ Decompile (List.replicate 2147483648 '+')
          ≠ referenceTokenizer (cString (List.replicate 2147483648 '+')) := by
  have h2 : referenceTokenizer (cString (List.replicate 2147483648 '+'))
      = [SyntaxElem.ChangeValue 2147483648] := by
    rw [cString_replicate _ _ (by decide),
      referenceTokenizer_changes _ (fun c hc => Or.inl (List.eq_of_mem_replicate hc)),
      netCount_replicate_plus]
    decide
  refine ⟨Decompile_replicate_plus, h2, ?_⟩
  rw [Decompile_replicate_plus, h2]
  decide

/-- C3, amended. The reducer equals the run-folding tokenizer on every buffer in
which each maximal run has a net count in the range of `int`, so on every buffer
of fewer than `2^31` characters: the output of `Decompile` is that of the
tokenizer on the C string in the buffer (the characters before the first
terminator): the characters that are not instructions deleted, the rest split
into maximal runs of `>`/`<`, maximal runs of `+`/`-` and single `.`, `,`, `[`,
`]`, mapped in order to `MovePointer net` and `ChangeValue net` (left out when the
net is zero), `Print`, `Read`, `LoopStart` and `LoopEnd`. -/
theorem Decompile_eq_referenceTokenizer (buf : List Char) :
    (RunsFit (cString buf) → Decompile buf = referenceTokenizer (cString buf))
      ∧ ((cString buf).length < 2147483648 →
          Decompile buf = referenceTokenizer (cString buf)) := by
  have main : RunsFit (cString buf) → Decompile buf = referenceTokenizer (cString buf) := by
    intro h
    rw [Decompile_eq_foldRuns]
    exact foldRunsInt_of_fits (cString buf) h
  exact ⟨main, fun h => main (RunsFit_of_length _ h)⟩

theorem Decompile_eq_referenceTokenizer_witness :
    (cString "+[>++<-]>.".toList).length < 2147483648
      ∧ RunsFit (cString "+[>++<-]>.".toList)
      ∧ Decompile "+[>++<-]>.".toList = referenceTokenizer (cString "+[>++<-]>.".toList)
      ∧ Decompile "+[>++<-]>.".toList
          = [SyntaxElem.ChangeValue 1, SyntaxElem.LoopStart, SyntaxElem.MovePointer 1,
             SyntaxElem.ChangeValue 2, SyntaxElem.MovePointer (-1), SyntaxElem.ChangeValue (-1),
             SyntaxElem.LoopEnd, SyntaxElem.MovePointer 1, SyntaxElem.PrintValue] :=
  ⟨by decide, RunsFit_of_length _ (by decide),
    (Decompile_eq_referenceTokenizer "+[>++<-]>.".toList).2 (by decide),
    ((Decompile_eq_referenceTokenizer "+[>++<-]>.".toList).1
      (RunsFit_of_length _ (by decide))).trans (by decide)⟩

/-! ## Runs of one kind -/

/-- C4, as stated, fails: the buffer of `2^31` characters `>` has the net
displacement `2^31`, and the reducer, which counts in an `int`, gives
`MovePointer (-2147483648)`. -/
theorem Decompile_moves_overflow :
    (∀ c ∈ List.replicate 2147483648 '>', c = '>' ∨ c = '<')
      ∧ netCount '>' '<' (List.replicate 2147483648 '>') = 2147483648
      ∧ Decompile (List.replicate 2147483648 '>') = [SyntaxElem.MovePointer (-2147483648)]
      ∧ Decompile (List.replicate 2147483648 '>')
          ≠ [SyntaxElem.MovePointer (netCount '>' '<' (List.replicate 2147483648 '>'))] := by
  refine ⟨fun c hc => Or.inl (List.eq_of_mem_replicate hc), ?_, Decompile_replicate_forward, ?_⟩
  · rw [netCount_replicate_forward]
    rfl
  · rw [Decompile_replicate_forward, netCount_replicate_forward]
    decide

/-- C4, amended. A buffer of the pointer-move characters `>` and `<` only, with a
net displacement `n` (the occurrences of `>` less those of `<`) in the range of
`int`, reduces to `[MovePointer n]` when `n ≠ 0` and to the empty program when
`n = 0`. -/
theorem Decompile_moves (s : List Char) (h : ∀ c ∈ s, c = '>' ∨ c = '<')
    (hn : fitsInt (netCount '>' '<' s)) :
    Decompile s = if netCount '>' '<' s = 0 then []
      else [SyntaxElem.MovePointer (netCount '>' '<' s)] := by
  rw [Decompile_moves_int s h, wrapInt_of_fits _ hn]

theorem Decompile_moves_witness :
    (∀ c ∈ ">>><".toList, c = '>' ∨ c = '<')
      ∧ fitsInt (netCount '>' '<' ">>><".toList)
      ∧ Decompile ">>><".toList = [SyntaxElem.MovePointer 2] :=
  ⟨by decide, by decide,
    (Decompile_moves ">>><".toList (by decide) (by decide)).trans (by decide)⟩

/-- C5, as stated, fails: the buffer of `2^31` characters `+` has the net change
`2^31`, and the reducer, which counts in an `int`, gives
`ChangeValue (-2147483648)`. -/
theorem Decompile_changes_overflow :
    (∀ c ∈ List.replicate 2147483648 '+', c = '+' ∨ c = '-')
      ∧ netCount '+' '-' (List.replicate 2147483648 '+') = 2147483648
      ∧ Decompile (List.replicate 2147483648 '+') = [SyntaxElem.ChangeValue (-2147483648)]
      ∧ Decompile (List.replicate 2147483648 '+')
          ≠ [SyntaxElem.ChangeValue (netCount '+' '-' (List.replicate 2147483648 '+'))] := by
  refine ⟨fun c hc => Or.inl (List.eq_of_mem_replicate hc), ?_, Decompile_replicate_plus, ?_⟩
  · rw [netCount_replicate_plus]
    rfl
  · rw [Decompile_replicate_plus, netCount_replicate_plus]
    decide

/-- C5, amended. A buffer of the value-change characters `+` and `-` only, with a
net change `n` (the occurrences of `+` less those of `-`) in the range of `int`,
reduces to `[ChangeValue n]` when `n ≠ 0` and to the empty program when `n = 0`. -/
theorem Decompile_changes (s : List Char) (h : ∀ c ∈ s, c = '+' ∨ c = '-')
    (hn : fitsInt (netCount '+' '-' s)) :
    Decompile s = if netCount '+' '-' s = 0 then []
      else [SyntaxElem.ChangeValue (netCount '+' '-' s)] := by
  rw [Decompile_changes_int s h, wrapInt_of_fits _ hn]

theorem Decompile_changes_witness :
    (∀ c ∈ "+++--".toList, c = '+' ∨ c = '-')
      ∧ fitsInt (netCount '+' '-' "+++--".toList)
      ∧ Decompile "+++--".toList = [SyntaxElem.ChangeValue 1] :=
  ⟨by decide, by decide,
    (Decompile_changes "+++--".toList (by decide) (by decide)).trans (by decide)⟩

/-! ## Characters that are not instructions -/

/-- C6. The characters that are not instructions are transparent to the reducer:
for a C string `s` (a buffer without a terminator inside), `Decompile s` is
`Decompile` of `s` with every character other than the eight instruction
characters removed, wherever those characters are. -/
theorem Decompile_filter (s : List Char) (h : ∀ c ∈ s, c ≠ NUL) :
    Decompile s = Decompile (s.filter isInstruction) := by
  rw [Decompile_eq_foldRuns, Decompile_eq_foldRuns, instructionChars_filter s h,
    instructionChars_of_instructions (s.filter isInstruction)
      (fun c hc => (List.mem_filter.mp hc).2)]

theorem Decompile_filter_witness :
    (∀ c ∈ "+ hello >".toList, c ≠ NUL)
      ∧ "+ hello >".toList.filter isInstruction = "+>".toList
      ∧ Decompile "+ hello >".toList = Decompile ("+ hello >".toList.filter isInstruction)
      ∧ Decompile "+>".toList = [SyntaxElem.ChangeValue 1, SyntaxElem.MovePointer 1] :=
  ⟨by decide, by decide, Decompile_filter "+ hello >".toList (by decide), by
    rw [Decompile, DecompileLoop_eq_fuel 2 _ _ (by decide)]
    decide⟩

/-! ## Folding rules on concrete programs -/

/-- C7. Zero-loop folding: reducing and then optimizing the input `[-]` gives the
one-element program `[AssignValue 0]`; no `LoopStart`, `ChangeValue` or `LoopEnd`
is left. -/
theorem zero_loop_folding :
    Optimize (Decompile "[-]".toList) = [SyntaxElem.AssignValue 0] := by
  rw [Decompile, DecompileLoop_eq_fuel 3 _ _ (by decide), Optimize_eq_fuel 4 _ (by decide)]
  decide

/-- The optimizer on an `AssignValue` followed by a `ChangeValue`: one `AssignValue`
with the sum as an `int` holds it. -/
theorem Optimize_assign_change (v d : Int) :
    Optimize [SyntaxElem.AssignValue v, SyntaxElem.ChangeValue d]
      = [SyntaxElem.AssignValue (wrapInt (v + d))] := by
  have r1 : OptimizeRound [SyntaxElem.AssignValue v, SyntaxElem.ChangeValue d]
      = ([SyntaxElem.AssignValue (wrapInt (v + d))], true) := by
    simp [OptimizeRound, ConnectPointerMoves, ConnectPointerMovesAt, ConnectValueMoves,
      ConnectValueMovesAt, ConnectAssigment, ConnectAssigmentAt, FindZeroes]
  have r2 : OptimizeRound [SyntaxElem.AssignValue (wrapInt (v + d))]
      = ([SyntaxElem.AssignValue (wrapInt (v + d))], false) := by
    simp [OptimizeRound, ConnectPointerMoves, ConnectPointerMovesAt, ConnectValueMoves,
      ConnectValueMovesAt, ConnectAssigment, ConnectAssigmentAt, FindZeroes]
  rw [Optimize_step _ (by rw [r1]), r1, Optimize_done _ (by rw [r2]), r2]

/-- C8, as stated, fails: with `v = 2147483647` and `d = 1` the sum is taken in an
`int`, and the optimizer gives `AssignValue (-2147483648)`, not
`AssignValue (v + d)`. -/
theorem assignment_folding_overflow :
    Optimize [SyntaxElem.AssignValue 2147483647, SyntaxElem.ChangeValue 1]
        = [SyntaxElem.AssignValue (-2147483648)]
      ∧ Optimize [SyntaxElem.AssignValue 2147483647, SyntaxElem.ChangeValue 1]
        ≠ [SyntaxElem.AssignValue (2147483647 + 1)] := by
  rw [Optimize_assign_change]
  decide

/-- C8, amended. Assignment folding: for all integers `v` and `d` whose sum is in
the range of `int`, `Optimize [AssignValue v, ChangeValue d] = [AssignValue (v + d)]`. -/
theorem assignment_folding (v d : Int) (h : fitsInt (v + d)) :
    Optimize [SyntaxElem.AssignValue v, SyntaxElem.ChangeValue d]
      = [SyntaxElem.AssignValue (v + d)] := by
  rw [Optimize_assign_change, wrapInt_of_fits _ h]

theorem assignment_folding_witness :
    fitsInt (5 + 3)
      ∧ Optimize [SyntaxElem.AssignValue 5, SyntaxElem.ChangeValue 3]
        = [SyntaxElem.AssignValue 8] :=
  ⟨by decide, (assignment_folding 5 3 (by decide)).trans (by decide)⟩

/-! ## The whole pipeline on concrete inputs -/

/-- C9. For the input `+[-]` the pipeline (`Decompile`, `Optimize`, `Print`) emits
two statement lines, the value increment `*p += 1;` and then the assignment
`*p = 0;`, each after a line feed and one tab; the text has no `while` and no
closing brace, and the `ChangeValue` before the `AssignValue` is not folded into
it. -/
theorem increment_then_zero_loop :
    Optimize (Decompile "+[-]".toList)
        = [SyntaxElem.ChangeValue 1, SyntaxElem.AssignValue 0]
      ∧ Print (Optimize (Decompile "+[-]".toList)) = some "\n\t*p += 1;\n\t*p = 0;"
      ∧ ¬ ("while".toList <:+: "\n\t*p += 1;\n\t*p = 0;".toList)
      ∧ '\x7d' ∉ "\n\t*p += 1;\n\t*p = 0;".toList := by
  have h : Optimize (Decompile "+[-]".toList)
      = [SyntaxElem.ChangeValue 1, SyntaxElem.AssignValue 0] := by
    rw [Decompile, DecompileLoop_eq_fuel 4 _ _ (by decide), Optimize_eq_fuel 5 _ (by decide)]
    decide
  refine ⟨h, ?_, by decide, by decide⟩
  rw [h]
  decide

/-- The program of the input `++++[>++++<-]>.` after reduction and optimization. -/
theorem scenario_program :
    Optimize (Decompile "++++[>++++<-]>.".toList)
      = [SyntaxElem.ChangeValue 4, SyntaxElem.LoopStart, SyntaxElem.MovePointer 1,
         SyntaxElem.ChangeValue 4, SyntaxElem.MovePointer (-1), SyntaxElem.ChangeValue (-1),
         SyntaxElem.LoopEnd, SyntaxElem.MovePointer 1, SyntaxElem.PrintValue] := by
  rw [Decompile, DecompileLoop_eq_fuel 15 _ _ (by decide), Optimize_eq_fuel 16 _ (by decide)]
  decide

/-- The text emitted for the input `++++[>++++<-]>.`. -/
theorem scenario_text :
    Print (Optimize (Decompile "++++[>++++<-]>.".toList))
      = some ("\n\t*p += 4;\n\twhile(*p) \x7b\n\t\tp += 1;\n\t\t*p += 4;\n\t\tp -= 1;"
          ++ "\n\t\t*p -= 1;\n\t\x7d\n\tp += 1;\n\tputchar(*p);") := by
  rw [scenario_program]
  decide

/-- C10, as stated, fails: the text emitted for `++++[>++++<-]>.` does not begin
with a pointer-increment statement `p += d;`. -/
theorem scenario_not_pointer_increment_first :
    ¬ ∃ (d : Int) (rest : String), 0 < d ∧
      Print (Optimize (Decompile "++++[>++++<-]>.".toList))
        = some ("\n\tp += " ++ toString d ++ ";" ++ rest) := by
  rintro ⟨d, rest, _, h⟩
  rw [scenario_text] at h
  have h2 := congrArg String.data (Option.some.inj h)
  simp only [String.data_append] at h2
  have h3 := congrArg (fun l => l.get? 2) h2
  simp at h3

/-- C10, amended. For the input `++++[>++++<-]>.` the reduced and optimized program
has the initial run as `ChangeValue 4` and keeps the loop (`LoopStart` and
`LoopEnd` stay, no `AssignValue` appears), and the emitted text is, in this
order: the value increment `*p += 4;`, a `while` loop whose body is the pointer
increment `p += 1;`, the value increment `*p += 4;`, the pointer decrement
`p -= 1;` and the value decrement `*p -= 1;`, then the pointer increment
`p += 1;` and the print statement `putchar(*p);`. -/
theorem scenario_end_to_end :
    Optimize (Decompile "++++[>++++<-]>.".toList)
        = [SyntaxElem.ChangeValue 4, SyntaxElem.LoopStart, SyntaxElem.MovePointer 1,
           SyntaxElem.ChangeValue 4, SyntaxElem.MovePointer (-1), SyntaxElem.ChangeValue (-1),
           SyntaxElem.LoopEnd, SyntaxElem.MovePointer 1, SyntaxElem.PrintValue]
      ∧ Print (Optimize (Decompile "++++[>++++<-]>.".toList))
        = some ("\n\t*p += 4;\n\twhile(*p) \x7b\n\t\tp += 1;\n\t\t*p += 4;\n\t\tp -= 1;"
            ++ "\n\t\t*p -= 1;\n\t\x7d\n\tp += 1;\n\tputchar(*p);") :=
  ⟨scenario_program, scenario_text⟩

/-! ## Termination of the reducer and of the optimizer -/

theorem DecompileWithin_of_length (fuel : Nat) : ∀ (p : List Char) (output : Program),
    p.length ≤ fuel → DecompileWithin fuel p output = some (DecompileLoop p output) := by
  induction fuel with
  | zero =>
    intro p output h
    have hp : p = [] := List.length_eq_zero.mp (Nat.le_zero.mp h)
    subst hp
    rw [DecompileLoop_done [] output rfl, DecompileWithin, if_pos (show cur [] = NUL from rfl)]
  | succ n ih =>
    intro p output h
    rw [DecompileWithin]
    by_cases hc : cur p = NUL
    · rw [if_pos hc, DecompileLoop_done _ _ hc]
    · rw [if_neg hc, DecompileLoop_step _ _ hc]
      apply ih
      have := DecompileBody_length_lt p output hc
      omega

theorem OptimizeWithin_of_length (fuel : Nat) : ∀ out : Program,
    out.length < fuel → OptimizeWithin fuel out = some (Optimize out) := by
  induction fuel with
  | zero => intro out h; exact absurd h (Nat.not_lt_zero _)
  | succ n ih =>
    intro out h
    rw [OptimizeWithin]
    by_cases hc : (OptimizeRound out).2 = true
    · rw [if_pos hc, Optimize_step _ hc]
      apply ih
      have := OptimizeRound_length_lt out hc
      omega
    · rw [if_neg hc, Optimize_done _ (by simpa using hc)]

/-- C19. Forward progress of the reducer: an iteration of the outer loop of
`Decompile` that starts before the end of the buffer (on a character other than
the terminator) leaves a strictly shorter rest of the buffer, and on every buffer
the loop ends within as many iterations as the buffer has characters, with the
result of `Decompile`. -/
theorem Decompile_forward_progress :
    (∀ (p : List Char) (output : Program), cur p ≠ NUL →
        (DecompileBody p output).1.length < p.length)
      ∧ ∀ buf : List Char, DecompileWithin buf.length buf [] = some (Decompile buf) :=
  ⟨DecompileBody_length_lt, fun buf => DecompileWithin_of_length _ buf [] (Nat.le_refl _)⟩

/-- A rule that shortens when it reports a change, and keeps the length when it
reports none, reports a change exactly when it shortens. -/
theorem rule_flag_iff (n : Nat) (r : Program × Bool)
    (h2 : r.2 = true → r.1.length < n) (h3 : r.2 = false → r.1.length = n) :
    (r.2 = true ↔ r.1.length < n) := by
  constructor
  · exact h2
  · intro h
    cases hr : r.2 with
    | true => rfl
    | false => have := h3 hr; omega

/-- C11. The termination measure of the optimizer: each of the four rules returns
a program with at most as many instructions as it was given, reports a change
exactly when the number of instructions went down, and leaves the program as it
was when it reports none; and on every program `P` the loop of `Optimize` ends
within `P.length + 1` rounds, with the result of `Optimize`. -/
theorem Optimize_termination_measure (P : Program) :
    ((ConnectPointerMoves P).1.length ≤ P.length
        ∧ ((ConnectPointerMoves P).2 = true ↔ (ConnectPointerMoves P).1.length < P.length)
        ∧ ((ConnectPointerMoves P).2 = false → (ConnectPointerMoves P).1 = P))
      ∧ ((ConnectValueMoves P).1.length ≤ P.length
        ∧ ((ConnectValueMoves P).2 = true ↔ (ConnectValueMoves P).1.length < P.length)
        ∧ ((ConnectValueMoves P).2 = false → (ConnectValueMoves P).1 = P))
      ∧ ((ConnectAssigment P).1.length ≤ P.length
        ∧ ((ConnectAssigment P).2 = true ↔ (ConnectAssigment P).1.length < P.length)
        ∧ ((ConnectAssigment P).2 = false → (ConnectAssigment P).1 = P))
      ∧ ((FindZeroes P).1.length ≤ P.length
        ∧ ((FindZeroes P).2 = true ↔ (FindZeroes P).1.length < P.length)
        ∧ ((FindZeroes P).2 = false → (FindZeroes P).1 = P))
      ∧ OptimizeWithin (P.length + 1) P = some (Optimize P) := by
  refine ⟨⟨ConnectPointerMoves_length_le P, ?_, ConnectPointerMoves_unchanged P⟩,
    ⟨ConnectValueMoves_length_le P, ?_, ConnectValueMoves_unchanged P⟩,
    ⟨ConnectAssigment_length_le P, ?_, ConnectAssigment_unchanged P⟩,
    ⟨FindZeroes_length_le P, ?_, FindZeroes_unchanged P⟩,
    OptimizeWithin_of_length _ P (Nat.lt_succ_self _)⟩
  · exact rule_flag_iff _ _ (ConnectPointerMoves_length_lt P)
      (fun h => by rw [ConnectPointerMoves_unchanged P h])
  · exact rule_flag_iff _ _ (ConnectValueMoves_length_lt P)
      (fun h => by rw [ConnectValueMoves_unchanged P h])
  · exact rule_flag_iff _ _ (ConnectAssigment_length_lt P)
      (fun h => by rw [ConnectAssigment_unchanged P h])
  · exact rule_flag_iff _ _ (FindZeroes_length_lt P)
      (fun h => by rw [FindZeroes_unchanged P h])

/-! ## The optimizer keeps the loop delimiters balanced -/

/-- Programs of the same depth from every depth stay so behind one more instruction. -/
theorem depthAfter_cons_congr (a : SyntaxElem) (X Y : Program)
    (h : ∀ d : Nat, depthAfter X d = depthAfter Y d) (d : Nat) :
    depthAfter (a :: X) d = depthAfter (a :: Y) d := by
  cases a with
  | LoopStart => exact h (d + 1)
  | LoopEnd =>
    cases d with
    | zero => rfl
    | succ d => exact h d
  | AssignValue v => exact h d
  | ChangeValue v => exact h d
  | MovePointer v => exact h d
  | PrintValue => exact h d
  | ReadValue => exact h d

theorem ConnectPointerMovesAt_depth (a : SyntaxElem) (rest : Program) : ∀ d : Nat,
    depthAfter (ConnectPointerMovesAt a rest).1 d = depthAfter (a :: rest) d := by
  induction a, rest using ConnectPointerMovesAt.induct with
  | case1 a => intro d; rfl
  | case2 x y h =>
    intro d
    rw [ConnectPointerMovesAt_zero_nil x y h]
    rfl
  | case3 x y h c rest2 ih =>
    intro d
    rw [ConnectPointerMovesAt_zero_cons x y h, ih d]
    rfl
  | case4 rest x y h ih =>
    intro d
    rw [ConnectPointerMovesAt_merge x y h, ih d]
    rfl
  | case5 a b rest h ih =>
    intro d
    rw [ConnectPointerMovesAt_skip a b rest h]
    exact depthAfter_cons_congr a _ _ ih d

theorem ConnectValueMovesAt_depth (a : SyntaxElem) (rest : Program) : ∀ d : Nat,
    depthAfter (ConnectValueMovesAt a rest).1 d = depthAfter (a :: rest) d := by
  induction a, rest using ConnectValueMovesAt.induct with
  | case1 a => intro d; rfl
  | case2 x y h =>
    intro d
    rw [ConnectValueMovesAt_zero_nil x y h]
    rfl
  | case3 x y h c rest2 ih =>
    intro d
    rw [ConnectValueMovesAt_zero_cons x y h, ih d]
    rfl
  | case4 rest x y h ih =>
    intro d
    rw [ConnectValueMovesAt_merge x y h, ih d]
    rfl
  | case5 a b rest h ih =>
    intro d
    rw [ConnectValueMovesAt_skip a b rest h]
    exact depthAfter_cons_congr a _ _ ih d

theorem ConnectAssigmentAt_depth (a : SyntaxElem) (rest : Program) : ∀ d : Nat,
    depthAfter (ConnectAssigmentAt a rest).1 d = depthAfter (a :: rest) d := by
  induction a, rest using ConnectAssigmentAt.induct with
  | case1 a => intro d; rfl
  | case2 rest x y ih =>
    intro d
    rw [ConnectAssigmentAt_fold x y, ih d]
    rfl
  | case3 a b rest h ih =>
    intro d
    rw [ConnectAssigmentAt_skip a b rest h]
    exact depthAfter_cons_congr a _ _ ih d

theorem ConnectPointerMoves_depth (P : Program) (d : Nat) :
    depthAfter (ConnectPointerMoves P).1 d = depthAfter P d := by
  cases P with
  | nil => rfl
  | cons a rest => exact ConnectPointerMovesAt_depth a rest d

theorem ConnectValueMoves_depth (P : Program) (d : Nat) :
    depthAfter (ConnectValueMoves P).1 d = depthAfter P d := by
  cases P with
  | nil => rfl
  | cons a rest => exact ConnectValueMovesAt_depth a rest d

theorem ConnectAssigment_depth (P : Program) (d : Nat) :
    depthAfter (ConnectAssigment P).1 d = depthAfter P d := by
  cases P with
  | nil => rfl
  | cons a rest => exact ConnectAssigmentAt_depth a rest d

/-- `FindZeroes` takes a `LoopStart` away only with the `LoopEnd` two places on,
so the depth after the program is the same. -/
theorem FindZeroes_depth (P : Program) : ∀ d : Nat,
    depthAfter (FindZeroes P).1 d = depthAfter P d := by
  induction P using FindZeroes.induct with
  | case1 => intro d; rfl
  | case2 rest ih =>
    intro d
    rw [FindZeroes_match]
    exact ih d
  | case3 v rest hv ih =>
    intro d
    rw [FindZeroes_skip _ _ (by simpa using fun h => absurd h hv)]
    exact depthAfter_cons_congr _ _ _ ih d
  | case4 a rest h ih =>
    intro d
    rw [FindZeroes_skip _ _ (by
      intro rest2 he
      injection he with h1 h2
      exact h _ _ h1 h2)]
    exact depthAfter_cons_congr _ _ _ ih d

theorem OptimizeRound_depth (P : Program) (d : Nat) :
    depthAfter (OptimizeRound P).1 d = depthAfter P d := by
  simp only [OptimizeRound]
  rw [FindZeroes_depth, ConnectAssigment_depth, ConnectValueMoves_depth,
    ConnectPointerMoves_depth]

theorem Optimize_depth (P : Program) : ∀ d : Nat,
    depthAfter (Optimize P) d = depthAfter P d := by
  induction P using Optimize.induct with
  | case1 out h ih =>
    intro d
    rw [Optimize_step out h, ih d, OptimizeRound_depth]
  | case2 out h =>
    intro d
    rw [Optimize_done out (by simpa using h), OptimizeRound_depth]

theorem ConnectPointerMovesAt_delimiters (a : SyntaxElem) (rest : Program) :
    delimiters (ConnectPointerMovesAt a rest).1 = delimiters (a :: rest) := by
  induction a, rest using ConnectPointerMovesAt.induct with
  | case1 a => rfl
  | case2 x y h =>
    rw [ConnectPointerMovesAt_zero_nil x y h]
    rfl
  | case3 x y h c rest2 ih =>
    rw [ConnectPointerMovesAt_zero_cons x y h, ih]
    rfl
  | case4 rest x y h ih =>
    rw [ConnectPointerMovesAt_merge x y h, ih]
    rfl
  | case5 a b rest h ih =>
    rw [ConnectPointerMovesAt_skip a b rest h]
    simp only [delimiters, List.filter_cons] at ih ⊢
    rw [ih]

theorem ConnectValueMovesAt_delimiters (a : SyntaxElem) (rest : Program) :
    delimiters (ConnectValueMovesAt a rest).1 = delimiters (a :: rest) := by
  induction a, rest using ConnectValueMovesAt.induct with
  | case1 a => rfl
  | case2 x y h =>
    rw [ConnectValueMovesAt_zero_nil x y h]
    rfl
  | case3 x y h c rest2 ih =>
    rw [ConnectValueMovesAt_zero_cons x y h, ih]
    rfl
  | case4 rest x y h ih =>
    rw [ConnectValueMovesAt_merge x y h, ih]
    rfl
  | case5 a b rest h ih =>
    rw [ConnectValueMovesAt_skip a b rest h]
    simp only [delimiters, List.filter_cons] at ih ⊢
    rw [ih]

theorem ConnectAssigmentAt_delimiters (a : SyntaxElem) (rest : Program) :
    delimiters (ConnectAssigmentAt a rest).1 = delimiters (a :: rest) := by
  induction a, rest using ConnectAssigmentAt.induct with
  | case1 a => rfl
  | case2 rest x y ih =>
    rw [ConnectAssigmentAt_fold x y, ih]
    rfl
  | case3 a b rest h ih =>
    rw [ConnectAssigmentAt_skip a b rest h]
    simp only [delimiters, List.filter_cons] at ih ⊢
    rw [ih]

theorem BalancedLoops_congr (P Q : Program) (h : ∀ d : Nat, depthAfter P d = depthAfter Q d) :
    BalancedLoops P ↔ BalancedLoops Q := by
  unfold BalancedLoops
  rw [h 0]

/-- C20. The optimizer preserves the balance of the loop delimiters: the depth after
`Optimize P` is the depth after `P`, from every depth, so `Optimize P` is balanced
if and only if `P` is, and so is the result of each rule.  The three merging
rules leave the delimiters as they are, and `FindZeroes` only takes away a
`LoopStart` together with the `LoopEnd` two places after it; hence the optimized
program of a buffer is balanced whenever the reduced one is. -/
theorem Optimize_balanced_iff (P : Program) :
    (∀ d : Nat, depthAfter (Optimize P) d = depthAfter P d)
      ∧ (BalancedLoops (Optimize P) ↔ BalancedLoops P)
      ∧ (BalancedLoops (ConnectPointerMoves P).1 ↔ BalancedLoops P)
      ∧ (BalancedLoops (ConnectValueMoves P).1 ↔ BalancedLoops P)
      ∧ (BalancedLoops (ConnectAssigment P).1 ↔ BalancedLoops P)
      ∧ (BalancedLoops (FindZeroes P).1 ↔ BalancedLoops P)
      ∧ delimiters (ConnectPointerMoves P).1 = delimiters P
      ∧ delimiters (ConnectValueMoves P).1 = delimiters P
      ∧ delimiters (ConnectAssigment P).1 = delimiters P
      ∧ (∀ buf : List Char, BalancedLoops (Decompile buf) →
          BalancedLoops (Optimize (Decompile buf))) := by
  refine ⟨Optimize_depth P, BalancedLoops_congr _ _ (Optimize_depth P),
    BalancedLoops_congr _ _ (ConnectPointerMoves_depth P),
    BalancedLoops_congr _ _ (ConnectValueMoves_depth P),
    BalancedLoops_congr _ _ (ConnectAssigment_depth P),
    BalancedLoops_congr _ _ (FindZeroes_depth P), ?_, ?_, ?_, ?_⟩
  · cases P with
    | nil => rfl
    | cons a rest => exact ConnectPointerMovesAt_delimiters a rest
  · cases P with
    | nil => rfl
    | cons a rest => exact ConnectValueMovesAt_delimiters a rest
  · cases P with
    | nil => rfl
    | cons a rest => exact ConnectAssigmentAt_delimiters a rest
  · intro buf h
    exact (BalancedLoops_congr _ _ (Optimize_depth (Decompile buf))).mpr h

/-! ## Normal form of the optimized program -/

/-- A round that reports no change is a round in which no rule reports one, each
rule on the program the round started from. -/
theorem OptimizeRound_flags (out : Program) (h : (OptimizeRound out).2 = false) :
    (ConnectPointerMoves out).2 = false ∧ (ConnectValueMoves out).2 = false
      ∧ (ConnectAssigment out).2 = false ∧ (FindZeroes out).2 = false := by
  simp only [OptimizeRound, Bool.or_eq_false_iff] at h
  obtain ⟨⟨⟨h1, h2⟩, h3⟩, h4⟩ := h
  have e1 := ConnectPointerMoves_unchanged out h1
  rw [e1] at h2 h3 h4
  have e2 := ConnectValueMoves_unchanged out h2
  rw [e2] at h3 h4
  have e3 := ConnectAssigment_unchanged out h3
  rw [e3] at h4
  exact ⟨h1, h2, h3, h4⟩

theorem ConnectPointerMovesAt_no_pair (a : SyntaxElem) (rest : Program) :
    (ConnectPointerMovesAt a rest).2 = false →
      ∀ x y : Int, ¬ [SyntaxElem.MovePointer x, SyntaxElem.MovePointer y] <:+: a :: rest := by
  induction a, rest using ConnectPointerMovesAt.induct with
  | case1 a =>
    intro _ x y h
    have := h.length_le
    simp at this
  | case2 x y h => simp [ConnectPointerMovesAt_zero_nil, h]
  | case3 x y h c rest2 _ => simp [ConnectPointerMovesAt_zero_cons, h]
  | case4 rest x y h _ => simp [ConnectPointerMovesAt_merge, h]
  | case5 a b rest h ih =>
    rw [ConnectPointerMovesAt_skip a b rest h]
    intro h2 x y hin
    rcases List.infix_cons_iff.mp hin with hp | hi
    · obtain ⟨t, ht⟩ := hp
      simp only [List.cons_append, List.cons.injEq] at ht
      exact h x y ht.1.symm ht.2.1.symm
    · exact ih h2 x y hi

theorem ConnectValueMovesAt_no_pair (a : SyntaxElem) (rest : Program) :
    (ConnectValueMovesAt a rest).2 = false →
      ∀ x y : Int, ¬ [SyntaxElem.ChangeValue x, SyntaxElem.ChangeValue y] <:+: a :: rest := by
  induction a, rest using ConnectValueMovesAt.induct with
  | case1 a =>
    intro _ x y h
    have := h.length_le
    simp at this
  | case2 x y h => simp [ConnectValueMovesAt_zero_nil, h]
  | case3 x y h c rest2 _ => simp [ConnectValueMovesAt_zero_cons, h]
  | case4 rest x y h _ => simp [ConnectValueMovesAt_merge, h]
  | case5 a b rest h ih =>
    rw [ConnectValueMovesAt_skip a b rest h]
    intro h2 x y hin
    rcases List.infix_cons_iff.mp hin with hp | hi
    · obtain ⟨t, ht⟩ := hp
      simp only [List.cons_append, List.cons.injEq] at ht
      exact h x y ht.1.symm ht.2.1.symm
    · exact ih h2 x y hi

theorem ConnectAssigmentAt_no_pair (a : SyntaxElem) (rest : Program) :
    (ConnectAssigmentAt a rest).2 = false →
      ∀ x y : Int, ¬ [SyntaxElem.AssignValue x, SyntaxElem.ChangeValue y] <:+: a :: rest := by
  induction a, rest using ConnectAssigmentAt.induct with
  | case1 a =>
    intro _ x y h
    have := h.length_le
    simp at this
  | case2 rest x y _ => simp [ConnectAssigmentAt_fold]
  | case3 a b rest h ih =>
    rw [ConnectAssigmentAt_skip a b rest h]
    intro h2 x y hin
    rcases List.infix_cons_iff.mp hin with hp | hi
    · obtain ⟨t, ht⟩ := hp
      simp only [List.cons_append, List.cons.injEq] at ht
      exact h x y ht.1.symm ht.2.1.symm
    · exact ih h2 x y hi

theorem FindZeroes_no_triple (out : Program) :
    (FindZeroes out).2 = false →
      ¬ [SyntaxElem.LoopStart, SyntaxElem.ChangeValue (-1), SyntaxElem.LoopEnd] <:+: out := by
  induction out using FindZeroes.induct with
  | case1 =>
    intro _ h
    have := h.length_le
    simp at this
  | case2 rest _ => simp [FindZeroes_match]
  | case3 v rest hv ih =>
    rw [FindZeroes_skip _ _ (by simpa using fun h => absurd h hv)]
    intro h2 hin
    rcases List.infix_cons_iff.mp hin with hp | hi
    · obtain ⟨t, ht⟩ := hp
      simp only [List.cons_append, List.cons.injEq, SyntaxElem.ChangeValue.injEq] at ht
      exact hv ht.2.1.symm
    · exact ih h2 hi
  | case4 a rest h ih =>
    rw [FindZeroes_skip _ _ (by
      intro rest2 he
      injection he with h1 h2
      exact h _ _ h1 h2)]
    intro h2 hin
    rcases List.infix_cons_iff.mp hin with hp | hi
    · obtain ⟨t, ht⟩ := hp
      simp only [List.cons_append, List.cons.injEq, List.nil_append] at ht
      exact h (-1) t ht.1.symm (by rw [← ht.2])
    · exact ih h2 hi

/-- C15. The output of the optimizer is in normal form for the four rules: for
every program `P`, `Optimize P` has no two adjacent `MovePointer`, no two adjacent
`ChangeValue`, no `AssignValue` with a `ChangeValue` right after it, and no three
consecutive instructions `LoopStart`, `ChangeValue (-1)`, `LoopEnd`. -/
theorem Optimize_normal_form (P : Program) :
    (∀ x y : Int, ¬ [SyntaxElem.MovePointer x, SyntaxElem.MovePointer y] <:+: Optimize P)
      ∧ (∀ x y : Int, ¬ [SyntaxElem.ChangeValue x, SyntaxElem.ChangeValue y] <:+: Optimize P)
      ∧ (∀ v d : Int, ¬ [SyntaxElem.AssignValue v, SyntaxElem.ChangeValue d] <:+: Optimize P)
      ∧ ¬ [SyntaxElem.LoopStart, SyntaxElem.ChangeValue (-1), SyntaxElem.LoopEnd]
          <:+: Optimize P := by
  obtain ⟨h1, h2, h3, h4⟩ := OptimizeRound_flags _ (OptimizeRound_Optimize P)
  refine ⟨?_, ?_, ?_, FindZeroes_no_triple _ h4⟩
  all_goals
    cases hQ : Optimize P with
    | nil =>
      intro x y h
      have := h.length_le
      simp at this
    | cons a rest =>
      rw [hQ] at h1 h2 h3
      first
        | exact ConnectPointerMovesAt_no_pair a rest h1
        | exact ConnectValueMovesAt_no_pair a rest h2
        | exact ConnectAssigmentAt_no_pair a rest h3

/-! ## No instruction with a zero delta -/

theorem NoZeroDelta_cons (a : SyntaxElem) (P : Program) :
    NoZeroDelta (a :: P)
      ↔ (a ≠ SyntaxElem.MovePointer 0 ∧ a ≠ SyntaxElem.ChangeValue 0) ∧ NoZeroDelta P := by
  simp only [NoZeroDelta, List.mem_cons, not_or]
  constructor
  · rintro ⟨⟨h1, h2⟩, h3, h4⟩
    exact ⟨⟨fun h => h1 h.symm, fun h => h3 h.symm⟩, h2, h4⟩
  · rintro ⟨⟨h1, h2⟩, h3, h4⟩
    exact ⟨⟨fun h => h1 h.symm, h3⟩, fun h => h2 h.symm, h4⟩

theorem NoZeroDelta_nil : NoZeroDelta [] := by
  simp [NoZeroDelta]

theorem ConnectPointerMovesAt_noZero (a : SyntaxElem) (rest : Program) :
    NoZeroDelta (a :: rest) → NoZeroDelta (ConnectPointerMovesAt a rest).1 := by
  induction a, rest using ConnectPointerMovesAt.induct with
  | case1 a => exact id
  | case2 x y h =>
    intro _
    rw [ConnectPointerMovesAt_zero_nil x y h]
    exact NoZeroDelta_nil
  | case3 x y h c rest2 ih =>
    intro hP
    rw [ConnectPointerMovesAt_zero_cons x y h]
    exact ih ((NoZeroDelta_cons _ _).mp ((NoZeroDelta_cons _ _).mp hP).2).2
  | case4 rest x y h ih =>
    intro hP
    rw [ConnectPointerMovesAt_merge x y h]
    apply ih
    rw [NoZeroDelta_cons]
    refine ⟨⟨?_, by simp⟩, ((NoZeroDelta_cons _ _).mp ((NoZeroDelta_cons _ _).mp hP).2).2⟩
    simpa using h
  | case5 a b rest h ih =>
    intro hP
    rw [ConnectPointerMovesAt_skip a b rest h]
    rw [NoZeroDelta_cons] at hP ⊢
    exact ⟨hP.1, ih hP.2⟩

theorem ConnectValueMovesAt_noZero (a : SyntaxElem) (rest : Program) :
    NoZeroDelta (a :: rest) → NoZeroDelta (ConnectValueMovesAt a rest).1 := by
  induction a, rest using ConnectValueMovesAt.induct with
  | case1 a => exact id
  | case2 x y h =>
    intro _
    rw [ConnectValueMovesAt_zero_nil x y h]
    exact NoZeroDelta_nil
  | case3 x y h c rest2 ih =>
    intro hP
    rw [ConnectValueMovesAt_zero_cons x y h]
    exact ih ((NoZeroDelta_cons _ _).mp ((NoZeroDelta_cons _ _).mp hP).2).2
  | case4 rest x y h ih =>
    intro hP
    rw [ConnectValueMovesAt_merge x y h]
    apply ih
    rw [NoZeroDelta_cons]
    refine ⟨⟨by simp, ?_⟩, ((NoZeroDelta_cons _ _).mp ((NoZeroDelta_cons _ _).mp hP).2).2⟩
    simpa using h
  | case5 a b rest h ih =>
    intro hP
    rw [ConnectValueMovesAt_skip a b rest h]
    rw [NoZeroDelta_cons] at hP ⊢
    exact ⟨hP.1, ih hP.2⟩

theorem ConnectAssigmentAt_noZero (a : SyntaxElem) (rest : Program) :
    NoZeroDelta (a :: rest) → NoZeroDelta (ConnectAssigmentAt a rest).1 := by
  induction a, rest using ConnectAssigmentAt.induct with
  | case1 a => exact id
  | case2 rest x y ih =>
    intro hP
    rw [ConnectAssigmentAt_fold x y]
    apply ih
    rw [NoZeroDelta_cons]
    exact ⟨⟨by simp, by simp⟩, ((NoZeroDelta_cons _ _).mp ((NoZeroDelta_cons _ _).mp hP).2).2⟩
  | case3 a b rest h ih =>
    intro hP
    rw [ConnectAssigmentAt_skip a b rest h]
    rw [NoZeroDelta_cons] at hP ⊢
    exact ⟨hP.1, ih hP.2⟩

theorem FindZeroes_noZero (out : Program) :
    NoZeroDelta out → NoZeroDelta (FindZeroes out).1 := by
  induction out using FindZeroes.induct with
  | case1 => exact id
  | case2 rest ih =>
    intro hP
    rw [FindZeroes_match, NoZeroDelta_cons]
    refine ⟨⟨by simp, by simp⟩, ih ?_⟩
    exact ((NoZeroDelta_cons _ _).mp ((NoZeroDelta_cons _ _).mp
      ((NoZeroDelta_cons _ _).mp hP).2).2).2
  | case3 v rest hv ih =>
    intro hP
    rw [FindZeroes_skip _ _ (by simpa using fun h => absurd h hv)]
    rw [NoZeroDelta_cons] at hP ⊢
    exact ⟨hP.1, ih hP.2⟩
  | case4 a rest h ih =>
    intro hP
    rw [FindZeroes_skip _ _ (by
      intro rest2 he
      injection he with h1 h2
      exact h _ _ h1 h2)]
    rw [NoZeroDelta_cons] at hP ⊢
    exact ⟨hP.1, ih hP.2⟩

theorem ConnectPointerMoves_noZero (P : Program) (h : NoZeroDelta P) :
    NoZeroDelta (ConnectPointerMoves P).1 := by
  cases P with
  | nil => exact h
  | cons a rest => exact ConnectPointerMovesAt_noZero a rest h

theorem ConnectValueMoves_noZero (P : Program) (h : NoZeroDelta P) :
    NoZeroDelta (ConnectValueMoves P).1 := by
  cases P with
  | nil => exact h
  | cons a rest => exact ConnectValueMovesAt_noZero a rest h

theorem ConnectAssigment_noZero (P : Program) (h : NoZeroDelta P) :
    NoZeroDelta (ConnectAssigment P).1 := by
  cases P with
  | nil => exact h
  | cons a rest => exact ConnectAssigmentAt_noZero a rest h

theorem OptimizeRound_noZero (P : Program) (h : NoZeroDelta P) :
    NoZeroDelta (OptimizeRound P).1 := by
  simp only [OptimizeRound]
  exact FindZeroes_noZero _ (ConnectAssigment_noZero _ (ConnectValueMoves_noZero _
    (ConnectPointerMoves_noZero _ h)))

theorem Optimize_noZero (P : Program) : NoZeroDelta P → NoZeroDelta (Optimize P) := by
  induction P using Optimize.induct with
  | case1 out h ih =>
    intro hP
    rw [Optimize_step out h]
    exact ih (OptimizeRound_noZero out hP)
  | case2 out h =>
    intro hP
    rw [Optimize_done out (by simpa using h)]
    exact OptimizeRound_noZero out hP

theorem tokenOfRun_noZero (run : List Char) : NoZeroDelta (tokenOfRunInt run) := by
  unfold tokenOfRunInt
  split
  · exact NoZeroDelta_nil
  · split_ifs <;> simp [NoZeroDelta] <;> (intro h; exact absurd h.symm (by assumption))

theorem Decompile_noZero (buf : List Char) : NoZeroDelta (Decompile buf) := by
  rw [Decompile_eq_foldRuns]
  unfold foldRunsInt
  constructor <;>
  · intro h
    obtain ⟨run, _, hr⟩ := List.mem_flatMap.mp h
    first
      | exact (tokenOfRun_noZero run).1 hr
      | exact (tokenOfRun_noZero run).2 hr

/-- C12. No instruction with a zero delta survives: for every buffer the output of
the reducer has no `MovePointer 0` and no `ChangeValue 0`; each rule of the
optimizer takes a program without them to a program without them; so for every
buffer `Optimize (Decompile buf)` has no `MovePointer 0` and no `ChangeValue 0`. -/
theorem no_zero_delta_survives :
    (∀ buf : List Char, NoZeroDelta (Decompile buf))
      ∧ (∀ P : Program, NoZeroDelta P →
          NoZeroDelta (ConnectPointerMoves P).1 ∧ NoZeroDelta (ConnectValueMoves P).1
            ∧ NoZeroDelta (ConnectAssigment P).1 ∧ NoZeroDelta (FindZeroes P).1)
      ∧ ∀ buf : List Char, NoZeroDelta (Optimize (Decompile buf)) :=
  ⟨Decompile_noZero, fun P h => ⟨ConnectPointerMoves_noZero P h, ConnectValueMoves_noZero P h,
    ConnectAssigment_noZero P h, FindZeroes_noZero P h⟩,
   fun buf => Optimize_noZero _ (Decompile_noZero buf)⟩

/-! ## The zero-loop idiom -/

theorem nesting_zeroLoop :
    nesting [SyntaxElem.LoopStart, SyntaxElem.ChangeValue (-1), SyntaxElem.LoopEnd]
      = some [Stmt.loop [Stmt.op (SyntaxElem.ChangeValue (-1))]] := rfl

theorem nesting_assignZero :
    nesting [SyntaxElem.AssignValue 0] = some [Stmt.op (SyntaxElem.AssignValue 0)] := rfl

theorem Executes_zeroLoop_iff (m m' : Machine) :
    Executes [SyntaxElem.LoopStart, SyntaxElem.ChangeValue (-1), SyntaxElem.LoopEnd] m m'
      ↔ m' = m.store 0 := by
  unfold Executes
  rw [nesting_zeroLoop]
  constructor
  · rintro ⟨T, hT, hr⟩
    cases hT
    exact Run_zeroLoop_only _ m m' ((Run_iff_exec _ _ _).mpr hr) rfl
  · rintro rfl
    exact ⟨_, rfl, (Run_iff_exec _ _ _).mp (Run_zeroLoop_of _ m rfl)⟩

theorem Executes_assignZero_iff (m m' : Machine) :
    Executes [SyntaxElem.AssignValue 0] m m' ↔ m' = m.store 0 := by
  unfold Executes
  rw [nesting_assignZero]
  constructor
  · rintro ⟨T, hT, hr⟩
    cases hT
    have h := (Run_iff_exec _ _ _).mpr hr
    rw [Run_op_iff, Run_nil_iff] at h
    rw [h]
    simp [stepOp]
  · rintro rfl
    refine ⟨_, rfl, (Run_iff_exec _ _ _).mp ?_⟩
    rw [Run_op_iff, Run_nil_iff]
    simp [stepOp]

/-- C17. The zero-loop idiom is sound for byte cells: from every state of the
machine (so for every value of the current cell, a byte), executing `LoopStart`,
`ChangeValue (-1)`, `LoopEnd` terminates, and only in the state `m.store 0`: the
current cell is 0 and the pointer, the other cells, the input and the output are
as before.  That is the effect of `AssignValue 0`. -/
theorem zero_loop_sound (m : Machine) :
    Executes [SyntaxElem.LoopStart, SyntaxElem.ChangeValue (-1), SyntaxElem.LoopEnd] m
        (m.store 0)
      ∧ (∀ m' : Machine,
          Executes [SyntaxElem.LoopStart, SyntaxElem.ChangeValue (-1), SyntaxElem.LoopEnd] m m'
            → m' = m.store 0)
      ∧ (m.store 0).cell = 0
      ∧ (m.store 0).ptr = m.ptr
      ∧ (∀ i : Int, i ≠ m.ptr → (m.store 0).tape i = m.tape i)
      ∧ (m.store 0).input = m.input
      ∧ (m.store 0).output = m.output
      ∧ (∀ m' : Machine,
          Executes [SyntaxElem.LoopStart, SyntaxElem.ChangeValue (-1), SyntaxElem.LoopEnd] m m'
            ↔ Executes [SyntaxElem.AssignValue 0] m m') := by
  refine ⟨(Executes_zeroLoop_iff m _).mpr rfl, fun m' h => (Executes_zeroLoop_iff m m').mp h,
    Machine_store_cell m 0, rfl, ?_, rfl, rfl, ?_⟩
  · intro i hi
    simp [Machine.store, Function.update_noteq hi]
  · intro m'
    rw [Executes_zeroLoop_iff, Executes_assignZero_iff]

/-! ## A zero byte in the buffer -/

/-- The instruction characters of a buffer end at its first terminator. -/
theorem instructionChars_append_NUL (a b : List Char) :
    instructionChars (a ++ NUL :: b) = instructionChars a := by
  induction a with
  | nil => rw [List.nil_append, instructionChars_NUL, instructionChars_nil]
  | cons c a ih =>
    by_cases hc : c = NUL
    · subst hc
      rw [List.cons_append, instructionChars_NUL, instructionChars_NUL]
    · rw [List.cons_append, instructionChars_cons c _ hc, instructionChars_cons c _ hc, ih]

/-- A character that is neither the terminator nor an instruction does not count. -/
theorem instructionChars_append_other (a b : List Char) (c : Char) (hc : c ≠ NUL)
    (hi : isInstruction c = false) :
    instructionChars (a ++ c :: b) = instructionChars (a ++ b) := by
  induction a with
  | nil => simp [instructionChars_cons c b hc, hi]
  | cons x a ih =>
    by_cases hx : x = NUL
    · subst hx
      rw [List.cons_append, List.cons_append, instructionChars_NUL, instructionChars_NUL]
    · rw [List.cons_append, List.cons_append, instructionChars_cons x _ hx,
        instructionChars_cons x _ hx, ih]

/-- C14, as stated, fails: with `a = "+"` and `b = "+"`, reducing `a ++ [0] ++ b`
gives `[ChangeValue 1]` and reducing `a ++ b` gives `[ChangeValue 2]`. -/
theorem zero_byte_not_skipped :
    Decompile (['+'] ++ [NUL] ++ ['+']) ≠ Decompile (['+'] ++ ['+']) := by
  rw [Decompile, Decompile, DecompileLoop_eq_fuel 3 _ _ (by decide),
    DecompileLoop_eq_fuel 2 _ _ (by decide)]
  decide

/-- C14, amended. A zero byte ends the buffer of the reducer: for all byte
sequences `a` and `b`, reducing `a ++ [0] ++ b` gives the program of `a` alone,
so the instruction characters after a zero byte give no instructions; any other
byte that is not an instruction character is skipped, wherever it is. -/
theorem zero_byte_ends_buffer (a b : List Char) :
    Decompile (a ++ [NUL] ++ b) = Decompile a
      ∧ ∀ c : Char, c ≠ NUL → isInstruction c = false →
          Decompile (a ++ [c] ++ b) = Decompile (a ++ b) := by
  constructor
  · rw [Decompile_eq_foldRuns, Decompile_eq_foldRuns, List.append_assoc, List.singleton_append,
      instructionChars_append_NUL]
  · intro c hc hi
    rw [Decompile_eq_foldRuns, Decompile_eq_foldRuns, List.append_assoc, List.singleton_append,
      instructionChars_append_other a b c hc hi]

/-! ## Rendering of moves and changes -/

theorem pushn_data (s : String) (c : Char) (n : Nat) :
    (s.pushn c n).data = s.data ++ List.replicate n c := by
  induction n with
  | zero => simp [String.pushn, Nat.repeat]
  | succ n ih =>
    have h : s.pushn c (n + 1) = (s.pushn c n).push c := rfl
    rw [h, String.data_push, ih, List.replicate_succ', List.append_assoc]

/-- `PrintBegin` at a depth that is not negative appends a line feed and as many
tabs as the depth. -/
theorem PrintBegin_nat (result : String) (n : Nat) :
    PrintBegin result (n : Int) = some (result ++ "\n" ++ tabs n) := by
  rw [PrintBegin, if_pos (Int.natCast_nonneg n)]
  congr 1
  apply String.ext
  simp [pushn_data, tabs]

theorem toString_of_pos (d : Int) (h : 0 < d) : toString d = toString d.toNat := by
  cases d with
  | ofNat m => rfl
  | negSucc m => exact absurd h (by simp)

/-- C18, as stated, fails: with `d = 2147483648` the delta `-d` is the least `int`,
its negation as an `int` is `-d` again, and the emitter writes the number
`-2147483648` after `-=`, not the positive magnitude `d`. -/
theorem Print_least_int :
    (0 : Int) < 2147483648
      ∧ (SyntaxElem.ChangeValue (-2147483648)).Print "" 1
          = some ("\n\t*p -= -2147483648;", 1)
      ∧ (SyntaxElem.MovePointer (-2147483648)).Print "" 1
          = some ("\n\tp -= -2147483648;", 1)
      ∧ (SyntaxElem.ChangeValue (-2147483648)).Print "" 1
          ≠ some ("" ++ "\n" ++ tabs 1
              ++ ("*p -= " ++ toString (2147483648 : Int).toNat ++ ";"), 1)
      ∧ (SyntaxElem.MovePointer (-2147483648)).Print "" 1
          ≠ some ("" ++ "\n" ++ tabs 1
              ++ ("p -= " ++ toString (2147483648 : Int).toNat ++ ";"), 1) := by
  decide

/-- C18, amended. Rendering of moves and changes: for every `d` with
`0 < d ≤ 2147483647`, at a depth `n`, the emitter appends to the text a line
feed, `n` tabs and `p += d;` for `MovePointer d`, `p -= d;` for
`MovePointer (-d)`, `*p += d;` for `ChangeValue d` and `*p -= d;` for
`ChangeValue (-d)`, where the number printed is the positive magnitude `d`;
`MovePointer 0` and `ChangeValue 0` append nothing; and the depth counter is as
before in each case. -/
theorem Print_moves_and_changes (d : Int) (h : 0 < d) (hd : d ≤ 2147483647) (result : String)
    (n : Nat) :
    (SyntaxElem.MovePointer d).Print result n
        = some (result ++ "\n" ++ tabs n ++ ("p += " ++ toString d.toNat ++ ";"), (n : Int))
      ∧ (SyntaxElem.MovePointer (-d)).Print result n
        = some (result ++ "\n" ++ tabs n ++ ("p -= " ++ toString d.toNat ++ ";"), (n : Int))
      ∧ (SyntaxElem.ChangeValue d).Print result n
        = some (result ++ "\n" ++ tabs n ++ ("*p += " ++ toString d.toNat ++ ";"), (n : Int))
      ∧ (SyntaxElem.ChangeValue (-d)).Print result n
        = some (result ++ "\n" ++ tabs n ++ ("*p -= " ++ toString d.toNat ++ ";"), (n : Int))
      ∧ (∀ deep : Int, (SyntaxElem.MovePointer 0).Print result deep = some (result, deep))
      ∧ (∀ deep : Int, (SyntaxElem.ChangeValue 0).Print result deep = some (result, deep)) := by
  have h0 : d ≠ 0 := ne_of_gt h
  have h1 : -d ≠ 0 := by omega
  have h2 : ¬ (-d > 0) := by omega
  have h3 : toString (wrapInt (- -d)) = toString d.toNat := by
    rw [neg_neg, wrapInt_of_fits d ⟨by omega, hd⟩, toString_of_pos d h]
  refine ⟨?_, ?_, ?_, ?_, fun deep => rfl, fun deep => rfl⟩
  · simp only [SyntaxElem.Print, if_neg h0, PrintBegin_nat, Option.map_some', gt_iff_lt, if_pos h,
      toString_of_pos d h]
  · simp only [SyntaxElem.Print, if_neg h1, PrintBegin_nat, Option.map_some', if_neg h2, h3]
  · simp only [SyntaxElem.Print, if_neg h0, PrintBegin_nat, Option.map_some', gt_iff_lt, if_pos h,
      toString_of_pos d h]
  · simp only [SyntaxElem.Print, if_neg h1, PrintBegin_nat, Option.map_some', if_neg h2, h3]

theorem Print_moves_and_changes_witness :
    (0 : Int) < 3
      ∧ (3 : Int) ≤ 2147483647
      ∧ (SyntaxElem.MovePointer 3).Print "x" 2 = some ("x\n\t\tp += 3;", 2)
      ∧ (SyntaxElem.MovePointer (-3)).Print "x" 2 = some ("x\n\t\tp -= 3;", 2)
      ∧ (SyntaxElem.ChangeValue 3).Print "x" 2 = some ("x\n\t\t*p += 3;", 2)
      ∧ (SyntaxElem.ChangeValue (-3)).Print "x" 2 = some ("x\n\t\t*p -= 3;", 2) := by
  have h := Print_moves_and_changes 3 (by decide) (by decide) "x" 2
  exact ⟨by decide, by decide, h.1.trans (by decide), h.2.1.trans (by decide),
    h.2.2.1.trans (by decide), h.2.2.2.1.trans (by decide)⟩

/-! ## One pass of the merge of pointer moves -/

/-- The iterator on an instruction that is not a `MovePointer` steps over it. -/
theorem ConnectPointerMovesAt_other (a : SyntaxElem) (rest : Program)
    (h : ∀ x : Int, a ≠ SyntaxElem.MovePointer x) :
    (ConnectPointerMovesAt a rest).1 = a :: (ConnectPointerMoves rest).1 := by
  cases rest with
  | nil => rfl
  | cons b rest =>
    rw [ConnectPointerMovesAt_skip a b rest (fun x _ ha _ => h x ha)]
    rfl

/-- After the loop no two adjacent `MovePointer` are left. -/
theorem ConnectPointerMovesAt_no_pair_after (a : SyntaxElem) (rest : Program) :
    ∀ x y : Int, ¬ [SyntaxElem.MovePointer x, SyntaxElem.MovePointer y]
      <:+: (ConnectPointerMovesAt a rest).1 := by
  induction a, rest using ConnectPointerMovesAt.induct with
  | case1 a =>
    intro x y h
    have := h.length_le
    simp [ConnectPointerMovesAt] at this
  | case2 x y h =>
    intro x' y' hin
    rw [ConnectPointerMovesAt_zero_nil x y h] at hin
    have := hin.length_le
    simp at this
  | case3 x y h c rest2 ih =>
    rw [ConnectPointerMovesAt_zero_cons x y h]
    exact ih
  | case4 rest x y h ih =>
    rw [ConnectPointerMovesAt_merge x y h]
    exact ih
  | case5 a b rest h ih =>
    rw [ConnectPointerMovesAt_skip a b rest h]
    intro x y hin
    rcases List.infix_cons_iff.mp hin with hp | hi
    · obtain ⟨t, ht⟩ := hp
      simp only [List.cons_append, List.cons.injEq, List.nil_append] at ht
      have hb : ∀ z : Int, b ≠ SyntaxElem.MovePointer z := fun z hz => h x z ht.1.symm hz
      rw [ConnectPointerMovesAt_other b rest hb] at ht
      simp only [List.cons.injEq] at ht
      exact hb y ht.2.1.symm
    · exact ih x y hi

/-- On a run of `MovePointer` whose sums from the left are all in the range of
`int` the loop computes the running sum. -/
theorem ConnectPointerMovesAt_run (n : Nat) : ∀ (x : Int) (ds : List Int), ds.length ≤ n →
    (∀ k : Nat, fitsInt (x + (ds.take k).sum)) →
    (ConnectPointerMovesAt (SyntaxElem.MovePointer x) (ds.map SyntaxElem.MovePointer)).1
      = (runningSum (some x) ds).toList.map SyntaxElem.MovePointer := by
  induction n with
  | zero =>
    intro x ds h _
    have hd : ds = [] := List.length_eq_zero.mp (Nat.le_zero.mp h)
    subst hd
    rfl
  | succ n ih =>
    intro x ds h hf
    cases ds with
    | nil => rfl
    | cons y ds =>
      simp only [List.length_cons] at h
      have hxy : wrapInt (x + y) = x + y := by
        have := hf 1
        simp only [List.take_succ_cons, List.take_zero, List.sum_cons, List.sum_nil,
          add_zero] at this
        exact wrapInt_of_fits _ this
      by_cases hz : x + y = 0
      · have hw : wrapInt (x + y) = 0 := by rw [hxy]; exact hz
        cases ds with
        | nil =>
          simp only [List.map_cons, List.map_nil]
          rw [ConnectPointerMovesAt_zero_nil x y hw]
          simp [runningSum, hz]
        | cons z ds =>
          simp only [List.map_cons, List.length_cons] at h ⊢
          rw [ConnectPointerMovesAt_zero_cons x y hw, ih z ds (by omega) (fun k => by
            have := hf (k + 2)
            simp only [List.take_succ_cons, List.sum_cons] at this
            rw [← add_assoc, ← add_assoc, hz, zero_add] at this
            exact this)]
          simp [runningSum, hz]
      · have hw : ¬ wrapInt (x + y) = 0 := by rw [hxy]; exact hz
        simp only [List.map_cons]
        rw [ConnectPointerMovesAt_merge x y hw, hxy, ih (x + y) ds (by omega) (fun k => by
          have := hf (k + 1)
          simp only [List.take_succ_cons, List.sum_cons] at this
          rw [← add_assoc] at this
          exact this)]
        simp [runningSum, hz]

theorem ConnectPointerMoves_run (ds : List Int) (hf : ∀ k : Nat, fitsInt ((ds.take k).sum)) :
    (ConnectPointerMoves (ds.map SyntaxElem.MovePointer)).1
      = (runningSum none ds).toList.map SyntaxElem.MovePointer := by
  cases ds with
  | nil => rfl
  | cons x ds =>
    exact ConnectPointerMovesAt_run ds.length x ds (Nat.le_refl _) (fun k => by
      have := hf (k + 1)
      simpa only [List.take_succ_cons, List.sum_cons] using this)

/-- The running sum ends at the sum of the run, or at `none` when that sum is zero. -/
theorem runningSum_eq (ds : List Int) : ∀ acc : Option Int,
    (runningSum acc ds = none ∧ acc.getD 0 + ds.sum = 0)
      ∨ runningSum acc ds = some (acc.getD 0 + ds.sum) := by
  induction ds with
  | nil =>
    intro acc
    cases acc with
    | none => left; simp [runningSum]
    | some s => right; simp [runningSum]
  | cons d ds ih =>
    intro acc
    cases acc with
    | none =>
      have := ih (some d)
      simpa [runningSum] using this
    | some s =>
      by_cases hz : s + d = 0
      · have := ih none
        simp only [runningSum, hz, if_true, Option.getD_some, List.sum_cons]
        simp only [Option.getD_none, zero_add] at this
        rw [← add_assoc, hz, zero_add]
        exact this
      · have := ih (some (s + d))
        simp only [runningSum, hz, if_false, Option.getD_some, List.sum_cons]
        simp only [Option.getD_some] at this
        rw [← add_assoc]
        exact this

/-- An instruction that is not a `MovePointer` separates what the loop does before
it from what it does after it. -/
theorem ConnectPointerMovesAt_barrier (a : SyntaxElem) (rest : Program) (e : SyntaxElem)
    (he : ∀ x : Int, e ≠ SyntaxElem.MovePointer x) :
    ∀ A B : Program, a :: rest = A ++ e :: B →
      (ConnectPointerMovesAt a rest).1
        = (ConnectPointerMoves A).1 ++ e :: (ConnectPointerMoves B).1 := by
  induction a, rest using ConnectPointerMovesAt.induct with
  | case1 a =>
    intro A B h
    cases A with
    | nil =>
      simp only [List.nil_append, List.cons.injEq] at h
      obtain ⟨rfl, hB⟩ := h
      rw [← hB]
      rfl
    | cons a' A =>
      simp only [List.cons_append, List.cons.injEq] at h
      have := congrArg List.length h.2
      simp only [List.length_nil, List.length_append, List.length_cons] at this
      omega
  | case2 x y h =>
    intro A B hA
    match A, hA with
    | [], hA =>
      simp only [List.nil_append, List.cons.injEq] at hA
      exact absurd hA.1.symm (he x)
    | [a1], hA =>
      simp only [List.cons_append, List.nil_append, List.cons.injEq] at hA
      exact absurd hA.2.1.symm (he y)
    | a1 :: a2 :: A, hA =>
      simp only [List.cons_append, List.cons.injEq] at hA
      have := congrArg List.length hA.2.2
      simp only [List.length_nil, List.length_append, List.length_cons] at this
      omega
  | case3 x y h c rest2 ih =>
    intro A B hA
    match A, hA with
    | [], hA =>
      simp only [List.nil_append, List.cons.injEq] at hA
      exact absurd hA.1.symm (he x)
    | [a1], hA =>
      simp only [List.cons_append, List.nil_append, List.cons.injEq] at hA
      exact absurd hA.2.1.symm (he y)
    | a1 :: a2 :: A, hA =>
      simp only [List.cons_append, List.cons.injEq] at hA
      obtain ⟨rfl, rfl, hA⟩ := hA
      rw [ConnectPointerMovesAt_zero_cons x y h, ih A B hA]
      congr 1
      cases A with
      | nil => simp [ConnectPointerMoves, ConnectPointerMovesAt_zero_nil x y h]
      | cons c' A => simp [ConnectPointerMoves, ConnectPointerMovesAt_zero_cons x y h]
  | case4 rest x y h ih =>
    intro A B hA
    match A, hA with
    | [], hA =>
      simp only [List.nil_append, List.cons.injEq] at hA
      exact absurd hA.1.symm (he x)
    | [a1], hA =>
      simp only [List.cons_append, List.nil_append, List.cons.injEq] at hA
      exact absurd hA.2.1.symm (he y)
    | a1 :: a2 :: A, hA =>
      simp only [List.cons_append, List.cons.injEq] at hA
      obtain ⟨rfl, rfl, hA⟩ := hA
      rw [ConnectPointerMovesAt_merge x y h,
        ih (SyntaxElem.MovePointer (wrapInt (x + y)) :: A) B (by rw [hA]; rfl)]
      congr 1
      simp [ConnectPointerMoves, ConnectPointerMovesAt_merge x y h]
  | case5 a b rest h ih =>
    intro A B hA
    rw [ConnectPointerMovesAt_skip a b rest h]
    cases A with
    | nil =>
      simp only [List.nil_append, List.cons.injEq] at hA
      obtain ⟨rfl, hB⟩ := hA
      rw [← hB]
      rfl
    | cons a' A =>
      simp only [List.cons_append, List.cons.injEq] at hA
      obtain ⟨rfl, hA⟩ := hA
      simp only
      rw [ih A B hA]
      cases A with
      | nil => rfl
      | cons b' A =>
        simp only [List.cons_append, List.cons.injEq] at hA
        obtain ⟨rfl, hA⟩ := hA
        simp only [ConnectPointerMoves, List.cons_append]
        rw [ConnectPointerMovesAt_skip a b A h]
        rfl

/-- C16, as stated, fails: on the run `MovePointer 2147483647`, `MovePointer 1` the
running sum is `2147483648`, and the rule, which adds in an `int`, leaves
`MovePointer (-2147483648)`. -/
theorem ConnectPointerMoves_overflow :
    (ConnectPointerMoves ([2147483647, 1].map SyntaxElem.MovePointer)).1
        = [SyntaxElem.MovePointer (-2147483648)]
      ∧ (runningSum none [2147483647, 1]).toList.map SyntaxElem.MovePointer
        = [SyntaxElem.MovePointer 2147483648]
      ∧ (ConnectPointerMoves ([2147483647, 1].map SyntaxElem.MovePointer)).1
        ≠ (runningSum none [2147483647, 1]).toList.map SyntaxElem.MovePointer := by
  decide

/-- C16, amended. One pass of the rule that merges pointer moves is complete: after
one call of `ConnectPointerMoves` no two adjacent `MovePointer` are left, also
where a merge came to zero and both instructions were erased.  A run of
`MovePointer` whose sums from the left are all in the range of `int` becomes what
the running sum from left to right leaves: nothing (then the sum of the run is
zero) or one `MovePointer` with the sum of the run; and an instruction that is
not a `MovePointer` stays where it is, with the program before it and the program
after it merged separately. -/
theorem ConnectPointerMoves_complete (P : Program) :
    (∀ x y : Int, ¬ [SyntaxElem.MovePointer x, SyntaxElem.MovePointer y]
        <:+: (ConnectPointerMoves P).1)
      ∧ (∀ ds : List Int,
          ((∀ k : Nat, fitsInt ((ds.take k).sum)) →
            (ConnectPointerMoves (ds.map SyntaxElem.MovePointer)).1
              = (runningSum none ds).toList.map SyntaxElem.MovePointer)
            ∧ ((runningSum none ds = none ∧ ds.sum = 0) ∨ runningSum none ds = some ds.sum))
      ∧ (∀ (A B : Program) (e : SyntaxElem), (∀ x : Int, e ≠ SyntaxElem.MovePointer x) →
          (ConnectPointerMoves (A ++ e :: B)).1
            = (ConnectPointerMoves A).1 ++ e :: (ConnectPointerMoves B).1) := by
  refine ⟨?_, ?_, ?_⟩
  · cases P with
    | nil =>
      intro x y h
      have := h.length_le
      simp [ConnectPointerMoves] at this
    | cons a rest => exact ConnectPointerMovesAt_no_pair_after a rest
  · intro ds
    refine ⟨ConnectPointerMoves_run ds, ?_⟩
    simpa using runningSum_eq ds none
  · intro A B e he
    cases A with
    | nil => exact ConnectPointerMovesAt_other e B he
    | cons a A => exact ConnectPointerMovesAt_barrier a (A ++ e :: B) e he (a :: A) B rfl

theorem ConnectPointerMoves_complete_witness :
    (∀ k : Nat, fitsInt (([3, -3, 4, 1].take k).sum))
      ∧ (ConnectPointerMoves ([3, -3, 4, 1].map SyntaxElem.MovePointer)).1
          = [SyntaxElem.MovePointer 5]
      ∧ (ConnectPointerMoves [SyntaxElem.MovePointer 1, SyntaxElem.MovePointer 2,
            SyntaxElem.PrintValue, SyntaxElem.MovePointer (-1), SyntaxElem.MovePointer 1]).1
          = [SyntaxElem.MovePointer 3, SyntaxElem.PrintValue] := by
  have hf : ∀ k : Nat, fitsInt (([3, -3, 4, 1].take k).sum) := by
    intro k
    match k with
    | 0 => decide
    | 1 => decide
    | 2 => decide
    | 3 => decide
    | k + 4 => simp only [List.take_succ_cons, List.take_nil]; decide
  have h := ConnectPointerMoves_complete []
  refine ⟨hf, ((h.2.1 [3, -3, 4, 1]).1 hf).trans (by decide), ?_⟩
  exact (h.2.2 [SyntaxElem.MovePointer 1, SyntaxElem.MovePointer 2]
    [SyntaxElem.MovePointer (-1), SyntaxElem.MovePointer 1] SyntaxElem.PrintValue
    (fun x hx => by cases hx)).trans (by decide)

/-! ## Indentation of the emitted text -/

theorem renderBlock_append (j : Nat) (X Y : Block) :
    renderBlock j (X ++ Y) = renderBlock j X ++ renderBlock j Y := by
  induction X with
  | nil => simp [renderBlock]
  | cons x X ih =>
    cases x with
    | op e => simp only [List.cons_append, renderBlock, ih, String.append_assoc]
    | loop body => simp only [List.cons_append, renderBlock, ih, String.append_assoc]

/-- The emitter on an instruction other than a loop delimiter, at a depth that is
not negative: it appends the line of the instruction, if it has one, and keeps
the depth. -/
theorem Print_op (e : SyntaxElem) (h : isOp e = true) (result : String) (n : Nat) :
    e.Print result (n : Int)
      = some (result ++ (match statementText e with
                         | none => ""
                         | some text => line n text), (n : Int)) := by
  cases e with
  | LoopStart => exact absurd h (by decide)
  | LoopEnd => exact absurd h (by decide)
  | AssignValue v =>
    simp only [SyntaxElem.Print, PrintBegin_nat, Option.map_some', statementText, line,
      String.append_assoc]
  | PrintValue =>
    simp only [SyntaxElem.Print, PrintBegin_nat, Option.map_some', statementText, line,
      String.append_assoc]
  | ReadValue =>
    simp only [SyntaxElem.Print, PrintBegin_nat, Option.map_some', statementText, line,
      String.append_assoc]
  | ChangeValue v =>
    by_cases h0 : v = 0
    · simp [SyntaxElem.Print, statementText, h0]
    · by_cases h1 : v > 0 <;>
        simp only [SyntaxElem.Print, PrintBegin_nat, Option.map_some', statementText, line,
          String.append_assoc, if_neg h0, h1, if_true, if_false]
  | MovePointer v =>
    by_cases h0 : v = 0
    · simp [SyntaxElem.Print, statementText, h0]
    · by_cases h1 : v > 0 <;>
        simp only [SyntaxElem.Print, PrintBegin_nat, Option.map_some', statementText, line,
          String.append_assoc, if_neg h0, h1, if_true, if_false]

/-- One instruction: the emitter follows the pairing of the delimiters, with the
depth counter one more than the number of open loops. -/
theorem Print_pairStep (e : SyntaxElem) (s t : Block × List Block) (h : pairStep s e = some t)
    (o : String) :
    e.Print (o ++ renderState s) ((1 + s.2.length : Nat) : Int)
      = some (o ++ renderState t, ((1 + t.2.length : Nat) : Int)) := by
  obtain ⟨c, stack⟩ := s
  cases e with
  | LoopStart =>
    simp only [pairStep, Option.some.injEq] at h
    subst h
    simp only [SyntaxElem.Print, PrintBegin_nat, Option.map_some', renderState, renderFrames,
      renderBlock, line, String.append_assoc, List.length_cons]
    simp [String.append_assoc]
    omega
  | LoopEnd =>
    cases stack with
    | nil => simp [pairStep] at h
    | cons outer stack =>
      simp only [pairStep, Option.some.injEq] at h
      subst h
      have hd : (((1 + (outer :: stack).length : Nat) : Int) - 1) = ((1 + stack.length : Nat) : Int) := by
        simp only [List.length_cons]
        push_cast
        ring
      simp only [SyntaxElem.Print]
      rw [hd, PrintBegin_nat]
      simp only [Option.map_some', renderState, renderFrames, renderBlock_append, renderBlock,
        line, String.append_assoc, List.length_cons]
      simp [String.append_assoc]
  | AssignValue v =>
    simp only [pairStep, Option.some.injEq] at h
    subst h
    rw [Print_op (SyntaxElem.AssignValue v) rfl]
    simp only [renderState, renderBlock_append, renderBlock, String.append_assoc]
    simp
  | ChangeValue v =>
    simp only [pairStep, Option.some.injEq] at h
    subst h
    rw [Print_op (SyntaxElem.ChangeValue v) rfl]
    simp only [renderState, renderBlock_append, renderBlock, String.append_assoc]
    simp
  | MovePointer v =>
    simp only [pairStep, Option.some.injEq] at h
    subst h
    rw [Print_op (SyntaxElem.MovePointer v) rfl]
    simp only [renderState, renderBlock_append, renderBlock, String.append_assoc]
    simp
  | PrintValue =>
    simp only [pairStep, Option.some.injEq] at h
    subst h
    rw [Print_op SyntaxElem.PrintValue rfl]
    simp only [renderState, renderBlock_append, renderBlock, String.append_assoc]
    simp
  | ReadValue =>
    simp only [pairStep, Option.some.injEq] at h
    subst h
    rw [Print_op SyntaxElem.ReadValue rfl]
    simp only [renderState, renderBlock_append, renderBlock, String.append_assoc]
    simp

/-- The emitter follows the pairing of the delimiters over a whole program. -/
theorem PrintLoop_pairLoops (P : Program) : ∀ (s t : Block × List Block),
    pairLoops P s = some t → ∀ o : String,
      PrintLoop P (o ++ renderState s) ((1 + s.2.length : Nat) : Int)
        = some (o ++ renderState t, ((1 + t.2.length : Nat) : Int)) := by
  induction P with
  | nil =>
    intro s t h o
    simp only [pairLoops, Option.some.injEq] at h
    subst h
    rfl
  | cons e rest ih =>
    intro s t h o
    simp only [pairLoops] at h
    cases hu : pairStep s e with
    | none => rw [hu] at h; cases h
    | some u =>
      rw [hu] at h
      simp only [PrintLoop, Print_pairStep e s u hu o]
      exact ih u t h o

/-- The pairing of the delimiters does not fail on the start of a program on which
it does not fail. -/
theorem pairLoops_prefix (A B : Program) (s t : Block × List Block)
    (h : pairLoops (A ++ B) s = some t) : ∃ u, pairLoops A s = some u := by
  rw [pairLoops_append] at h
  cases hu : pairLoops A s with
  | none => rw [hu] at h; cases h
  | some u => exact ⟨u, rfl⟩

/-- C13. Indentation of the emitter under balanced loops: for a program with
balanced loop delimiters, emitting from depth 1 gives the text of its nested form,
in which every line has `1 + j` tabs for an instruction inside `j` loops and the
closing line of a loop has the indentation of its opening line; the depth counter
ends at 1, and after every initial part of the program it is 1 plus the number of
loops open there, so never below 1. -/
theorem Print_indentation (P : Program) (h : BalancedLoops P) :
    ∃ T : Block, nesting P = some T
      ∧ PrintLoop P "" 1 = some (renderBlock 0 T, 1)
      ∧ Print P = some (renderBlock 0 T)
      ∧ ∀ A B : Program, P = A ++ B →
          ∃ (o : String) (d : Int) (k : Nat), PrintLoop A "" 1 = some (o, d)
            ∧ depthAfter A 0 = some k ∧ d = 1 + (k : Int) ∧ 1 ≤ d := by
  obtain ⟨T, hT⟩ := (BalancedLoops_iff_nesting P).mp h
  have hp : pairLoops P ([], []) = some (T, []) := by
    unfold nesting at hT
    cases hq : pairLoops P ([], []) with
    | none => rw [hq] at hT; cases hT
    | some s =>
      obtain ⟨top, stack⟩ := s
      rw [hq] at hT
      cases stack with
      | cons x xs => cases hT
      | nil =>
        simp only [Option.some.injEq] at hT
        rw [hT]
  have key : ∀ (A : Program) (t : Block × List Block), pairLoops A ([], []) = some t →
      PrintLoop A "" 1 = some (renderState t, ((1 + t.2.length : Nat) : Int)) := by
    intro A t ht
    have := PrintLoop_pairLoops A ([], []) t ht ""
    simpa [renderState, renderFrames, renderBlock] using this
  have hP := key P (T, []) hp
  simp only [renderState, renderFrames, List.length_nil, String.empty_append] at hP
  refine ⟨T, hT, by simpa using hP, by rw [Print]; simp [hP], ?_⟩
  intro A B hAB
  rw [hAB] at hp
  obtain ⟨u, hu⟩ := pairLoops_prefix A B _ _ hp
  have hd := pairLoops_depth A ([], [])
  rw [hu] at hd
  simp only [Option.map_some', List.length_nil] at hd
  refine ⟨renderState u, _, u.2.length, key A u hu, hd.symm, by push_cast; ring, ?_⟩
  push_cast
  omega

theorem Print_indentation_witness :
    BalancedLoops [SyntaxElem.LoopStart, SyntaxElem.MovePointer 1, SyntaxElem.LoopStart,
        SyntaxElem.ChangeValue (-1), SyntaxElem.LoopEnd, SyntaxElem.LoopEnd]
      ∧ Print [SyntaxElem.LoopStart, SyntaxElem.MovePointer 1, SyntaxElem.LoopStart,
          SyntaxElem.ChangeValue (-1), SyntaxElem.LoopEnd, SyntaxElem.LoopEnd]
        = some ("\n\twhile(*p) \x7b\n\t\tp += 1;\n\t\twhile(*p) \x7b\n\t\t\t*p -= 1;"
            ++ "\n\t\t\x7d\n\t\x7d")
      ∧ ∃ T : Block,
          nesting [SyntaxElem.LoopStart, SyntaxElem.MovePointer 1, SyntaxElem.LoopStart,
            SyntaxElem.ChangeValue (-1), SyntaxElem.LoopEnd, SyntaxElem.LoopEnd] = some T
          ∧ Print [SyntaxElem.LoopStart, SyntaxElem.MovePointer 1, SyntaxElem.LoopStart,
              SyntaxElem.ChangeValue (-1), SyntaxElem.LoopEnd, SyntaxElem.LoopEnd]
            = some (renderBlock 0 T) := by
  refine ⟨by decide, by decide, ?_⟩
  obtain ⟨T, h1, _, h3, _⟩ := Print_indentation [SyntaxElem.LoopStart, SyntaxElem.MovePointer 1,
    SyntaxElem.LoopStart, SyntaxElem.ChangeValue (-1), SyntaxElem.LoopEnd, SyntaxElem.LoopEnd]
    (by decide)
  exact ⟨T, h1, h3⟩

end BrainfuckDecompiler
